import Mathlib

/-!
# Verification of the regex engine core

A shallow embedding of the core of a regular-expression matching engine:
the character abstraction (`char.rs`), the input cursor (`input.rs`), the
literal-prefix scanners, the compiled instruction model (`program.rs`),
the NFA-simulation virtual machine (`nfa.rs`) and the bounded-backtracking
virtual machine (`backtrack.rs`).

Machine characters are embedded as `Nat` holding the `u32` payload of the
`Char(u32)` wrapper; the absent sentinel is `u32::MAX`.  Texts are lists of
scalar values; byte offsets are computed through UTF-8 encoded lengths.
The Unicode case folder and the word-character classifier live in an
external collaborator crate, so they are taken as parameters (`fold`,
`isw`) everywhere.
-/

set_option maxHeartbeats 1000000

/-- The `u32::MAX` payload marking the absent character (`Char::is_none`). -/
def NOCHAR : Nat := 4294967295

/-- `char::from_u32` succeeds exactly on Unicode scalar values. -/
def isScalarValue (c : Nat) : Bool :=
  decide (c < 1114112) && !(decide (55296 ≤ c) && decide (c ≤ 57343))

/-- `char::len_utf8` for a genuine scalar value. -/
def scalarUtf8Len (c : Nat) : Nat :=
  if c < 128 then 1 else if c < 2048 then 2 else if c < 65536 then 3 else 4

/-- `Char::len_utf8`: decode the `u32`; absent (or non-scalar) payloads give 0. -/
def charLenUtf8 (c : Nat) : Nat :=
  if isScalarValue c then scalarUtf8Len c else 0

/-- `Char::case_fold`, parametrized by the external simple case folder. -/
def charCaseFold (fold : Nat → Nat) (c : Nat) : Nat :=
  if isScalarValue c then fold c else NOCHAR

/-- `Char::is_word_char`, parametrized by the external classifier. -/
def charIsWord (isw : Nat → Bool) (c : Nat) : Bool :=
  if isScalarValue c then isw c else false

/-- `Char::is_none`. -/
def charIsNone (c : Nat) : Bool := c == NOCHAR

/-- Total UTF-8 encoded length of a text (the `str` byte length). -/
def byteLen (ts : List Nat) : Nat := (ts.map charLenUtf8).sum

/-- The suffix of the text starting at byte offset `i` (chars of `self[i..]`).
Meaningful when `i` is a character boundary. -/
def suffixFrom : List Nat → Nat → List Nat
  | ts, 0 => ts
  | [], Nat.succ _ => []
  | t :: ts, Nat.succ i => suffixFrom ts (Nat.succ i - charLenUtf8 t)

/-- The chars of `self[..i]`, i.e. those fully inside the first `i` bytes. -/
def prefixTo : List Nat → Nat → List Nat
  | _, 0 => []
  | [], Nat.succ _ => []
  | t :: ts, Nat.succ i =>
    if charLenUtf8 t ≤ Nat.succ i then t :: prefixTo ts (Nat.succ i - charLenUtf8 t)
    else []

/-- `i` is a UTF-8 character boundary of the text (0 and `byteLen` included). -/
def isBoundary : List Nat → Nat → Bool
  | _, 0 => true
  | [], Nat.succ _ => false
  | t :: ts, Nat.succ i =>
    charLenUtf8 t ≤ Nat.succ i && isBoundary ts (Nat.succ i - charLenUtf8 t)

/-- `self[i..].chars().next()` as a `Char` payload. -/
def headChar (ts : List Nat) : Nat :=
  match ts with
  | [] => NOCHAR
  | t :: _ => t

/-- `self[..i].chars().rev().next()` as a `Char` payload. -/
def lastChar (ts : List Nat) : Nat :=
  match ts.getLast? with
  | some c => c
  | none => NOCHAR

/-- `InputAt`: a positioned snapshot produced by the input cursor. -/
structure InputAt where
  pos : Nat
  c : Nat
  len : Nat
deriving Repr, DecidableEq

/-- `InputAt::is_beginning`. -/
def InputAt.isBeginning (a : InputAt) : Bool := a.pos == 0

/-- `InputAt::is_end`. -/
def InputAt.isEnd (a : InputAt) : Bool := charIsNone a.c

/-- `InputAt::next_pos`. -/
def InputAt.nextPos (a : InputAt) : Nat := a.pos + a.len

/-- `CharInput::at`: the character starting at byte `i`. -/
def inputAt (ts : List Nat) (i : Nat) : InputAt :=
  let c := headChar (suffixFrom ts i)
  { pos := i, c := c, len := charLenUtf8 c }

/-- `CharInput::previous_at`: the character ending at byte `i`. -/
def previousAt (ts : List Nat) (i : Nat) : InputAt :=
  let c := lastChar (prefixTo ts i)
  let len := charLenUtf8 c
  { pos := i - len, c := c, len := len }

/-- UTF-8 encoding of one scalar value. -/
def utf8Encode (c : Nat) : List Nat :=
  if c < 128 then [c]
  else if c < 2048 then [192 + c / 64, 128 + c % 64]
  else if c < 65536 then [224 + c / 4096, 128 + c / 64 % 64, 128 + c % 64]
  else [240 + c / 262144, 128 + c / 4096 % 64, 128 + c / 64 % 64, 128 + c % 64]

/-- `str::as_bytes` of a text. -/
def encodeList (ts : List Nat) : List Nat := (ts.map utf8Encode).flatten

/-- The window scan of `find_prefix` (input.rs): `windows(nlen).enumerate()`;
a window shorter than the needle never compares equal, so running past the
last full window returns `none` exactly like the iterator ending. -/
def findPrefixLoop (needle : List Nat) : List Nat → Nat → Option Nat
  | hs, off =>
    if hs.take needle.length == needle then some off
    else
      match hs with
      | [] => none
      | _ :: t => findPrefixLoop needle t (off + 1)

/-- `find_prefix` (input.rs): byte-exact search for one needle. -/
def findPrefixBytes (needle haystack : List Nat) : Option Nat :=
  if needle.length > haystack.length || needle.length == 0 then none
  else findPrefixLoop needle haystack 0

/-- The `hi` loop of `find_prefixes` (input.rs): `haystack[hi..ub]` with
`ub = min(hi + needle.len(), haystack.len())` is exactly
`(haystack.drop hi).take needle.length`. -/
def findPrefixesLoop (needles : List (List Nat)) : List Nat → Nat → Option Nat
  | [], _ => none
  | h :: t, hi =>
    if needles.any (fun nd => (h :: t).take nd.length == nd) then some hi
    else findPrefixesLoop needles t (hi + 1)

/-- `find_prefixes` (input.rs): leftmost position where any needle begins. -/
def findPrefixes (needles : List (List Nat)) (haystack : List Nat) : Option Nat :=
  findPrefixesLoop needles haystack 0

/-- `CharInput::prefix_at`. -/
def prefixAt (text : List Nat) (prefixes : List (List Nat)) (a : InputAt) :
    Option InputAt :=
  match prefixes with
  | [] => some a
  | [p] =>
    (findPrefixBytes p ((encodeList text).drop a.pos)).map
      (fun adv => inputAt text (a.pos + adv))
  | ps =>
    (findPrefixes ps ((encodeList text).drop a.pos)).map
      (fun adv => inputAt text (a.pos + adv))

example : inputAt [97, 955, 98] 1 = { pos := 1, c := 955, len := 2 } := by decide
example : previousAt [97, 955, 98] 3 = { pos := 1, c := 955, len := 2 } := by decide
example : findPrefixBytes [98, 99] [97, 98, 99, 100] = some 1 := by decide
example : findPrefixBytes [] [97] = none := by decide
example : findPrefixes [[], [97]] [98, 99] = some 0 := by decide

/-- `LookInst`: the zero-width assertion kinds. -/
inductive LookInst where
  | StartLine
  | EndLine
  | StartText
  | EndText
  | WordBoundary
  | NotWordBoundary
deriving Repr, DecidableEq

/-- `OneChar`: a literal character instruction payload. -/
structure OneChar where
  c : Nat
  casei : Bool
deriving Repr, DecidableEq

/-- `CharRanges`: a sorted interval list instruction payload. -/
structure CharRanges where
  ranges : List (Nat × Nat)
  casei : Bool
deriving Repr, DecidableEq

/-- `Inst`: the instruction set of a compiled regular expression. -/
inductive Inst where
  | Match
  | Save (slot : Nat)
  | Jump (pc : Nat)
  | Split (x y : Nat)
  | EmptyLook (l : LookInst)
  | Char (oc : OneChar)
  | Ranges (cr : CharRanges)
deriving Repr, DecidableEq

/-- `OneChar::matches`. -/
def OneChar.matches (fold : Nat → Nat) (oc : OneChar) (c : Nat) : Bool :=
  oc.c == c || (oc.casei && oc.c == charCaseFold fold c)

/-- The linear probe of `CharRanges::matches`: `for i in 0..min(len, 4)`,
walking the first `k` intervals at index `i`. -/
def probeRanges (c : Nat) : List (Nat × Nat) → Nat → Nat → Option (Option Nat)
  | _, _, 0 => none
  | [], _, Nat.succ _ => none
  | r :: rs, i, Nat.succ k =>
    if c < r.1 then some none
    else if c ≤ r.2 then some (some i)
    else probeRanges c rs (i + 1) k

/-- The comparator passed to `binary_search_by` in `CharRanges::matches`. -/
def rangeCmp (c : Nat) (r : Nat × Nat) : Ordering :=
  if r.2 < c then Ordering.lt
  else if r.1 > c then Ordering.gt
  else Ordering.eq

/-- `slice::binary_search_by` (`base`/`lim` halving loop), fused with `.ok()`.
`lim` strictly decreases at every iteration, so running the loop on a
structural counter initialized to `lim` is exact (see
`binarySearchGo_fuel`). -/
def binarySearchGo (c : Nat) (rs : List (Nat × Nat)) :
    Nat → Nat → Nat → Option Nat
  | 0, _, _ => none
  | Nat.succ fuel, base, lim =>
    if lim = 0 then none
    else
      let ix := base + lim / 2
      match rangeCmp c (rs.getD ix (0, 0)) with
      | Ordering.eq => some ix
      | Ordering.lt => binarySearchGo c rs fuel (ix + 1) ((lim - 1) / 2)
      | Ordering.gt => binarySearchGo c rs fuel base (lim / 2)

/-- `slice::binary_search_by` entry point. -/
def binarySearchRanges (c : Nat) (rs : List (Nat × Nat)) (base lim : Nat) :
    Option Nat :=
  binarySearchGo c rs lim base lim

/-- `CharRanges::matches`: case fold, linear probe of the first four
intervals, then binary search. -/
def CharRanges.matches (fold : Nat → Nat) (cr : CharRanges) (c0 : Nat) :
    Option Nat :=
  let c := if cr.casei then charCaseFold fold c0 else c0
  match probeRanges c cr.ranges 0 (min cr.ranges.length 4) with
  | some r => r
  | none => binarySearchRanges c cr.ranges 0 cr.ranges.length

/-- `LookInst::matches`. -/
def LookInst.matches (isw : Nat → Bool) (l : LookInst) (c1 c2 : Nat) : Bool :=
  match l with
  | LookInst.StartLine => charIsNone c1 || c1 == 10
  | LookInst.EndLine => charIsNone c2 || c2 == 10
  | LookInst.StartText => charIsNone c1
  | LookInst.EndText => charIsNone c2
  | wbty =>
    let w1 := charIsWord isw c1
    let w2 := charIsWord isw c2
    (wbty == LookInst.WordBoundary && (w1 != w2)) ||
      (wbty == LookInst.NotWordBoundary && !(w1 != w2))

/-- `Program`: the compiled form consumed by both virtual machines (the
capture-name table, original pattern and scratch pools carry no logic). -/
structure Program where
  insts : List Inst
  prefixes : List (List Nat)
  anchored_begin : Bool
  anchored_end : Bool
deriving Repr

/-- Instruction fetch `prog.insts[pc]` (out-of-range fetches never occur in
well-formed runs; the default is arbitrary). -/
def instAt (insts : List Inst) (pc : Nat) : Inst := insts.getD pc Inst.Match

/-- `num_captures` (program.rs): `(highest Save slot + 1) / 2`. -/
def numCaptures (insts : List Inst) : Nat :=
  (insts.foldl
    (fun n i =>
      match i with
      | Inst.Save c => max n (c + 1)
      | _ => n) 0) / 2

/-- The `anchored_begin` assignment in `Program::new`. -/
def anchoredBeginOf (insts : List Inst) : Bool :=
  match insts.getD 1 Inst.Match with
  | Inst.EmptyLook LookInst.StartText => true
  | _ => false

/-- The `anchored_end` assignment in `Program::new`. -/
def anchoredEndOf (insts : List Inst) : Bool :=
  match insts.getD (insts.length - 3) Inst.Match with
  | Inst.EmptyLook LookInst.EndText => true
  | _ => false

example :
    CharRanges.matches id { ranges := [(48, 57), (65, 90)], casei := false } 66 =
      some 1 := by decide
example :
    CharRanges.matches id { ranges := [(48, 57), (65, 90)], casei := false } 60 =
      none := by decide
example :
    CharRanges.matches id
      { ranges :=
          [(10, 10), (20, 20), (30, 30), (40, 40), (50, 50), (60, 60), (70, 70)],
        casei := false } 60 = some 5 := by decide
example :
    CharRanges.matches id
      { ranges :=
          [(10, 10), (20, 20), (30, 30), (40, 40), (50, 50), (60, 60), (70, 70)],
        casei := false } 55 = none := by decide

/-- The sortedness the compiler guarantees for `CharRanges`: each interval is
proper and consecutive intervals do not touch. -/
def SortedDisjoint (rs : List (Nat × Nat)) : Prop :=
  (∀ r ∈ rs, r.1 ≤ r.2) ∧ rs.Chain' (fun a b => a.2 < b.1)

/-- The naive membership scan that `CharRanges::matches` is measured
against (this definition follows the spec's words, not the code). -/
def CharRanges.naiveScan (fold : Nat → Nat) (cr : CharRanges) (c0 : Nat) : Bool :=
  let c := if cr.casei then charCaseFold fold c0 else c0
  cr.ranges.any (fun r => decide (r.1 ≤ c) && decide (c ≤ r.2))

theorem chain_hi_lt_lo : ∀ {r : Nat × Nat} {rs : List (Nat × Nat)},
    (∀ s ∈ r :: rs, s.1 ≤ s.2) →
    List.Chain' (fun a b => a.2 < b.1) (r :: rs) →
    ∀ s ∈ rs, r.2 < s.1 := by
  intro r rs
  induction rs generalizing r with
  | nil => intro _ _ s hs; cases hs
  | cons a as ih =>
    intro hlohi hchain s hs
    rw [List.chain'_cons] at hchain
    rcases List.mem_cons.mp hs with rfl | hs
    · exact hchain.1
    · have ha : a.1 ≤ a.2 := hlohi a (by simp)
      have hsub : ∀ u ∈ a :: as, u.1 ≤ u.2 := fun u hu =>
        hlohi u (List.mem_cons_of_mem _ hu)
      have := ih hsub hchain.2 s hs
      have hra : r.2 < a.1 := hchain.1
      omega

theorem sortedDisjoint_cons {r : Nat × Nat} {rs : List (Nat × Nat)}
    (h : SortedDisjoint (r :: rs)) :
    SortedDisjoint rs ∧ (∀ s ∈ rs, r.2 < s.1) ∧ r.1 ≤ r.2 := by
  obtain ⟨hlohi, hchain⟩ := h
  exact ⟨⟨fun s hs => hlohi s (List.mem_cons_of_mem _ hs),
      (List.chain'_cons'.mp hchain).2⟩,
    chain_hi_lt_lo hlohi hchain,
    hlohi r (List.mem_cons_self _ _)⟩

theorem sortedDisjoint_getD {rs : List (Nat × Nat)} (h : SortedDisjoint rs) :
    ∀ i j, i < j → j < rs.length →
      (rs.getD i (0, 0)).2 < (rs.getD j (0, 0)).1 := by
  induction rs with
  | nil => intro i j _ hj; simp at hj
  | cons r rest ih =>
    intro i j hij hj
    obtain ⟨hrest, hall, _⟩ := sortedDisjoint_cons h
    cases i with
    | zero =>
      cases j with
      | zero => omega
      | succ j' =>
        simp only [List.getD_cons_zero, List.getD_cons_succ]
        have hj' : j' < rest.length := by simpa using hj
        rw [List.getD_eq_getElem _ _ hj']
        exact hall _ (List.getElem_mem _)
    | succ i' =>
      cases j with
      | zero => omega
      | succ j' =>
        simp only [List.getD_cons_succ]
        exact ih hrest i' j' (by omega) (by simpa using hj)

theorem sortedDisjoint_lohi {rs : List (Nat × Nat)} (h : SortedDisjoint rs)
    {i : Nat} (hi : i < rs.length) : (rs.getD i (0, 0)).1 ≤ (rs.getD i (0, 0)).2 := by
  rw [List.getD_eq_getElem _ _ hi]
  exact h.1 _ (List.getElem_mem _)

theorem rangeCmp_lt_iff {c : Nat} {r : Nat × Nat} :
    rangeCmp c r = Ordering.lt ↔ r.2 < c := by
  unfold rangeCmp; split_ifs <;> simp_all

theorem rangeCmp_eq_iff {c : Nat} {r : Nat × Nat} :
    rangeCmp c r = Ordering.eq ↔ (r.1 ≤ c ∧ c ≤ r.2) := by
  unfold rangeCmp; split_ifs <;> simp_all <;> omega

theorem rangeCmp_gt_iff {c : Nat} {r : Nat × Nat} :
    rangeCmp c r = Ordering.gt ↔ (c ≤ r.2 ∧ c < r.1) := by
  unfold rangeCmp; split_ifs <;> simp_all <;> omega

theorem binarySearchGo_isSome {c : Nat} {rs : List (Nat × Nat)}
    (hs : SortedDisjoint rs) :
    ∀ lim fuel base, lim ≤ fuel → base + lim ≤ rs.length →
      ((binarySearchGo c rs fuel base lim).isSome = true ↔
        ∃ k, base ≤ k ∧ k < base + lim ∧
          rangeCmp c (rs.getD k (0, 0)) = Ordering.eq) := by
  intro lim
  induction lim using Nat.strong_induction_on with
  | _ lim ih =>
    intro fuel base hf hlen
    match lim, fuel with
    | 0, fuel =>
      have : binarySearchGo c rs fuel base 0 = none := by
        cases fuel <;> simp [binarySearchGo]
      rw [this]
      simp only [Option.isSome_none, Bool.false_eq_true, false_iff]
      rintro ⟨k, h1, h2, _⟩
      omega
    | Nat.succ l, Nat.succ f =>
      have hix : base + (l + 1) / 2 < rs.length := by omega
      have hlo := sortedDisjoint_lohi hs hix
      rw [show binarySearchGo c rs (Nat.succ f) base (Nat.succ l) =
          (match rangeCmp c (rs.getD (base + (l + 1) / 2) (0, 0)) with
           | Ordering.eq => some (base + (l + 1) / 2)
           | Ordering.lt =>
             binarySearchGo c rs f (base + (l + 1) / 2 + 1) ((l + 1 - 1) / 2)
           | Ordering.gt => binarySearchGo c rs f base ((l + 1) / 2)) from by
        simp [binarySearchGo]]
      cases hcmp : rangeCmp c (rs.getD (base + (l + 1) / 2) (0, 0)) with
      | eq =>
        simp only [Option.isSome_some, true_iff]
        exact ⟨base + (l + 1) / 2, by omega, by omega, hcmp⟩
      | lt =>
        rw [ih ((l + 1 - 1) / 2) (by omega) f (base + (l + 1) / 2 + 1)
          (by omega) (by omega)]
        constructor
        · rintro ⟨k, h1, h2, h3⟩
          exact ⟨k, by omega, by omega, h3⟩
        · rintro ⟨k, h1, h2, h3⟩
          refine ⟨k, ?_, by omega, h3⟩
          by_contra hk
          push_neg at hk
          have hhi : (rs.getD (base + (l + 1) / 2) (0, 0)).2 < c :=
            rangeCmp_lt_iff.mp hcmp
          rcases Nat.lt_or_ge k (base + (l + 1) / 2) with hlt | hge
          · have := sortedDisjoint_getD hs k (base + (l + 1) / 2) hlt hix
            have hk2 := (rangeCmp_eq_iff.mp h3).2
            omega
          · have hkix : k = base + (l + 1) / 2 := by omega
            rw [hkix, hcmp] at h3
            simp at h3
      | gt =>
        rw [ih ((l + 1) / 2) (by omega) f base (by omega) (by omega)]
        have hgt : c < (rs.getD (base + (l + 1) / 2) (0, 0)).1 :=
          (rangeCmp_gt_iff.mp hcmp).2
        constructor
        · rintro ⟨k, h1, h2, h3⟩
          exact ⟨k, h1, by omega, h3⟩
        · rintro ⟨k, h1, h2, h3⟩
          refine ⟨k, h1, ?_, h3⟩
          by_contra hk
          push_neg at hk
          have hk1 := (rangeCmp_eq_iff.mp h3).1
          rcases Nat.lt_or_ge (base + (l + 1) / 2) k with hlt | hge
          · have hk' : k < rs.length := by omega
            have := sortedDisjoint_getD hs (base + (l + 1) / 2) k hlt hk'
            omega
          · have hkix : k = base + (l + 1) / 2 := by omega
            rw [hkix, hcmp] at h3
            simp at h3

theorem probeRanges_someSome {c : Nat} :
    ∀ (rs : List (Nat × Nat)) (i k j : Nat),
      probeRanges c rs i k = some (some j) → ∃ r ∈ rs, r.1 ≤ c ∧ c ≤ r.2 := by
  intro rs
  induction rs with
  | nil => intro i k j h; cases k <;> simp [probeRanges] at h
  | cons r rest ih =>
    intro i k j h
    cases k with
    | zero => simp [probeRanges] at h
    | succ k' =>
      rw [show probeRanges c (r :: rest) i (Nat.succ k') =
          (if c < r.1 then some none
           else if c ≤ r.2 then some (some i)
           else probeRanges c rest (i + 1) k') from rfl] at h
      split_ifs at h with h1 h2
      · cases h
      · exact ⟨r, by simp, by omega⟩
      · obtain ⟨s, hs1, hs2⟩ := ih (i + 1) k' j h
        exact ⟨s, List.mem_cons_of_mem _ hs1, hs2⟩

theorem probeRanges_someNone {c : Nat} :
    ∀ (rs : List (Nat × Nat)) (i k : Nat), SortedDisjoint rs →
      probeRanges c rs i k = some none →
      ∀ r ∈ rs, ¬(r.1 ≤ c ∧ c ≤ r.2) := by
  intro rs
  induction rs with
  | nil => intro i k _ h; cases k <;> simp [probeRanges] at h
  | cons r rest ih =>
    intro i k hsort h s hsmem
    obtain ⟨hrest, hall, hrlohi⟩ := sortedDisjoint_cons hsort
    cases k with
    | zero => simp [probeRanges] at h
    | succ k' =>
      rw [show probeRanges c (r :: rest) i (Nat.succ k') =
          (if c < r.1 then some none
           else if c ≤ r.2 then some (some i)
           else probeRanges c rest (i + 1) k') from rfl] at h
      split_ifs at h with h1 h2
      · rcases List.mem_cons.mp hsmem with rfl | hs
        · omega
        · have := hall s hs
          omega
      · cases h
      · rcases List.mem_cons.mp hsmem with rfl | hs
        · omega
        · exact ih (i + 1) k' hrest h s hs

/-- C5: for a `CharRanges` whose interval list is sorted and pairwise
disjoint, `matches` returns `Some` exactly when the (possibly case-folded)
character lies inside some interval; the linear probe of the first four
intervals followed by binary search is equivalent to the naive membership
scan over the interval list. -/
theorem charRanges_matches_correct (fold : Nat → Nat) (cr : CharRanges)
    (c0 : Nat) (h : SortedDisjoint cr.ranges) :
    ((CharRanges.matches fold cr c0).isSome = true ↔
      ∃ r ∈ cr.ranges,
        r.1 ≤ (if cr.casei then charCaseFold fold c0 else c0) ∧
          (if cr.casei then charCaseFold fold c0 else c0) ≤ r.2) ∧
    (CharRanges.matches fold cr c0).isSome = CharRanges.naiveScan fold cr c0 := by
  have key : (CharRanges.matches fold cr c0).isSome = true ↔
      ∃ r ∈ cr.ranges,
        r.1 ≤ (if cr.casei then charCaseFold fold c0 else c0) ∧
          (if cr.casei then charCaseFold fold c0 else c0) ≤ r.2 := by
    unfold CharRanges.matches
    cases hp : probeRanges (if cr.casei then charCaseFold fold c0 else c0)
        cr.ranges 0 (min cr.ranges.length 4) with
    | some o =>
      cases o with
      | some j =>
        simp only [hp, Option.isSome_some, true_iff]
        exact probeRanges_someSome cr.ranges 0 _ j hp
      | none =>
        simp only [hp, Option.isSome_none, Bool.false_eq_true, false_iff]
        rintro ⟨r, hr, hmem⟩
        exact probeRanges_someNone cr.ranges 0 _ h hp r hr hmem
    | none =>
      simp only [hp]
      unfold binarySearchRanges
      rw [binarySearchGo_isSome h cr.ranges.length cr.ranges.length 0 le_rfl
        (by omega)]
      constructor
      · rintro ⟨k, _, hk, he⟩
        have hk' : k < cr.ranges.length := by omega
        rw [List.getD_eq_getElem _ _ hk'] at he
        exact ⟨cr.ranges[k], List.getElem_mem _, rangeCmp_eq_iff.mp he⟩
      · rintro ⟨r, hr, hmem⟩
        obtain ⟨i, hi, hieq⟩ := List.mem_iff_getElem.mp hr
        refine ⟨i, by omega, by omega, ?_⟩
        rw [List.getD_eq_getElem _ _ hi, hieq]
        exact rangeCmp_eq_iff.mpr hmem
  refine ⟨key, ?_⟩
  have hn : CharRanges.naiveScan fold cr c0 = true ↔
      ∃ r ∈ cr.ranges,
        r.1 ≤ (if cr.casei then charCaseFold fold c0 else c0) ∧
          (if cr.casei then charCaseFold fold c0 else c0) ≤ r.2 := by
    unfold CharRanges.naiveScan
    rw [List.any_eq_true]
    simp
  rw [← hn] at key
  cases hv : (CharRanges.matches fold cr c0).isSome <;>
    cases hw : CharRanges.naiveScan fold cr c0 <;> simp_all

/-- Witness for `charRanges_matches_correct` on a concrete sorted list. -/
theorem charRanges_matches_correct_witness :
    SortedDisjoint ([(48, 57), (65, 90)] : List (Nat × Nat)) ∧
    ((CharRanges.matches (fun c => c)
        { ranges := [(48, 57), (65, 90)], casei := false } 66).isSome = true ↔
      ∃ r ∈ ([(48, 57), (65, 90)] : List (Nat × Nat)), r.1 ≤ 66 ∧ 66 ≤ r.2) := by
  have hsd : SortedDisjoint ([(48, 57), (65, 90)] : List (Nat × Nat)) :=
    ⟨by decide, List.chain'_cons.mpr ⟨by decide, List.chain'_singleton _⟩⟩
  refine ⟨hsd, ?_⟩
  have := (charRanges_matches_correct (fun c => c)
      { ranges := [(48, 57), (65, 90)], casei := false } 66 hsd).1
  simpa using this

/-- C6: the truth table of `LookInst::matches` — `StartLine` iff the
preceding char is absent or a newline, `EndLine` iff the current char is
absent or a newline, `StartText`/`EndText` iff the respective char is
absent, `WordBoundary` iff the word-ness of the two chars differs,
`NotWordBoundary` iff it agrees (absent chars count as non-word). -/
theorem lookInst_matches_table (isw : Nat → Bool) (c1 c2 : Nat) :
    (LookInst.StartLine.matches isw c1 c2 = true ↔
      (charIsNone c1 = true ∨ c1 = 10)) ∧
    (LookInst.EndLine.matches isw c1 c2 = true ↔
      (charIsNone c2 = true ∨ c2 = 10)) ∧
    (LookInst.StartText.matches isw c1 c2 = true ↔ charIsNone c1 = true) ∧
    (LookInst.EndText.matches isw c1 c2 = true ↔ charIsNone c2 = true) ∧
    (LookInst.WordBoundary.matches isw c1 c2 = true ↔
      charIsWord isw c1 ≠ charIsWord isw c2) ∧
    (LookInst.NotWordBoundary.matches isw c1 c2 = true ↔
      charIsWord isw c1 = charIsWord isw c2) := by
  refine ⟨?_, ?_, ?_, ?_, ?_, ?_⟩ <;>
    simp [LookInst.matches, bne_iff_ne, beq_iff_eq]

/-- C7: under the program invariants (instruction 0 is `Save(0)`,
next-to-last is `Save(1)`, last is `Match`), the `Program::new` assignments
set `anchored_begin` iff instruction 1 is `EmptyLook(StartText)` and
`anchored_end` iff instruction `n-3` is `EmptyLook(EndText)`. -/
theorem program_anchored_detection (insts : List Inst)
    (h0 : insts[0]? = some (Inst.Save 0))
    (h1 : insts[insts.length - 2]? = some (Inst.Save 1))
    (h2 : insts[insts.length - 1]? = some Inst.Match) :
    (anchoredBeginOf insts = true ↔
      insts[1]? = some (Inst.EmptyLook LookInst.StartText)) ∧
    (anchoredEndOf insts = true ↔
      insts[insts.length - 3]? = some (Inst.EmptyLook LookInst.EndText)) := by
  have hl0 : 0 < insts.length := by
    rcases insts with _ | ⟨a, rest⟩
    · simp at h0
    · simp
  have hn : 3 ≤ insts.length := by
    by_contra hlt
    push_neg at hlt
    have hi2 : insts.length - 2 = 0 := by omega
    rw [hi2, h0] at h1
    simp at h1
  constructor
  · have h1lt : 1 < insts.length := by omega
    unfold anchoredBeginOf
    rw [List.getD_eq_getElem _ _ h1lt, List.getElem?_eq_getElem h1lt]
    cases hE : insts[1] with
    | EmptyLook l => cases l <;> simp
    | Match => simp
    | Save s => simp
    | Jump p => simp
    | Split x y => simp
    | Char oc => simp
    | Ranges cr => simp
  · have h3lt : insts.length - 3 < insts.length := by omega
    unfold anchoredEndOf
    rw [List.getD_eq_getElem _ _ h3lt, List.getElem?_eq_getElem h3lt]
    cases hE : insts[insts.length - 3] with
    | EmptyLook l => cases l <;> simp
    | Match => simp
    | Save s => simp
    | Jump p => simp
    | Split x y => simp
    | Char oc => simp
    | Ranges cr => simp

/-- Witness for `program_anchored_detection` on a concrete anchored program. -/
theorem program_anchored_detection_witness :
    ([Inst.Save 0, Inst.EmptyLook LookInst.StartText, Inst.Save 1,
        Inst.Match] : List Inst)[0]? = some (Inst.Save 0) ∧
    (anchoredBeginOf [Inst.Save 0, Inst.EmptyLook LookInst.StartText,
        Inst.Save 1, Inst.Match] = true ↔
      ([Inst.Save 0, Inst.EmptyLook LookInst.StartText, Inst.Save 1,
          Inst.Match] : List Inst)[1]? =
        some (Inst.EmptyLook LookInst.StartText)) :=
  ⟨by decide,
    (program_anchored_detection
      [Inst.Save 0, Inst.EmptyLook LookInst.StartText, Inst.Save 1, Inst.Match]
      (by decide) (by decide) (by decide)).1⟩

theorem charLenUtf8_pos {c : Nat} (h : isScalarValue c = true) :
    1 ≤ charLenUtf8 c := by
  simp only [charLenUtf8, scalarUtf8Len, h, if_true]
  split_ifs <;> omega

theorem byteLen_cons (t : Nat) (ts : List Nat) :
    byteLen (t :: ts) = charLenUtf8 t + byteLen ts := by
  simp [byteLen]

theorem mem_suffixFrom : ∀ (ts : List Nat) (i c : Nat),
    c ∈ suffixFrom ts i → c ∈ ts := by
  intro ts
  induction ts with
  | nil => intro i c h; cases i <;> simp [suffixFrom] at h
  | cons t ts ih =>
    intro i c h
    cases i with
    | zero => exact h
    | succ i0 =>
      exact List.mem_cons_of_mem _ (ih _ c h)

theorem byteLen_suffixFrom : ∀ (ts : List Nat) (i : Nat),
    isBoundary ts i = true → byteLen (suffixFrom ts i) = byteLen ts - i := by
  intro ts
  induction ts with
  | nil =>
    intro i hb
    cases i with
    | zero => simp [suffixFrom]
    | succ i0 => simp [isBoundary] at hb
  | cons t ts ih =>
    intro i hb
    cases i with
    | zero => simp [suffixFrom]
    | succ i0 =>
      have hb' : (decide (charLenUtf8 t ≤ Nat.succ i0) &&
          isBoundary ts (Nat.succ i0 - charLenUtf8 t)) = true := hb
      rw [Bool.and_eq_true, decide_eq_true_iff] at hb'
      have hle := hb'.1
      have := ih (Nat.succ i0 - charLenUtf8 t) hb'.2
      show byteLen (suffixFrom ts (Nat.succ i0 - charLenUtf8 t)) = _
      rw [this, byteLen_cons]
      omega

theorem prefixTo_push : ∀ (ts : List Nat) (i : Nat),
    (∀ c ∈ ts, isScalarValue c = true) → isBoundary ts i = true →
    i < byteLen ts →
    prefixTo ts (i + charLenUtf8 (headChar (suffixFrom ts i))) =
      prefixTo ts i ++ [headChar (suffixFrom ts i)] := by
  intro ts
  induction ts with
  | nil => intro i _ _ hi; simp [byteLen] at hi
  | cons t ts ih =>
    intro i hv hb hi
    have hvt : isScalarValue t = true := hv t (by simp)
    have hlt1 : 1 ≤ charLenUtf8 t := charLenUtf8_pos hvt
    have hpre : ∀ j, prefixTo (t :: ts) (j + 1) =
        if charLenUtf8 t ≤ j + 1 then
          t :: prefixTo ts (j + 1 - charLenUtf8 t)
        else [] := fun j => rfl
    cases i with
    | zero =>
      show prefixTo (t :: ts) (0 + charLenUtf8 t) = [] ++ [t]
      obtain ⟨k, hk⟩ : ∃ k, charLenUtf8 t = k + 1 :=
        ⟨charLenUtf8 t - 1, by omega⟩
      rw [Nat.zero_add, hk, hpre k, if_pos (by omega)]
      rw [show k + 1 - charLenUtf8 t = 0 from by omega]
      simp [prefixTo]
    | succ i0 =>
      have hb' : (decide (charLenUtf8 t ≤ Nat.succ i0) &&
          isBoundary ts (Nat.succ i0 - charLenUtf8 t)) = true := hb
      rw [Bool.and_eq_true, decide_eq_true_iff] at hb'
      have hle := hb'.1
      have hi' : Nat.succ i0 - charLenUtf8 t < byteLen ts := by
        rw [byteLen_cons] at hi
        omega
      have hsuf : suffixFrom (t :: ts) (Nat.succ i0) =
          suffixFrom ts (Nat.succ i0 - charLenUtf8 t) := rfl
      rw [hsuf]
      set c := headChar (suffixFrom ts (Nat.succ i0 - charLenUtf8 t)) with hc
      have hih := ih (Nat.succ i0 - charLenUtf8 t)
        (fun d hd => hv d (List.mem_cons_of_mem _ hd)) hb'.2 hi'
      rw [show Nat.succ i0 + charLenUtf8 c = (i0 + charLenUtf8 c) + 1 from by
        omega]
      rw [hpre (i0 + charLenUtf8 c), if_pos (by omega)]
      rw [show i0 + charLenUtf8 c + 1 - charLenUtf8 t =
        (Nat.succ i0 - charLenUtf8 t) + charLenUtf8 c from by omega]
      rw [hih]
      rw [show (Nat.succ i0 : Nat) = i0 + 1 from rfl, hpre i0,
        if_pos (by omega)]
      simp

/-- C4: for valid text and a character boundary `i < byteLen text`, the
snapshot `a = at(i)` is non-absent and `previous_at(a.pos + a.len)`
returns `a` again: stepping forward one character and asking for the
previous character round-trips. -/
theorem input_previousAt_roundtrip (text : List Nat) (i : Nat)
    (hv : ∀ c ∈ text, isScalarValue c = true)
    (hb : isBoundary text i = true) (hi : i < byteLen text) :
    charIsNone (inputAt text i).c = false ∧
    previousAt text ((inputAt text i).pos + (inputAt text i).len) =
      inputAt text i := by
  have hsufne : suffixFrom text i ≠ [] := by
    intro hcon
    have := byteLen_suffixFrom text i hb
    rw [hcon, show byteLen ([] : List Nat) = 0 from rfl] at this
    omega
  have hcmem : headChar (suffixFrom text i) ∈ text := by
    apply mem_suffixFrom text i
    rcases hs : suffixFrom text i with _ | ⟨d, rest⟩
    · exact absurd hs hsufne
    · simp [headChar]
  have hcs : isScalarValue (headChar (suffixFrom text i)) = true :=
    hv _ hcmem
  have hclt : headChar (suffixFrom text i) < 1114112 := by
    have := hcs
    simp only [isScalarValue, Bool.and_eq_true, decide_eq_true_iff] at this
    exact this.1
  constructor
  · show (headChar (suffixFrom text i) == NOCHAR) = false
    rw [beq_eq_false_iff_ne]
    intro hcon
    rw [hcon] at hclt
    simp [NOCHAR] at hclt
  · show previousAt text (i + charLenUtf8 (headChar (suffixFrom text i))) = _
    have hpush := prefixTo_push text i hv hb hi
    unfold previousAt
    rw [hpush]
    have hlast : lastChar (prefixTo text i ++ [headChar (suffixFrom text i)]) =
        headChar (suffixFrom text i) := by
      unfold lastChar
      rw [List.getLast?_concat]
    rw [hlast]
    show InputAt.mk _ _ _ = InputAt.mk _ _ _
    congr 1
    omega

/-- Witness for `input_previousAt_roundtrip` on a concrete multibyte text. -/
theorem input_previousAt_roundtrip_witness :
    isBoundary [97, 955, 98] 1 = true ∧
    previousAt [97, 955, 98]
        ((inputAt [97, 955, 98] 1).pos + (inputAt [97, 955, 98] 1).len) =
      inputAt [97, 955, 98] 1 :=
  ⟨by decide,
    (input_previousAt_roundtrip [97, 955, 98] 1 (by decide) (by decide)
      (by decide)).2⟩

/-- C3 counterexample: `find_prefixes` applied to a list whose every needle
is empty returns `Some 0` on a nonempty haystack, not `None` (the inner
slice comparison `haystack[hi..hi] == ""` succeeds immediately). -/
theorem findPrefixes_empty_needle_counterexample :
    findPrefixes [([] : List Nat)] [97] = some 0 := by decide

theorem findPrefixesLoop_nil_needles :
    ∀ (haystack : List Nat) (hi : Nat),
      findPrefixesLoop [] haystack hi = none := by
  intro haystack
  induction haystack with
  | nil => intro hi; rfl
  | cons h t ih => intro hi; simpa [findPrefixesLoop] using ih (hi + 1)

theorem findPrefixLoop_bounds {needle : List Nat} :
    ∀ (hs : List Nat) (off i : Nat),
      findPrefixLoop needle hs off = some i →
      off ≤ i ∧ i - off + needle.length ≤ hs.length := by
  intro hs
  induction hs with
  | nil =>
    intro off i h
    rw [show findPrefixLoop needle [] off =
        (if [].take needle.length == needle then some off else none) from rfl]
      at h
    split_ifs at h with htake
    · rw [beq_iff_eq] at htake
      have hlen : needle.length = 0 := by
        have := congrArg List.length htake
        simpa using this.symm
      cases h
      simp [hlen]
  | cons a t ih =>
    intro off i h
    rw [show findPrefixLoop needle (a :: t) off =
        (if (a :: t).take needle.length == needle then some off
         else findPrefixLoop needle t (off + 1)) from rfl] at h
    split_ifs at h with htake
    · rw [beq_iff_eq] at htake
      have hlen : needle.length ≤ (a :: t).length := by
        have := congrArg List.length htake
        rw [List.length_take] at this
        omega
      cases h
      simpa using hlen
    · have := ih (off + 1) i h
      simp only [List.length_cons]
      omega

theorem findPrefixesLoop_bounds {needles : List (List Nat)} :
    ∀ (hs : List Nat) (off i : Nat),
      findPrefixesLoop needles hs off = some i →
      off ≤ i ∧ i - off < hs.length := by
  intro hs
  induction hs with
  | nil => intro off i h; cases h
  | cons a t ih =>
    intro off i h
    rw [show findPrefixesLoop needles (a :: t) off =
        (if needles.any (fun nd => (a :: t).take nd.length == nd) then some off
         else findPrefixesLoop needles t (off + 1)) from rfl] at h
    split_ifs at h with hany
    · cases h
      simp
    · have := ih (off + 1) i h
      simp only [List.length_cons]
      omega

/-- C3 (amended): `find_prefix` returns `None` on an empty needle, and
`find_prefixes` returns `None` on an empty needle *list*; but a nonempty
list of all-empty needles makes `find_prefixes` return `Some 0` on any
nonempty haystack (`None` only on the empty haystack).  Neither scanner
reports an occurrence whose comparison window extends past
`haystack.len` (in this list embedding every slice access is truncated at
the list end by construction, so no byte at or beyond `haystack.len` is
ever read). -/
theorem prefix_scanner_empty_and_bounds :
    (∀ haystack : List Nat, findPrefixBytes [] haystack = none) ∧
    (∀ haystack : List Nat, findPrefixes [] haystack = none) ∧
    (∀ (needles : List (List Nat)) (haystack : List Nat),
      needles ≠ [] → (∀ nd ∈ needles, nd = []) → haystack ≠ [] →
      findPrefixes needles haystack = some 0) ∧
    (∀ (needle haystack : List Nat) (i : Nat),
      findPrefixBytes needle haystack = some i →
      i + needle.length ≤ haystack.length) ∧
    (∀ (needles : List (List Nat)) (haystack : List Nat) (i : Nat),
      findPrefixes needles haystack = some i → i < haystack.length) := by
  refine ⟨?_, ?_, ?_, ?_, ?_⟩
  · intro haystack
    simp [findPrefixBytes]
  · intro haystack
    exact findPrefixesLoop_nil_needles haystack 0
  · intro needles haystack hne hall hhay
    rcases needles with _ | ⟨nd, rest⟩
    · exact absurd rfl hne
    · rcases haystack with _ | ⟨a, t⟩
      · exact absurd rfl hhay
      · have hnd : nd = [] := hall nd (by simp)
        subst hnd
        rw [show findPrefixes ([] :: rest) (a :: t) =
            (if ([] :: rest).any (fun nd => (a :: t).take nd.length == nd)
             then some 0
             else findPrefixesLoop ([] :: rest) t 1) from rfl]
        rw [if_pos]
        rw [List.any_cons]
        simp
  · intro needle haystack i h
    unfold findPrefixBytes at h
    split_ifs at h with hguard
    have := findPrefixLoop_bounds haystack 0 i h
    omega
  · intro needles haystack i h
    have := findPrefixesLoop_bounds haystack 0 i h
    omega

/-- Witness for `prefix_scanner_empty_and_bounds` at concrete inputs. -/
theorem prefix_scanner_empty_and_bounds_witness :
    findPrefixes [[], []] [98, 99] = some 0 ∧ (1 : Nat) + 1 ≤ 4 :=
  ⟨prefix_scanner_empty_and_bounds.2.2.1 [[], []] [98, 99] (by simp)
      (by intro nd hnd; fin_cases hnd <;> rfl) (by simp),
    prefix_scanner_empty_and_bounds.2.2.2.1 [99] [98, 99, 100, 101] 1
      (by decide)⟩

/-- `Thread`: one NFA thread (`pc` plus capture slots). -/
structure Thread where
  pc : Nat
  caps : List (Option Nat)
deriving Repr, DecidableEq

/-- `Threads`: the sparse/dense thread set of the NFA (`queue`/`sparse`/
`size`). -/
structure Threads where
  queue : List Thread
  sparse : List Nat
  size : Nat
deriving Repr, DecidableEq

/-- `Threads::new`. -/
def Threads.mkNew (numInsts ncaps : Nat) : Threads :=
  { queue := List.replicate numInsts ⟨0, List.replicate (ncaps * 2) none⟩,
    sparse := List.replicate numInsts 0,
    size := 0 }

/-- `Threads::add`: returns the updated set and the dense index used. -/
def Threads.add (t : Threads) (pc : Nat) : Threads × Nat :=
  let i := t.size
  let old := t.queue.getD i ⟨0, []⟩
  ({ queue := t.queue.set i { old with pc := pc },
     sparse := t.sparse.set pc i,
     size := i + 1 }, i)

/-- `Threads::contains`. -/
def Threads.contains (t : Threads) (pc : Nat) : Bool :=
  let s := t.sparse.getD pc 0
  decide (s < t.size) && ((t.queue.getD s ⟨0, []⟩).pc == pc)

/-- `Threads::empty`. -/
def Threads.empty (t : Threads) : Threads := { t with size := 0 }

/-- `Threads::pc`. -/
def Threads.pcAt (t : Threads) (i : Nat) : Nat :=
  (t.queue.getD i ⟨0, []⟩).pc

/-- `Threads::groups` (read). -/
def Threads.groups (t : Threads) (i : Nat) : List (Option Nat) :=
  (t.queue.getD i ⟨0, []⟩).caps

/-- Writing through `Threads::groups` (the `caps` update in `Nfa::add`). -/
def Threads.setGroups (t : Threads) (i : Nat) (caps : List (Option Nat)) :
    Threads :=
  let old := t.queue.getD i ⟨0, []⟩
  { t with queue := t.queue.set i { old with caps := caps } }

/-- An operation on a thread set: `empty()` or `add(pc)`. -/
inductive TOp where
  | empty
  | add (pc : Nat)
deriving Repr, DecidableEq

/-- Run a sequence of operations left to right (`add` drops the returned
dense index). -/
def applyOps (t : Threads) : List TOp → Threads
  | [] => t
  | TOp.empty :: ops => applyOps (t.empty) ops
  | TOp.add pc :: ops => applyOps (t.add pc).1 ops

/-- The discipline under which the NFA uses the set: `add pc` only when
`contains pc` is false and `pc` is below the program length. -/
def ValidOps (numInsts : Nat) (t : Threads) : List TOp → Bool
  | [] => true
  | TOp.empty :: ops => ValidOps numInsts (t.empty) ops
  | TOp.add pc :: ops =>
    decide (pc < numInsts) && !(t.contains pc) &&
      ValidOps numInsts (t.add pc).1 ops

/-- The pcs inserted since the last `empty()` in a run, in order. -/
def addedSince (acc : List Nat) : List TOp → List Nat
  | [] => acc
  | TOp.empty :: ops => addedSince [] ops
  | TOp.add pc :: ops => addedSince (acc ++ [pc]) ops

/-- The state invariant of the sparse/dense set: the dense prefix holds
exactly the pcs added since the last clear, in order and without
duplicates, and membership answers exactly that set. -/
def ThreadsInv (numInsts : Nat) (added : List Nat) (t : Threads) : Prop :=
  t.queue.length = numInsts ∧
  t.sparse.length = numInsts ∧
  t.size = added.length ∧
  added.Nodup ∧
  (∀ pc ∈ added, pc < numInsts) ∧
  (∀ i, i < added.length → t.pcAt i = added.getD i 0) ∧
  (∀ pc, t.contains pc = true ↔ pc ∈ added)

theorem getD_set_ne {α : Type} (l : List α) (j i : Nat) (a : α) (d : α)
    (h : i ≠ j) : (l.set j a).getD i d = l.getD i d := by
  induction l generalizing i j with
  | nil => simp [List.set]
  | cons x xs ih =>
    cases j with
    | zero =>
      cases i with
      | zero => exact absurd rfl h
      | succ i0 => simp [List.set]
    | succ j0 =>
      cases i with
      | zero => simp [List.set]
      | succ i0 =>
        simp only [List.set, List.getD_cons_succ]
        exact ih j0 i0 (by omega)

theorem getD_set_self {α : Type} (l : List α) (j : Nat) (a : α) (d : α)
    (h : j < l.length) : (l.set j a).getD j d = a := by
  induction l generalizing j with
  | nil => simp at h
  | cons x xs ih =>
    cases j with
    | zero => simp [List.set]
    | succ j0 =>
      simp only [List.set, List.getD_cons_succ]
      exact ih j0 (by simpa using h)

theorem nodup_all_lt_length_le {l : List Nat} {n : Nat} (hnd : l.Nodup)
    (hlt : ∀ x ∈ l, x < n) : l.length ≤ n := by
  have hcard : l.toFinset.card = l.length := List.toFinset_card_of_nodup hnd
  have hsub : l.toFinset ⊆ Finset.range n := by
    intro x hx
    rw [List.mem_toFinset] at hx
    rw [Finset.mem_range]
    exact hlt x hx
  have := Finset.card_le_card hsub
  rw [hcard, Finset.card_range] at this
  exact this

theorem threadsInv_mkNew (numInsts ncaps : Nat) :
    ThreadsInv numInsts [] (Threads.mkNew numInsts ncaps) := by
  refine ⟨by simp [Threads.mkNew], by simp [Threads.mkNew], rfl,
    List.nodup_nil, by simp, by simp, ?_⟩
  intro pc
  simp only [Threads.contains, Threads.mkNew, List.not_mem_nil, iff_false]
  simp

theorem threadsInv_empty {numInsts : Nat} {added : List Nat} {t : Threads}
    (h : ThreadsInv numInsts added t) :
    ThreadsInv numInsts [] t.empty := by
  obtain ⟨hq, hsp, hsz, hnd, hlt, hpc, hct⟩ := h
  refine ⟨hq, hsp, rfl, List.nodup_nil, by simp, by simp, ?_⟩
  intro pc
  simp only [Threads.contains, Threads.empty, List.not_mem_nil, iff_false]
  simp

theorem threadsInv_add {numInsts : Nat} {added : List Nat} {t : Threads}
    {pc : Nat} (h : ThreadsInv numInsts added t) (hpcn : pc < numInsts)
    (hnc : t.contains pc = false) :
    ThreadsInv numInsts (added ++ [pc]) (t.add pc).1 := by
  obtain ⟨hq, hsp, hsz, hnd, hlt, hpcd, hct⟩ := h
  have hpcnotmem : pc ∉ added := by
    intro hmem
    rw [← hct pc] at hmem
    rw [hnc] at hmem
    cases hmem
  have hszlt : t.size < numInsts := by
    have : (pc :: added).Nodup := List.nodup_cons.mpr ⟨hpcnotmem, hnd⟩
    have hb := nodup_all_lt_length_le this (by
      intro x hx
      rcases List.mem_cons.mp hx with rfl | hx
      · exact hpcn
      · exact hlt x hx)
    simp only [List.length_cons] at hb
    omega
  refine ⟨?_, ?_, ?_, ?_, ?_, ?_, ?_⟩
  · simp [Threads.add, hq]
  · simp [Threads.add, hsp]
  · simp [Threads.add, hsz]
  · rw [List.nodup_append]
    exact ⟨hnd, List.nodup_singleton pc, by
      intro x hx hy
      rw [List.mem_singleton] at hy
      subst hy
      exact hpcnotmem hx⟩
  · intro q hqmem
    rcases List.mem_append.mp hqmem with hq' | hq'
    · exact hlt q hq'
    · rw [List.mem_singleton] at hq'
      subst hq'
      exact hpcn
  · intro i hi
    simp only [List.length_append, List.length_singleton] at hi
    show ((t.queue.set t.size _).getD i ⟨0, []⟩).pc = _
    rcases Nat.lt_or_ge i added.length with hi' | hi'
    · rw [getD_set_ne _ _ _ _ _ (by omega)]
      have := hpcd i hi'
      rw [show (added ++ [pc]).getD i 0 = added.getD i 0 from by
        rw [List.getD_eq_getElem?_getD, List.getD_eq_getElem?_getD,
          List.getElem?_append_left hi']]
      exact this
    · have hieq : i = added.length := by omega
      subst hieq
      rw [show (added ++ [pc]).getD added.length 0 = pc from by
        rw [List.getD_eq_getElem?_getD]
        rw [List.getElem?_append_right (by omega)]
        simp]
      rw [← hsz, getD_set_self _ _ _ _ (by omega)]
  · intro q
    by_cases hqpc : q = pc
    · subst hqpc
      constructor
      · intro _
        simp
      · intro _
        show (decide _ && _) = true
        rw [show ((t.add q).1).sparse.getD q 0 = t.size from by
          show ((t.sparse.set q t.size).getD q 0) = t.size
          exact getD_set_self _ _ _ _ (by omega)]
        rw [show ((t.add q).1).size = t.size + 1 from rfl]
        rw [show ((t.add q).1).queue.getD t.size ⟨0, []⟩ =
            { t.queue.getD t.size ⟨0, []⟩ with pc := q } from by
          show ((t.queue.set t.size _).getD t.size ⟨0, []⟩) = _
          exact getD_set_self _ _ _ _ (by omega)]
        simp
    · have hsq : ((t.add pc).1).sparse.getD q 0 = t.sparse.getD q 0 := by
        show ((t.sparse.set pc t.size).getD q 0) = _
        exact getD_set_ne _ _ _ _ _ hqpc
      constructor
      · intro hcon
        rw [List.mem_append, List.mem_singleton]
        left
        rw [← hct q]
        simp only [Threads.contains, Bool.and_eq_true, decide_eq_true_iff,
          beq_iff_eq] at hcon ⊢
        rw [hsq, show ((t.add pc).1).size = t.size + 1 from rfl] at hcon
        rcases Nat.lt_or_ge (t.sparse.getD q 0) t.size with hlt' | hge'
        · refine ⟨hlt', ?_⟩
          have hque : ((t.add pc).1).queue.getD (t.sparse.getD q 0) ⟨0, []⟩ =
              t.queue.getD (t.sparse.getD q 0) ⟨0, []⟩ := by
            show ((t.queue.set t.size _).getD _ ⟨0, []⟩) = _
            exact getD_set_ne _ _ _ _ _ (by omega)
          rw [hque] at hcon
          exact hcon.2
        · exfalso
          have hseq : t.sparse.getD q 0 = t.size := by
            have := hcon.1
            show _ = t.size
            omega
          have hque : ((t.add pc).1).queue.getD (t.sparse.getD q 0) ⟨0, []⟩ =
              { t.queue.getD t.size ⟨0, []⟩ with pc := pc } := by
            rw [hseq]
            show ((t.queue.set t.size _).getD t.size ⟨0, []⟩) = _
            exact getD_set_self _ _ _ _ (by omega)
          rw [hque] at hcon
          exact hqpc (hcon.2.symm)
      · intro hmem
        rw [List.mem_append, List.mem_singleton] at hmem
        rcases hmem with hmem | hmem
        swap
        · exact absurd hmem hqpc
        · have hcon := (hct q).mpr hmem
          simp only [Threads.contains, Bool.and_eq_true, decide_eq_true_iff,
            beq_iff_eq] at hcon ⊢
          rw [hsq, show ((t.add pc).1).size = t.size + 1 from rfl]
          refine ⟨by omega, ?_⟩
          have hque : ((t.add pc).1).queue.getD (t.sparse.getD q 0) ⟨0, []⟩ =
              t.queue.getD (t.sparse.getD q 0) ⟨0, []⟩ := by
            show ((t.queue.set t.size _).getD _ ⟨0, []⟩) = _
            exact getD_set_ne _ _ _ _ _ (by omega)
          rw [hque]
          exact hcon.2

theorem threadsInv_run : ∀ (ops : List TOp) (t : Threads) (added : List Nat)
    (n : Nat), ThreadsInv n added t → ValidOps n t ops = true →
    ThreadsInv n (addedSince added ops) (applyOps t ops) := by
  intro ops
  induction ops with
  | nil => intro t added n h _; exact h
  | cons op rest ih =>
    intro t added n h hval
    cases op with
    | empty =>
      exact ih t.empty [] n (threadsInv_empty h) hval
    | add pc =>
      have hval' : (decide (pc < n) && !(t.contains pc) &&
          ValidOps n (t.add pc).1 rest) = true := hval
      rw [Bool.and_eq_true, Bool.and_eq_true] at hval'
      obtain ⟨⟨hpcn, hnc⟩, hrest⟩ := hval'
      rw [decide_eq_true_iff] at hpcn
      rw [Bool.not_eq_true'] at hnc
      exact ih (t.add pc).1 (added ++ [pc]) n (threadsInv_add h hpcn hnc) hrest

/-- C9: under the usage discipline (`add pc` only when `contains pc` is
false, `pc` below the program length), the sparse/dense set satisfies the
stated invariant for every operation sequence: after `empty()` nothing is
contained, after `add pc` the pc is contained and stays contained until the
next `empty()`, `contains` answers exactly the set of pcs added since the
last clear (no stale sparse entry yields a false positive), the dense
prefix is duplicate-free (each pc occupies at most one dense slot) and
`size` never exceeds the number of instructions. -/
theorem threads_sparse_dense_invariant (numInsts ncaps : Nat) (ops : List TOp)
    (hval : ValidOps numInsts (Threads.mkNew numInsts ncaps) ops = true) :
    (∀ pc, (applyOps (Threads.mkNew numInsts ncaps) ops).contains pc = true ↔
      pc ∈ addedSince [] ops) ∧
    (addedSince [] ops).Nodup ∧
    (applyOps (Threads.mkNew numInsts ncaps) ops).size =
      (addedSince [] ops).length ∧
    (applyOps (Threads.mkNew numInsts ncaps) ops).size ≤ numInsts := by
  have h := threadsInv_run ops (Threads.mkNew numInsts ncaps) [] numInsts
    (threadsInv_mkNew numInsts ncaps) hval
  obtain ⟨hq, hsp, hsz, hnd, hlt, hpcd, hct⟩ := h
  exact ⟨hct, hnd, hsz, by rw [hsz]; exact nodup_all_lt_length_le hnd hlt⟩

/-- Witness for `threads_sparse_dense_invariant` on a concrete sequence. -/
theorem threads_sparse_dense_invariant_witness :
    ValidOps 3 (Threads.mkNew 3 1)
      [TOp.add 1, TOp.add 0, TOp.empty, TOp.add 2] = true ∧
    ((∀ pc, (applyOps (Threads.mkNew 3 1)
        [TOp.add 1, TOp.add 0, TOp.empty, TOp.add 2]).contains pc = true ↔
      pc ∈ addedSince [] [TOp.add 1, TOp.add 0, TOp.empty, TOp.add 2]) ∧
    (addedSince [] [TOp.add 1, TOp.add 0, TOp.empty, TOp.add 2]).Nodup ∧
    (applyOps (Threads.mkNew 3 1)
        [TOp.add 1, TOp.add 0, TOp.empty, TOp.add 2]).size =
      (addedSince [] [TOp.add 1, TOp.add 0, TOp.empty, TOp.add 2]).length ∧
    (applyOps (Threads.mkNew 3 1)
        [TOp.add 1, TOp.add 0, TOp.empty, TOp.add 2]).size ≤ 3) :=
  ⟨by decide,
    threads_sparse_dense_invariant 3 1
      [TOp.add 1, TOp.add 0, TOp.empty, TOp.add 2] (by decide)⟩

theorem set_getD_self {α : Type} :
    ∀ (l : List α) (i : Nat) (d : α), i < l.length →
      l.set i (l.getD i d) = l := by
  intro l
  induction l with
  | nil => intro i d h; simp at h
  | cons x xs ih =>
    intro i d h
    cases i with
    | zero => simp [List.set]
    | succ i0 =>
      simp only [List.set, List.getD_cons_succ]
      rw [ih i0 d (by simpa using h)]

/-- The `iter_mut().zip(...)` capture copy: overwrite the first
`min (dst.length) (src.length)` entries of `dst` with `src`. -/
def copyCaps (dst src : List (Option Nat)) : List (Option Nat) :=
  src.take dst.length ++ dst.drop src.length

/-- `Nfa::add`: the recursive epsilon closure.  The cursor is abstracted by
the three values the closure reads — modelled from the spec: during a
closure pass landing at byte position `savePos`, `input.cur()` is the
character preceding that position (`prevC`), `input.next()` is the
character at it (`curC`) and `input.next_byte_offset()` is `savePos`
itself.  Recursion is metered by fuel; `insts.length + 1` fuel always
suffices under the usage discipline (see `nfaAdd_fuel_sufficient`). -/
def nfaAdd (insts : List Inst) (isw : Nat → Bool) (prevC curC savePos : Nat) :
    Nat → Threads → Nat → List (Option Nat) →
      Option (Threads × List (Option Nat))
  | 0, _, _, _ => none
  | Nat.succ fuel, nlist, pc, tcaps =>
    if nlist.contains pc then some (nlist, tcaps)
    else
      match instAt insts pc with
      | Inst.EmptyLook l =>
        if l.matches isw prevC curC then
          nfaAdd insts isw prevC curC savePos fuel (nlist.add pc).1 (pc + 1)
            tcaps
        else some ((nlist.add pc).1, tcaps)
      | Inst.Save slot =>
        if tcaps.length ≤ slot then
          nfaAdd insts isw prevC curC savePos fuel (nlist.add pc).1 (pc + 1)
            tcaps
        else
          match nfaAdd insts isw prevC curC savePos fuel (nlist.add pc).1
              (pc + 1) (tcaps.set slot (some savePos)) with
          | none => none
          | some q => some (q.1, q.2.set slot (tcaps.getD slot none))
      | Inst.Jump pc2 =>
        nfaAdd insts isw prevC curC savePos fuel (nlist.add pc).1 pc2 tcaps
      | Inst.Split x y =>
        match nfaAdd insts isw prevC curC savePos fuel (nlist.add pc).1 x
            tcaps with
        | none => none
        | some q => nfaAdd insts isw prevC curC savePos fuel q.1 y q.2
      | _ =>
        some ((nlist.add pc).1.setGroups (nlist.add pc).2
          (copyCaps ((nlist.add pc).1.groups (nlist.add pc).2) tcaps), tcaps)

/-- C8: `Nfa::add` leaves the thread capture array equal to its value at
entry whenever it returns — every `Save` write made during the
epsilon-closure walk is undone by the restore before the call returns. -/
theorem nfaAdd_preserves_thread_caps (insts : List Inst) (isw : Nat → Bool)
    (prevC curC savePos : Nat) :
    ∀ (fuel : Nat) (nlist : Threads) (pc : Nat) (tcaps : List (Option Nat))
      (nlist' : Threads) (tcaps' : List (Option Nat)),
      nfaAdd insts isw prevC curC savePos fuel nlist pc tcaps =
        some (nlist', tcaps') →
      tcaps' = tcaps := by
  intro fuel
  induction fuel with
  | zero => intro nlist pc tcaps nlist' tcaps' h; cases h
  | succ fuel ih =>
    intro nlist pc tcaps nlist' tcaps' h
    simp only [nfaAdd] at h
    split_ifs at h with hcont
    · simp only [Option.some.injEq, Prod.mk.injEq] at h
      exact h.2.symm
    · split at h
      · rename_i l heq
        split_ifs at h with hlook
        · exact ih _ _ _ _ _ h
        · simp only [Option.some.injEq, Prod.mk.injEq] at h
          exact h.2.symm
      · rename_i slot heq
        split_ifs at h with hslot
        · exact ih _ _ _ _ _ h
        · cases hin : nfaAdd insts isw prevC curC savePos fuel
              (nlist.add pc).1 (pc + 1) (tcaps.set slot (some savePos)) with
          | none => rw [hin] at h; cases h
          | some q =>
            rw [hin] at h
            simp only [Option.some.injEq, Prod.mk.injEq] at h
            have hq := ih _ _ _ _ _ hin
            rw [← h.2, hq, List.set_set]
            exact set_getD_self tcaps slot none (by omega)
      · exact ih _ _ _ _ _ h
      · rename_i x y heq
        cases hin : nfaAdd insts isw prevC curC savePos fuel
            (nlist.add pc).1 x tcaps with
        | none => rw [hin] at h; cases h
        | some q =>
          rw [hin] at h
          have hq := ih _ _ _ _ _ hin
          have h2 := ih _ _ _ _ _ h
          rw [h2, hq]
      · simp only [Option.some.injEq, Prod.mk.injEq] at h
        exact h.2.symm

/-- Witness for `nfaAdd_preserves_thread_caps` on a concrete closure that
exercises the `Save` snapshot/restore path: the thread caps come back as
`[some 7, some 8]` even though both saves wrote into them. -/
theorem nfaAdd_preserves_thread_caps_witness :
    nfaAdd [Inst.Save 0, Inst.Split 2 4, Inst.Save 1,
        Inst.Char { c := 97, casei := false }, Inst.Match]
      (fun _ => false) NOCHAR 97 0 6 (Threads.mkNew 5 1) 0
      [some 7, some 8] =
      some ({ queue := [⟨0, [none, none]⟩, ⟨1, [none, none]⟩,
                ⟨2, [none, none]⟩, ⟨3, [some 0, some 0]⟩,
                ⟨4, [some 0, some 8]⟩],
              sparse := [0, 1, 2, 3, 4], size := 5 },
        [some 7, some 8]) ∧
    ([some 7, some 8] : List (Option Nat)) = [some 7, some 8] := by
  have hrun : nfaAdd [Inst.Save 0, Inst.Split 2 4, Inst.Save 1,
      Inst.Char { c := 97, casei := false }, Inst.Match]
      (fun _ => false) NOCHAR 97 0 6 (Threads.mkNew 5 1) 0
      [some 7, some 8] =
      some ({ queue := [⟨0, [none, none]⟩, ⟨1, [none, none]⟩,
                ⟨2, [none, none]⟩, ⟨3, [some 0, some 0]⟩,
                ⟨4, [some 0, some 8]⟩],
              sparse := [0, 1, 2, 3, 4], size := 5 },
        [some 7, some 8]) := by decide
  exact ⟨hrun,
    nfaAdd_preserves_thread_caps
      [Inst.Save 0, Inst.Split 2 4, Inst.Save 1,
        Inst.Char { c := 97, casei := false }, Inst.Match]
      (fun _ => false) NOCHAR 97 0 6 (Threads.mkNew 5 1) 0
      [some 7, some 8] _ _ hrun⟩

/-- `Job` (backtrack.rs): the unit of work on the backtracker's stack. -/
inductive Job where
  | Inst (pc : Nat) (a : InputAt)
  | SaveRestore (slot : Nat) (old : Option Nat)
  | SplitNext (pc : Nat) (a : InputAt)
deriving Repr, DecidableEq

/-- The mutable state of one backtracking run: the caller's capture buffer
plus the `BackMachine` scratch (job stack, and the visited `HashSet`
embedded as a list with membership-checked insertion). -/
structure BtState where
  caps : List (Option Nat)
  jobs : List Job
  visited : List (Nat × Nat)
deriving Repr, DecidableEq

/-- `Backtrack::has_visited`: membership test on `(pc, at.pos)`, inserting
the key when it was absent. -/
def hasVisited (st : BtState) (pc : Nat) (a : InputAt) : Bool × BtState :=
  if (pc, a.pos) ∈ st.visited then (true, st)
  else (false, { st with visited := (pc, a.pos) :: st.visited })

/-- `Backtrack::push`: push an `Inst` job unless the pair was visited. -/
def btPush (st : BtState) (pc : Nat) (a : InputAt) : BtState :=
  match hasVisited st pc a with
  | (true, st') => st'
  | (false, st') => { st' with jobs := Job.Inst pc a :: st'.jobs }

/-- The result of one dispatch in `Backtrack::step`'s inner loop. -/
inductive StepOnce where
  | ret (b : Bool) (st : BtState)
  | cont (pc : Nat) (a : InputAt) (st : BtState)
deriving Repr, DecidableEq

/-- One dispatch of `Backtrack::step`'s inner loop, before the
`has_visited` cut-off check. -/
def btStepOnce (insts : List Inst) (fold : Nat → Nat) (isw : Nat → Bool)
    (text : List Nat) (pc : Nat) (a : InputAt) (st : BtState) : StepOnce :=
  match instAt insts pc with
  | Inst.Match => StepOnce.ret true st
  | Inst.Save slot =>
    if slot < st.caps.length then
      StepOnce.cont (pc + 1) a
        { st with
          caps := st.caps.set slot (some a.pos),
          jobs := Job.SaveRestore slot (st.caps.getD slot none) :: st.jobs }
    else StepOnce.cont (pc + 1) a st
  | Inst.Jump pc2 => StepOnce.cont pc2 a st
  | Inst.Split x y =>
    StepOnce.cont x a { st with jobs := Job.SplitNext y a :: st.jobs }
  | Inst.EmptyLook l =>
    if l.matches isw (previousAt text a.pos).c a.c then
      StepOnce.cont (pc + 1) a st
    else StepOnce.ret false st
  | Inst.Char oc =>
    if oc.matches fold a.c then
      StepOnce.cont (pc + 1) (inputAt text a.nextPos) st
    else StepOnce.ret false st
  | Inst.Ranges cr =>
    if (cr.matches fold a.c).isSome then
      StepOnce.cont (pc + 1) (inputAt text a.nextPos) st
    else StepOnce.ret false st

/-- `Backtrack::step`: the tight inner loop (fuel-metered; each continuing
iteration freshly inserts into `visited`, so `|insts| * (|text|+1) + 1`
fuel always suffices). -/
def btStep (insts : List Inst) (fold : Nat → Nat) (isw : Nat → Bool)
    (text : List Nat) : Nat → Nat → InputAt → BtState →
      Option (Bool × BtState)
  | 0, _, _, _ => none
  | Nat.succ fuel, pc, a, st =>
    match btStepOnce insts fold isw text pc a st with
    | StepOnce.ret b st' => some (b, st')
    | StepOnce.cont pc' a' st' =>
      match hasVisited st' pc' a' with
      | (true, st'') => some (false, st'')
      | (false, st'') => btStep insts fold isw text fuel pc' a' st''

/-- `Backtrack::backtrack`'s job loop (outer fuel `lf`, inner fuel `sf`). -/
def btLoop (insts : List Inst) (fold : Nat → Nat) (isw : Nat → Bool)
    (text : List Nat) (sf : Nat) : Nat → BtState → Option (Bool × BtState)
  | 0, _ => none
  | Nat.succ lf, st =>
    match st.jobs with
    | [] => some (false, st)
    | job :: rest =>
      match job with
      | Job.Inst pc a =>
        match btStep insts fold isw text sf pc a { st with jobs := rest } with
        | none => none
        | some (true, st') => some (true, st')
        | some (false, st') => btLoop insts fold isw text sf lf st'
      | Job.SaveRestore slot old =>
        btLoop insts fold isw text sf lf
          { st with jobs := rest, caps := st.caps.set slot old }
      | Job.SplitNext pc a =>
        btLoop insts fold isw text sf lf (btPush { st with jobs := rest } pc a)

/-- `Backtrack::backtrack`. -/
def btBacktrack (insts : List Inst) (fold : Nat → Nat) (isw : Nat → Bool)
    (text : List Nat) (sf lf : Nat) (a : InputAt) (st : BtState) :
    Option (Bool × BtState) :=
  btLoop insts fold isw text sf lf (btPush st 0 a)

/-- `Backtrack::exec_`'s candidate loop (the non-anchored path). -/
def btExecLoop (prog : Program) (fold : Nat → Nat) (isw : Nat → Bool)
    (text : List Nat) (sf lf : Nat) : Nat → InputAt → BtState →
      Option (Bool × BtState)
  | 0, _, _ => none
  | Nat.succ ef, a, st =>
    match prefixAt text prog.prefixes a with
    | none => some (false, st)
    | some a' =>
      match btBacktrack prog.insts fold isw text sf lf a' st with
      | none => none
      | some (true, st') => some (true, st')
      | some (false, st') =>
        if a'.isEnd then some (false, st')
        else btExecLoop prog fold isw text sf lf ef
          (inputAt text a'.nextPos) st'

/-- `Backtrack::exec` (+ `exec_`): clear the scratch, position the cursor
at `start`, then either the single anchored attempt or the candidate
loop. -/
def btExec (prog : Program) (fold : Nat → Nat) (isw : Nat → Bool)
    (caps0 : List (Option Nat)) (text : List Nat) (start : Nat)
    (sf lf ef : Nat) : Option (Bool × BtState) :=
  let a := inputAt text start
  let st : BtState := { caps := caps0, jobs := [], visited := [] }
  if prog.anchored_begin then
    if !a.isBeginning then some (false, st)
    else
      match prefixAt text prog.prefixes a with
      | none => some (false, st)
      | some a' => btBacktrack prog.insts fold isw text sf lf a' st
  else btExecLoop prog fold isw text sf lf ef a st

/-- `Step` (nfa.rs): the action after a single non-empty instruction. -/
inductive NStep where
  | MatchEarlyReturn
  | Match
  | Continue
deriving Repr, DecidableEq

/-- `Nfa::step` for the thread at `pc` while the cursor consumes the
character at byte position `p`: `input.cur()` is the character at `p`, and
a consumed thread's continuation is closed over the landing position
`p + cur.len` (cursor abstraction modelled from the spec). -/
def nfaStep (insts : List Inst) (fold : Nat → Nat) (isw : Nat → Bool)
    (text : List Nat) (af p : Nat) (caps : List (Option Nat))
    (nlist : Threads) (tcaps : List (Option Nat)) (pc : Nat) :
    Option (NStep × List (Option Nat) × Threads × List (Option Nat)) :=
  match instAt insts pc with
  | Inst.Match =>
    if caps.length = 0 then some (NStep.MatchEarlyReturn, caps, nlist, tcaps)
    else some (NStep.Match, copyCaps caps tcaps, nlist, tcaps)
  | Inst.Char oc =>
    if oc.matches fold (inputAt text p).c then
      match nfaAdd insts isw (inputAt text p).c
          (inputAt text (inputAt text p).nextPos).c (inputAt text p).nextPos
          af nlist (pc + 1) tcaps with
      | none => none
      | some q => some (NStep.Continue, caps, q.1, q.2)
    else some (NStep.Continue, caps, nlist, tcaps)
  | Inst.Ranges cr =>
    if (cr.matches fold (inputAt text p).c).isSome then
      match nfaAdd insts isw (inputAt text p).c
          (inputAt text (inputAt text p).nextPos).c (inputAt text p).nextPos
          af nlist (pc + 1) tcaps with
      | none => none
      | some q => some (NStep.Continue, caps, q.1, q.2)
    else some (NStep.Continue, caps, nlist, tcaps)
  | _ => some (NStep.Continue, caps, nlist, tcaps)

/-- The `for i in 0..clist.size` pass of `Nfa::exec` over the current
thread list (`k` = threads left, `i` = current dense index).  Returns
(early-return?, matched-here?, caps, clist, nlist). -/
def nfaStepAll (insts : List Inst) (fold : Nat → Nat) (isw : Nat → Bool)
    (text : List Nat) (af p : Nat) :
    Nat → Nat → List (Option Nat) → Threads → Threads →
      Option (Bool × Bool × List (Option Nat) × Threads × Threads)
  | 0, _, caps, clist, nlist => some (false, false, caps, clist, nlist)
  | Nat.succ k, i, caps, clist, nlist =>
    match nfaStep insts fold isw text af p caps nlist (clist.groups i)
        (clist.pcAt i) with
    | none => none
    | some (NStep.MatchEarlyReturn, caps', nlist', tcaps') =>
      some (true, true, caps', clist.setGroups i tcaps', nlist')
    | some (NStep.Match, caps', nlist', tcaps') =>
      some (false, true, caps', clist.setGroups i tcaps', nlist')
    | some (NStep.Continue, caps', nlist', tcaps') =>
      nfaStepAll insts fold isw text af p k (i + 1) caps'
        (clist.setGroups i tcaps') nlist'

/-- The main loop of `Nfa::exec`, one iteration per input position.  The
cursor is replaced by pure reads of `text` at the tracked byte position
`p` — modelled from the spec: `beginning()` is "at the text start",
`advance_prefix` is `prefix_at` with the program's prefix list, and during
the pre-advance closure `input.cur()/next()/next_byte_offset()` are the
previous character, the character at `p`, and `p`. -/
def nfaLoop (prog : Program) (fold : Nat → Nat) (isw : Nat → Bool)
    (text : List Nat) (af : Nat) :
    Nat → Bool → Nat → List (Option Nat) → Threads → Threads →
      Option (Bool × List (Option Nat))
  | 0, _, _, _, _, _ => none
  | Nat.succ lf, matched, p, caps, clist, nlist =>
    match
      (if clist.size == 0 then
        if matched then none
        else if !(decide (p = 0)) && prog.anchored_begin then none
        else if decide (0 < prog.prefixes.length) then
          match prefixAt text prog.prefixes (inputAt text p) with
          | none => none
          | some a' => some a'.pos
        else some p
      else some p) with
    | none => some (matched, caps)
    | some p' =>
      match
        (if clist.size == 0 || (!prog.anchored_begin && !matched) then
          nfaAdd prog.insts isw (previousAt text p').c (inputAt text p').c p'
            af clist 0 caps
        else some (clist, caps)) with
      | none => none
      | some (clist1, caps1) =>
        match nfaStepAll prog.insts fold isw text af p' clist1.size 0 caps1
            clist1 nlist with
        | none => none
        | some (early, mh, caps2, clist2, nlist2) =>
          if early then some (true, caps2)
          else if charIsNone (inputAt text p').c then
            some (matched || mh, caps2)
          else
            nfaLoop prog fold isw text af lf (matched || mh)
              (inputAt text p').nextPos caps2 nlist2 clist2.empty

/-- `Nfa::run`: fresh scratch thread lists, emptied at entry, then the
main loop from `start` (canonical fuel: `insts.length + 1` for the closure
and `byteLen text + 2` loop iterations always suffice). -/
def nfaRun (prog : Program) (fold : Nat → Nat) (isw : Nat → Bool)
    (caps0 : List (Option Nat)) (text : List Nat) (start : Nat) :
    Option (Bool × List (Option Nat)) :=
  nfaLoop prog fold isw text (prog.insts.length + 1) (byteLen text + 2)
    false start caps0
    (Threads.mkNew prog.insts.length (numCaptures prog.insts)).empty
    (Threads.mkNew prog.insts.length (numCaptures prog.insts)).empty

/-- A tiny sample program (`a` wrapped in the `Save(0) .. Save(1) Match`
preamble) used in concrete checks. -/
def sampleProg1 : Program :=
  { insts := [Inst.Save 0, Inst.Char ⟨97, false⟩, Inst.Save 1, Inst.Match],
    prefixes := [],
    anchored_begin := false,
    anchored_end := false }

example : nfaRun sampleProg1 (fun c => c) (fun _ => false) [] [98, 97] 0 =
    some (true, []) := by decide
example : nfaRun sampleProg1 (fun c => c) (fun _ => false) [] [98, 99] 0 =
    some (false, []) := by decide
example : (btExec sampleProg1 (fun c => c) (fun _ => false) [] [98, 97] 0
    20 20 20).map Prod.fst = some true := by decide
example : (btExec sampleProg1 (fun c => c) (fun _ => false) [] [98, 99] 0
    20 20 20).map Prod.fst = some false := by decide

/-- Replay every pending `SaveRestore` job in pop order: the capture
buffer a fully unwound stack would leave behind. -/
def restoreAll : List Job → List (Option Nat) → List (Option Nat)
  | [], caps => caps
  | Job.SaveRestore slot old :: rest, caps => restoreAll rest (caps.set slot old)
  | Job.Inst _ _ :: rest, caps => restoreAll rest caps
  | Job.SplitNext _ _ :: rest, caps => restoreAll rest caps

/-- The state carried by a `StepOnce` result. -/
def StepOnce.state : StepOnce → BtState
  | StepOnce.ret _ st => st
  | StepOnce.cont _ _ st => st

theorem btStepOnce_restore (insts : List Inst) (fold : Nat → Nat)
    (isw : Nat → Bool) (text : List Nat) (pc : Nat) (a : InputAt)
    (st : BtState) :
    restoreAll (btStepOnce insts fold isw text pc a st).state.jobs
        (btStepOnce insts fold isw text pc a st).state.caps =
      restoreAll st.jobs st.caps := by
  unfold btStepOnce
  cases instAt insts pc with
  | Match => rfl
  | Save slot =>
    dsimp only
    split_ifs with hslot
    · show restoreAll (Job.SaveRestore slot (st.caps.getD slot none) :: st.jobs)
          (st.caps.set slot (some a.pos)) = _
      show restoreAll st.jobs
          ((st.caps.set slot (some a.pos)).set slot (st.caps.getD slot none)) = _
      rw [List.set_set, set_getD_self st.caps slot none hslot]
    · rfl
  | Jump pc2 => rfl
  | Split x y => rfl
  | EmptyLook l => dsimp only; split_ifs <;> rfl
  | Char oc => dsimp only; split_ifs <;> rfl
  | Ranges cr => dsimp only; split_ifs <;> rfl

theorem hasVisited_preserves (st : BtState) (pc : Nat) (a : InputAt) :
    (hasVisited st pc a).2.jobs = st.jobs ∧
    (hasVisited st pc a).2.caps = st.caps := by
  unfold hasVisited
  split_ifs <;> exact ⟨rfl, rfl⟩

theorem btStep_restore (insts : List Inst) (fold : Nat → Nat)
    (isw : Nat → Bool) (text : List Nat) :
    ∀ (fuel pc : Nat) (a : InputAt) (st : BtState) (b : Bool) (st' : BtState),
      btStep insts fold isw text fuel pc a st = some (b, st') →
      restoreAll st'.jobs st'.caps = restoreAll st.jobs st.caps := by
  intro fuel
  induction fuel with
  | zero => intro pc a st b st' h; cases h
  | succ fuel ih =>
    intro pc a st b st' h
    rw [show btStep insts fold isw text (Nat.succ fuel) pc a st =
        (match btStepOnce insts fold isw text pc a st with
         | StepOnce.ret b st' => some (b, st')
         | StepOnce.cont pc' a' st' =>
           match hasVisited st' pc' a' with
           | (true, st'') => some (false, st'')
           | (false, st'') => btStep insts fold isw text fuel pc' a' st'')
        from rfl] at h
    have hone := btStepOnce_restore insts fold isw text pc a st
    cases hr : btStepOnce insts fold isw text pc a st with
    | ret b1 st1 =>
      rw [hr] at h
      rw [hr] at hone
      simp only [Option.some.injEq, Prod.mk.injEq] at h
      rw [← h.2]
      exact hone
    | cont pc1 a1 st1 =>
      rw [hr] at h
      dsimp only at h
      rw [hr] at hone
      have hvp := hasVisited_preserves st1 pc1 a1
      cases hv : hasVisited st1 pc1 a1 with
      | mk vis st2 =>
        rw [hv] at h hvp
        cases vis with
        | true =>
          simp only [Option.some.injEq, Prod.mk.injEq] at h
          rw [← h.2]
          dsimp only at hvp
          rw [hvp.1, hvp.2]
          exact hone
        | false =>
          have := ih pc1 a1 st2 b st' h
          rw [this]
          dsimp only at hvp
          rw [hvp.1, hvp.2]
          exact hone

theorem btPush_restore (st : BtState) (pc : Nat) (a : InputAt) :
    restoreAll (btPush st pc a).jobs (btPush st pc a).caps =
      restoreAll st.jobs st.caps := by
  unfold btPush
  have hvp := hasVisited_preserves st pc a
  cases hv : hasVisited st pc a with
  | mk vis st2 =>
    rw [hv] at hvp
    dsimp only at hvp
    cases vis with
    | true => dsimp only; rw [hvp.1, hvp.2]
    | false =>
      dsimp only
      show restoreAll (Job.Inst pc a :: st2.jobs) st2.caps = _
      show restoreAll st2.jobs st2.caps = _
      rw [hvp.1, hvp.2]

theorem btLoop_false (insts : List Inst) (fold : Nat → Nat)
    (isw : Nat → Bool) (text : List Nat) (sf : Nat) :
    ∀ (lf : Nat) (st st' : BtState),
      btLoop insts fold isw text sf lf st = some (false, st') →
      st'.jobs = [] ∧ st'.caps = restoreAll st.jobs st.caps := by
  intro lf
  induction lf with
  | zero => intro st st' h; cases h
  | succ lf ih =>
    intro st st' h
    rw [show btLoop insts fold isw text sf (Nat.succ lf) st =
        (match st.jobs with
         | [] => some (false, st)
         | job :: rest =>
           match job with
           | Job.Inst pc a =>
             match btStep insts fold isw text sf pc a
                 { st with jobs := rest } with
             | none => none
             | some (true, st') => some (true, st')
             | some (false, st') => btLoop insts fold isw text sf lf st'
           | Job.SaveRestore slot old =>
             btLoop insts fold isw text sf lf
               { st with jobs := rest, caps := st.caps.set slot old }
           | Job.SplitNext pc a =>
             btLoop insts fold isw text sf lf
               (btPush { st with jobs := rest } pc a)) from rfl] at h
    cases hjobs : st.jobs with
    | nil =>
      rw [hjobs] at h
      dsimp only at h
      simp only [Option.some.injEq, Prod.mk.injEq] at h
      rw [← h.2]
      exact ⟨hjobs, rfl⟩
    | cons job rest =>
      rw [hjobs] at h
      cases job with
      | Inst pc a =>
        dsimp only at h
        cases hs : btStep insts fold isw text sf pc a
            { st with jobs := rest } with
        | none => rw [hs] at h; cases h
        | some r =>
          rw [hs] at h
          cases r with
          | mk b st1 =>
            cases b with
            | true =>
              simp only [Option.some.injEq, Prod.mk.injEq] at h
              cases h.1
            | false =>
              have hres := btStep_restore insts fold isw text sf pc a
                { st with jobs := rest } false st1 hs
              have hih := ih st1 st' h
              refine ⟨hih.1, ?_⟩
              rw [hih.2, hres]
              rfl
      | SaveRestore slot old =>
        dsimp only at h
        have hih := ih _ st' h
        refine ⟨hih.1, ?_⟩
        rw [hih.2]
        rfl
      | SplitNext pc a =>
        dsimp only at h
        have hih := ih _ st' h
        refine ⟨hih.1, ?_⟩
        rw [hih.2, btPush_restore]
        rfl

theorem btBacktrack_false (insts : List Inst) (fold : Nat → Nat)
    (isw : Nat → Bool) (text : List Nat) (sf lf : Nat) (a : InputAt)
    (st st' : BtState)
    (h : btBacktrack insts fold isw text sf lf a st = some (false, st')) :
    st'.jobs = [] ∧ st'.caps = restoreAll st.jobs st.caps := by
  unfold btBacktrack at h
  have := btLoop_false insts fold isw text sf lf _ st' h
  rw [this.2, btPush_restore]
  exact ⟨this.1, rfl⟩

theorem btExecLoop_false (prog : Program) (fold : Nat → Nat)
    (isw : Nat → Bool) (text : List Nat) (sf lf : Nat) :
    ∀ (ef : Nat) (a : InputAt) (st st' : BtState), st.jobs = [] →
      btExecLoop prog fold isw text sf lf ef a st = some (false, st') →
      st'.caps = st.caps := by
  intro ef
  induction ef with
  | zero => intro a st st' _ h; cases h
  | succ ef ih =>
    intro a st st' hjobs h
    rw [show btExecLoop prog fold isw text sf lf (Nat.succ ef) a st =
        (match prefixAt text prog.prefixes a with
         | none => some (false, st)
         | some a' =>
           match btBacktrack prog.insts fold isw text sf lf a' st with
           | none => none
           | some (true, st') => some (true, st')
           | some (false, st') =>
             if a'.isEnd then some (false, st')
             else btExecLoop prog fold isw text sf lf ef
               (inputAt text a'.nextPos) st') from rfl] at h
    cases hpa : prefixAt text prog.prefixes a with
    | none =>
      rw [hpa] at h
      simp only [Option.some.injEq, Prod.mk.injEq] at h
      rw [← h.2]
    | some a1 =>
      rw [hpa] at h
      dsimp only at h
      cases hbt : btBacktrack prog.insts fold isw text sf lf a1 st with
      | none => rw [hbt] at h; cases h
      | some r =>
        rw [hbt] at h
        cases r with
        | mk b st1 =>
          cases b with
          | true =>
            simp only [Option.some.injEq, Prod.mk.injEq] at h
            cases h.1
          | false =>
            have hb := btBacktrack_false prog.insts fold isw text sf lf a1
              st st1 hbt
            have hcaps1 : st1.caps = st.caps := by
              rw [hb.2, hjobs]
              rfl
            split_ifs at h with hend
            · simp only [Option.some.injEq, Prod.mk.injEq] at h
              rw [← h.2, hcaps1]
            · have := ih (inputAt text a1.nextPos) st1 st' hb.1 h
              rw [this, hcaps1]

/-- The backtracker half of C10: whenever `exec` reports no match, the
caller's capture buffer holds exactly its entry values — every speculative
`SaveRestore` has been popped and replayed. -/
theorem btExec_false_preserves_caps (prog : Program) (fold : Nat → Nat)
    (isw : Nat → Bool) (caps0 : List (Option Nat)) (text : List Nat)
    (start : Nat) (sf lf ef : Nat) (st' : BtState)
    (h : btExec prog fold isw caps0 text start sf lf ef = some (false, st')) :
    st'.caps = caps0 := by
  unfold btExec at h
  dsimp only at h
  split_ifs at h with hanch hbeg
  · simp only [Option.some.injEq, Prod.mk.injEq] at h
    rw [← h.2]
  · cases hpa : prefixAt text prog.prefixes (inputAt text start) with
    | none =>
      rw [hpa] at h
      simp only [Option.some.injEq, Prod.mk.injEq] at h
      rw [← h.2]
    | some a1 =>
      rw [hpa] at h
      have := btBacktrack_false prog.insts fold isw text sf lf a1 _ st' h
      rw [this.2]
      rfl
  · exact btExecLoop_false prog fold isw text sf lf ef _ _ st' rfl h

theorem nfaStep_continue_caps (insts : List Inst) (fold : Nat → Nat)
    (isw : Nat → Bool) (text : List Nat) (af p : Nat)
    (caps : List (Option Nat)) (nlist : Threads) (tcaps : List (Option Nat))
    (pc : Nat) (caps' : List (Option Nat)) (nlist' : Threads)
    (tcaps' : List (Option Nat))
    (h : nfaStep insts fold isw text af p caps nlist tcaps pc =
      some (NStep.Continue, caps', nlist', tcaps')) :
    caps' = caps := by
  unfold nfaStep at h
  cases hinst : instAt insts pc with
  | Match =>
    rw [hinst] at h
    dsimp only at h
    split_ifs at h <;> simp at h
  | Char oc =>
    rw [hinst] at h
    dsimp only at h
    split_ifs at h with hm
    · cases hadd : nfaAdd insts isw (inputAt text p).c
          (inputAt text (inputAt text p).nextPos).c (inputAt text p).nextPos
          af nlist (pc + 1) tcaps with
      | none => rw [hadd] at h; cases h
      | some q =>
        rw [hadd] at h
        simp only [Option.some.injEq, Prod.mk.injEq] at h
        exact h.2.1.symm
    · simp only [Option.some.injEq, Prod.mk.injEq] at h
      exact h.2.1.symm
  | Ranges cr =>
    rw [hinst] at h
    dsimp only at h
    split_ifs at h with hm
    · cases hadd : nfaAdd insts isw (inputAt text p).c
          (inputAt text (inputAt text p).nextPos).c (inputAt text p).nextPos
          af nlist (pc + 1) tcaps with
      | none => rw [hadd] at h; cases h
      | some q =>
        rw [hadd] at h
        simp only [Option.some.injEq, Prod.mk.injEq] at h
        exact h.2.1.symm
    · simp only [Option.some.injEq, Prod.mk.injEq] at h
      exact h.2.1.symm
  | Save slot =>
    rw [hinst] at h
    simp only [Option.some.injEq, Prod.mk.injEq] at h
    exact h.2.1.symm
  | Jump pc2 =>
    rw [hinst] at h
    simp only [Option.some.injEq, Prod.mk.injEq] at h
    exact h.2.1.symm
  | Split x y =>
    rw [hinst] at h
    simp only [Option.some.injEq, Prod.mk.injEq] at h
    exact h.2.1.symm
  | EmptyLook l =>
    rw [hinst] at h
    simp only [Option.some.injEq, Prod.mk.injEq] at h
    exact h.2.1.symm

theorem nfaStepAll_no_match (insts : List Inst) (fold : Nat → Nat)
    (isw : Nat → Bool) (text : List Nat) (af p : Nat) :
    ∀ (k i : Nat) (caps : List (Option Nat)) (clist nlist : Threads)
      (early : Bool) (caps' : List (Option Nat)) (clist' nlist' : Threads),
      nfaStepAll insts fold isw text af p k i caps clist nlist =
        some (early, false, caps', clist', nlist') →
      caps' = caps ∧ early = false := by
  intro k
  induction k with
  | zero =>
    intro i caps clist nlist early caps' clist' nlist' h
    simp only [nfaStepAll, Option.some.injEq, Prod.mk.injEq] at h
    exact ⟨h.2.2.1.symm, h.1.symm⟩
  | succ k ih =>
    intro i caps clist nlist early caps' clist' nlist' h
    rw [show nfaStepAll insts fold isw text af p (Nat.succ k) i caps clist
        nlist =
        (match nfaStep insts fold isw text af p caps nlist (clist.groups i)
            (clist.pcAt i) with
         | none => none
         | some (NStep.MatchEarlyReturn, caps', nlist', tcaps') =>
           some (true, true, caps', clist.setGroups i tcaps', nlist')
         | some (NStep.Match, caps', nlist', tcaps') =>
           some (false, true, caps', clist.setGroups i tcaps', nlist')
         | some (NStep.Continue, caps', nlist', tcaps') =>
           nfaStepAll insts fold isw text af p k (i + 1) caps'
             (clist.setGroups i tcaps') nlist') from rfl] at h
    cases hs : nfaStep insts fold isw text af p caps nlist (clist.groups i)
        (clist.pcAt i) with
    | none => rw [hs] at h; cases h
    | some r =>
      rw [hs] at h
      obtain ⟨ns, caps1, nlist1, tcaps1⟩ := r
      cases ns with
      | MatchEarlyReturn =>
        dsimp only at h
        simp only [Option.some.injEq, Prod.mk.injEq] at h
        cases h.2.1
      | Match =>
        dsimp only at h
        simp only [Option.some.injEq, Prod.mk.injEq] at h
        cases h.2.1
      | Continue =>
        dsimp only at h
        have hcap := nfaStep_continue_caps insts fold isw text af p caps
          nlist (clist.groups i) (clist.pcAt i) caps1 nlist1 tcaps1 hs
        have := ih (i + 1) caps1 (clist.setGroups i tcaps1) nlist1 early
          caps' clist' nlist' h
        exact ⟨this.1.trans hcap, this.2⟩

theorem nfaLoop_false (prog : Program) (fold : Nat → Nat) (isw : Nat → Bool)
    (text : List Nat) (af : Nat) :
    ∀ (lf : Nat) (matched : Bool) (p : Nat) (caps : List (Option Nat))
      (clist nlist : Threads) (caps' : List (Option Nat)),
      nfaLoop prog fold isw text af lf matched p caps clist nlist =
        some (false, caps') →
      caps' = caps ∧ matched = false := by
  intro lf
  induction lf with
  | zero => intro matched p caps clist nlist caps' h; cases h
  | succ lf ih =>
    intro matched p caps clist nlist caps' h
    rw [show nfaLoop prog fold isw text af (Nat.succ lf) matched p caps clist
        nlist =
        (match
          (if clist.size == 0 then
            if matched then none
            else if !(decide (p = 0)) && prog.anchored_begin then none
            else if decide (0 < prog.prefixes.length) then
              match prefixAt text prog.prefixes (inputAt text p) with
              | none => none
              | some a' => some a'.pos
            else some p
          else some p) with
        | none => some (matched, caps)
        | some p' =>
          match
            (if clist.size == 0 || (!prog.anchored_begin && !matched) then
              nfaAdd prog.insts isw (previousAt text p').c (inputAt text p').c
                p' af clist 0 caps
            else some (clist, caps)) with
          | none => none
          | some (clist1, caps1) =>
            match nfaStepAll prog.insts fold isw text af p' clist1.size 0
                caps1 clist1 nlist with
            | none => none
            | some (early, mh, caps2, clist2, nlist2) =>
              if early then some (true, caps2)
              else if charIsNone (inputAt text p').c then
                some (matched || mh, caps2)
              else
                nfaLoop prog fold isw text af lf (matched || mh)
                  (inputAt text p').nextPos caps2 nlist2 clist2.empty)
        from rfl] at h
    cases hsel :
        (if clist.size == 0 then
          if matched then none
          else if !(decide (p = 0)) && prog.anchored_begin then none
          else if decide (0 < prog.prefixes.length) then
            match prefixAt text prog.prefixes (inputAt text p) with
            | none => none
            | some a' => some a'.pos
          else some p
        else some p) with
    | none =>
      rw [hsel] at h
      simp only [Option.some.injEq, Prod.mk.injEq] at h
      exact ⟨h.2.symm, h.1⟩
    | some p' =>
      rw [hsel] at h
      dsimp only at h
      cases hinj :
          (if clist.size == 0 || (!prog.anchored_begin && !matched) then
            nfaAdd prog.insts isw (previousAt text p').c (inputAt text p').c
              p' af clist 0 caps
          else some (clist, caps)) with
      | none => rw [hinj] at h; cases h
      | some r1 =>
        rw [hinj] at h
        obtain ⟨clist1, caps1⟩ := r1
        have hcaps1 : caps1 = caps := by
          split_ifs at hinj with hc
          · exact nfaAdd_preserves_thread_caps prog.insts isw _ _ _ _ _ _ _
              _ _ hinj
          · simp only [Option.some.injEq, Prod.mk.injEq] at hinj
            exact hinj.2.symm
        dsimp only at h
        cases hsa : nfaStepAll prog.insts fold isw text af p' clist1.size 0
            caps1 clist1 nlist with
        | none => rw [hsa] at h; cases h
        | some r2 =>
          rw [hsa] at h
          obtain ⟨early, mh, caps2, clist2, nlist2⟩ := r2
          dsimp only at h
          split_ifs at h with hearly hnone
          · simp only [Option.some.injEq, Prod.mk.injEq] at h
            cases h.1
          · simp only [Option.some.injEq, Prod.mk.injEq] at h
            have hmm : matched = false ∧ mh = false := by
              have := h.1
              cases matched <;> cases mh <;> simp_all
            have hst := nfaStepAll_no_match prog.insts fold isw text af p'
              clist1.size 0 caps1 clist1 nlist early caps2 clist2 nlist2
              (hmm.2 ▸ hsa)
            refine ⟨?_, hmm.1⟩
            rw [← h.2, hst.1, hcaps1]
          · have hih := ih (matched || mh) (inputAt text p').nextPos caps2
              nlist2 clist2.empty caps' h
            have hmm : matched = false ∧ mh = false := by
              have := hih.2
              cases matched <;> cases mh <;> simp_all
            have hst := nfaStepAll_no_match prog.insts fold isw text af p'
              clist1.size 0 caps1 clist1 nlist early caps2 clist2 nlist2
              (hmm.2 ▸ hsa)
            refine ⟨?_, hmm.1⟩
            rw [hih.1, hst.1, hcaps1]

/-- The NFA half of C10: the caller's buffer is written only in the
`Match` branch of `step`, so a run that reports no match leaves it
untouched. -/
theorem nfaRun_false_preserves_caps (prog : Program) (fold : Nat → Nat)
    (isw : Nat → Bool) (caps0 : List (Option Nat)) (text : List Nat)
    (start : Nat) (caps' : List (Option Nat))
    (h : nfaRun prog fold isw caps0 text start = some (false, caps')) :
    caps' = caps0 := by
  unfold nfaRun at h
  exact (nfaLoop_false prog fold isw text (prog.insts.length + 1)
    (byteLen text + 2) false start caps0 _ _ caps' h).1

/-- C10: if an engine returns false (no match), the caller's capture
buffer holds exactly the values it held at entry — the NFA writes the
buffer only in the `Match` branch of `step`, and the backtracker pushes a
`SaveRestore` job before every speculative overwrite and pops every such
job before `backtrack` returns false. -/
theorem engines_no_match_preserve_caps (prog : Program) (fold : Nat → Nat)
    (isw : Nat → Bool) (caps0 : List (Option Nat)) (text : List Nat)
    (start : Nat) (sf lf ef : Nat) :
    (∀ st' : BtState,
      btExec prog fold isw caps0 text start sf lf ef = some (false, st') →
      st'.caps = caps0) ∧
    (∀ caps' : List (Option Nat),
      nfaRun prog fold isw caps0 text start = some (false, caps') →
      caps' = caps0) :=
  ⟨fun st' h => btExec_false_preserves_caps prog fold isw caps0 text start
      sf lf ef st' h,
    fun caps' h => nfaRun_false_preserves_caps prog fold isw caps0 text
      start caps' h⟩

/-- Witness for `engines_no_match_preserve_caps`: both engines fail on
`"bc"` for the program `a` and hand back the caps `[some 5, none]`
unchanged. -/
theorem engines_no_match_preserve_caps_witness :
    btExec sampleProg1 (fun c => c) (fun _ => false) [some 5, none]
        [98, 99] 0 20 20 20 =
      some (false,
        { caps := [some 5, none], jobs := [],
          visited := [(1, 2), (0, 2), (1, 1), (0, 1), (1, 0), (0, 0)] }) ∧
    (BtState.mk [some 5, none] []
        [(1, 2), (0, 2), (1, 1), (0, 1), (1, 0), (0, 0)]).caps =
      [some 5, none] ∧
    ([some 5, none] : List (Option Nat)) = [some 5, none] := by
  have hbt : btExec sampleProg1 (fun c => c) (fun _ => false) [some 5, none]
      [98, 99] 0 20 20 20 =
      some (false,
        { caps := [some 5, none], jobs := [],
          visited := [(1, 2), (0, 2), (1, 1), (0, 1), (1, 0), (0, 0)] }) := by
    decide
  have hnfa : nfaRun sampleProg1 (fun c => c) (fun _ => false)
      [some 5, none] [98, 99] 0 = some (false, [some 5, none]) := by
    decide
  exact ⟨hbt,
    (engines_no_match_preserve_caps sampleProg1 (fun c => c) (fun _ => false)
      [some 5, none] [98, 99] 0 20 20 20).1 _ hbt,
    (engines_no_match_preserve_caps sampleProg1 (fun c => c) (fun _ => false)
      [some 5, none] [98, 99] 0 20 20 20).2 _ hnfa⟩

/-- A text of genuine Unicode scalar values (`str` is valid UTF-8). -/
def ValidText (ts : List Nat) : Prop := ∀ c ∈ ts, isScalarValue c = true

theorem utf8Encode_length {c : Nat} (h : isScalarValue c = true) :
    (utf8Encode c).length = charLenUtf8 c := by
  simp only [charLenUtf8, h, if_true]
  unfold utf8Encode scalarUtf8Len
  split_ifs <;> rfl

theorem encodeList_length {ts : List Nat} (h : ValidText ts) :
    (encodeList ts).length = byteLen ts := by
  induction ts with
  | nil => rfl
  | cons t ts ih =>
    have hvt : isScalarValue t = true := h t (by simp)
    show (utf8Encode t ++ encodeList ts).length = _
    rw [List.length_append, utf8Encode_length hvt, byteLen_cons,
      ih (fun c hc => h c (List.mem_cons_of_mem _ hc))]

theorem utf8Encode_continuation {c : Nat} (hv : isScalarValue c = true) :
    ∀ j, 0 < j → j < (utf8Encode c).length →
      128 ≤ (utf8Encode c).getD j 0 ∧ (utf8Encode c).getD j 0 < 192 := by
  intro j hj0 hjlen
  simp only [isScalarValue, Bool.and_eq_true, Bool.not_eq_true',
    Bool.and_eq_false_iff, decide_eq_true_iff, decide_eq_false_iff_not] at hv
  unfold utf8Encode at hjlen ⊢
  split_ifs at hjlen ⊢ with h1 h2 h3
  · simp only [List.length_cons, List.length_nil] at hjlen
    omega
  · simp only [List.length_cons, List.length_nil] at hjlen
    have : j = 1 := by omega
    subst this
    simp only [List.getD_cons_succ, List.getD_cons_zero]
    omega
  · simp only [List.length_cons, List.length_nil] at hjlen
    have : j = 1 ∨ j = 2 := by omega
    rcases this with rfl | rfl <;>
      simp only [List.getD_cons_succ, List.getD_cons_zero] <;> omega
  · simp only [List.length_cons, List.length_nil] at hjlen
    have : j = 1 ∨ j = 2 ∨ j = 3 := by omega
    rcases this with rfl | rfl | rfl <;>
      simp only [List.getD_cons_succ, List.getD_cons_zero] <;> omega

theorem utf8Encode_head {c : Nat} :
    (utf8Encode c).getD 0 0 < 128 ∨ 192 ≤ (utf8Encode c).getD 0 0 := by
  unfold utf8Encode
  split_ifs with h1 h2 h3 <;> simp only [List.getD_cons_zero] <;> omega

theorem utf8Encode_ne_nil (c : Nat) : utf8Encode c ≠ [] := by
  unfold utf8Encode
  split_ifs <;> simp

/-- A byte inside the UTF-8 encoding of a valid text that does not sit on
a character boundary is a continuation byte (in `[128, 192)`). -/
theorem encodeList_continuation {ts : List Nat} (hv : ValidText ts) :
    ∀ i, isBoundary ts i = false → i < (encodeList ts).length →
      128 ≤ (encodeList ts).getD i 0 ∧ (encodeList ts).getD i 0 < 192 := by
  induction ts with
  | nil =>
    intro i hb hlen
    simp [encodeList] at hlen
  | cons t ts ih =>
    intro i hb hlen
    have hvt : isScalarValue t = true := hv t (by simp)
    have henc : encodeList (t :: ts) = utf8Encode t ++ encodeList ts := rfl
    rw [henc] at hlen ⊢
    rw [List.length_append] at hlen
    rcases Nat.lt_or_ge i (utf8Encode t).length with hi | hi
    · have hgd : (utf8Encode t ++ encodeList ts).getD i 0 =
          (utf8Encode t).getD i 0 := by
        rw [List.getD_eq_getElem?_getD, List.getD_eq_getElem?_getD,
          List.getElem?_append_left hi]
      rw [hgd]
      have hj0 : 0 < i := by
        by_contra hc
        push_neg at hc
        have : i = 0 := by omega
        subst this
        cases ts <;> simp [isBoundary] at hb
      exact utf8Encode_continuation hvt i hj0 hi
    · have hgd : (utf8Encode t ++ encodeList ts).getD i 0 =
          (encodeList ts).getD (i - (utf8Encode t).length) 0 := by
        rw [List.getD_eq_getElem?_getD, List.getD_eq_getElem?_getD,
          List.getElem?_append_right hi]
      rw [hgd]
      have hlt : charLenUtf8 t ≤ i := by
        rw [← utf8Encode_length hvt]
        exact hi
      have hi0 : 0 < i := by
        have := charLenUtf8_pos hvt
        omega
      have hb' : isBoundary ts (i - charLenUtf8 t) = false := by
        obtain ⟨i0, rfl⟩ : ∃ i0, i = i0 + 1 := ⟨i - 1, by omega⟩
        have : isBoundary (t :: ts) (i0 + 1) =
            (decide (charLenUtf8 t ≤ i0 + 1) &&
              isBoundary ts (i0 + 1 - charLenUtf8 t)) := rfl
        rw [this] at hb
        rw [Bool.and_eq_false_iff] at hb
        rcases hb with hb | hb
        · rw [decide_eq_false_iff_not] at hb
          omega
        · exact hb
      rw [utf8Encode_length hvt]
      exact ih (fun c hc => hv c (List.mem_cons_of_mem _ hc))
        (i - charLenUtf8 t) hb'
        (by rw [utf8Encode_length hvt] at hi hlen; omega)

/-- A usable literal prefix: the UTF-8 bytes of a nonempty, valid
character sequence (what `find_prefixes` extraction produces). -/
def ValidNeedle (nd : List Nat) : Prop :=
  ∃ cs : List Nat, cs ≠ [] ∧ ValidText cs ∧ nd = encodeList cs

/-- A snapshot is canonical for the text: produced by `at` on a character
boundary. -/
def AtOk (text : List Nat) (a : InputAt) : Prop :=
  a = inputAt text a.pos ∧ isBoundary text a.pos = true

theorem isBoundary_le : ∀ (ts : List Nat) (i : Nat),
    isBoundary ts i = true → i ≤ byteLen ts := by
  intro ts
  induction ts with
  | nil =>
    intro i h
    cases i with
    | zero => simp [byteLen]
    | succ i0 => simp [isBoundary] at h
  | cons t ts ih =>
    intro i h
    cases i with
    | zero => simp
    | succ i0 =>
      have h' : (decide (charLenUtf8 t ≤ Nat.succ i0) &&
          isBoundary ts (Nat.succ i0 - charLenUtf8 t)) = true := h
      rw [Bool.and_eq_true, decide_eq_true_iff] at h'
      have := ih _ h'.2
      rw [byteLen_cons]
      omega

theorem isBoundary_zero (ts : List Nat) : isBoundary ts 0 = true := by
  cases ts <;> rfl

theorem isBoundary_step : ∀ (ts : List Nat) (i : Nat),
    isBoundary ts i = true →
    isBoundary ts (i + charLenUtf8 (headChar (suffixFrom ts i))) = true := by
  intro ts
  induction ts with
  | nil =>
    intro i h
    cases i with
    | zero => rfl
    | succ i0 => simp [isBoundary] at h
  | cons t ts ih =>
    intro i h
    cases i with
    | zero =>
      rw [Nat.zero_add]
      show isBoundary (t :: ts) (charLenUtf8 t) = true
      cases hL : charLenUtf8 t with
      | zero => rfl
      | succ k =>
        show (decide (charLenUtf8 t ≤ k + 1) &&
          isBoundary ts (k + 1 - charLenUtf8 t)) = true
        rw [hL, Bool.and_eq_true, decide_eq_true_iff]
        refine ⟨le_rfl, ?_⟩
        rw [Nat.sub_self]
        exact isBoundary_zero ts
    | succ i0 =>
      have h' : (decide (charLenUtf8 t ≤ Nat.succ i0) &&
          isBoundary ts (Nat.succ i0 - charLenUtf8 t)) = true := h
      rw [Bool.and_eq_true, decide_eq_true_iff] at h'
      have hsuf : suffixFrom (t :: ts) (Nat.succ i0) =
          suffixFrom ts (Nat.succ i0 - charLenUtf8 t) := rfl
      rw [hsuf]
      set c := headChar (suffixFrom ts (Nat.succ i0 - charLenUtf8 t)) with hc
      have hih := ih (Nat.succ i0 - charLenUtf8 t) h'.2
      show isBoundary (t :: ts) (i0 + 1 + charLenUtf8 c) = true
      have : i0 + 1 + charLenUtf8 c = (i0 + charLenUtf8 c) + 1 := by omega
      rw [this]
      show (decide (charLenUtf8 t ≤ i0 + charLenUtf8 c + 1) &&
        isBoundary ts (i0 + charLenUtf8 c + 1 - charLenUtf8 t)) = true
      rw [Bool.and_eq_true, decide_eq_true_iff]
      refine ⟨by omega, ?_⟩
      rw [show i0 + charLenUtf8 c + 1 - charLenUtf8 t =
        (Nat.succ i0 - charLenUtf8 t) + charLenUtf8 c from by omega]
      exact hih

theorem headChar_suffix_valid {ts : List Nat} (hv : ValidText ts) (i : Nat)
    (hne : charIsNone (headChar (suffixFrom ts i)) = false) :
    isScalarValue (headChar (suffixFrom ts i)) = true := by
  cases hs : suffixFrom ts i with
  | nil =>
    rw [hs] at hne
    simp [headChar, charIsNone, NOCHAR] at hne
  | cons d rest =>
    show isScalarValue d = true
    have hmem : d ∈ suffixFrom ts i := by rw [hs]; simp
    exact hv d (mem_suffixFrom ts i d hmem)

theorem atOk_next {text : List Nat} {a : InputAt} (hv : ValidText text)
    (h : AtOk text a) : AtOk text (inputAt text a.nextPos) ∧
      a.pos ≤ a.nextPos := by
  obtain ⟨hcanon, hbnd⟩ := h
  have hnext : a.nextPos = a.pos + charLenUtf8 (headChar (suffixFrom text a.pos)) := by
    rw [InputAt.nextPos, hcanon]
    rfl
  constructor
  · constructor
    · rfl
    · show isBoundary text (inputAt text a.nextPos).pos = true
      show isBoundary text a.nextPos = true
      rw [hnext]
      exact isBoundary_step text a.pos hbnd
  · rw [hnext]
    omega

theorem findPrefixLoop_occurrence {needle : List Nat} :
    ∀ (hs : List Nat) (off i : Nat),
      findPrefixLoop needle hs off = some i →
      off ≤ i ∧ (hs.drop (i - off)).take needle.length = needle := by
  intro hs
  induction hs with
  | nil =>
    intro off i h
    rw [show findPrefixLoop needle [] off =
        (if [].take needle.length == needle then some off else none)
        from rfl] at h
    split_ifs at h with htake
    rw [beq_iff_eq] at htake
    cases h
    simpa using htake
  | cons a t ih =>
    intro off i h
    rw [show findPrefixLoop needle (a :: t) off =
        (if (a :: t).take needle.length == needle then some off
         else findPrefixLoop needle t (off + 1)) from rfl] at h
    split_ifs at h with htake
    · rw [beq_iff_eq] at htake
      cases h
      simpa using htake
    · have := ih (off + 1) i h
      refine ⟨by omega, ?_⟩
      rw [show i - off = (i - (off + 1)) + 1 from by omega]
      rw [show ((a :: t).drop ((i - (off + 1)) + 1)) =
        t.drop (i - (off + 1)) from rfl]
      exact this.2

theorem findPrefixBytes_occurrence {needle hs : List Nat} {i : Nat}
    (h : findPrefixBytes needle hs = some i) :
    (hs.drop i).take needle.length = needle := by
  unfold findPrefixBytes at h
  split_ifs at h with hguard
  have := findPrefixLoop_occurrence hs 0 i h
  simpa using this.2

theorem findPrefixesLoop_occurrence {needles : List (List Nat)} :
    ∀ (hs : List Nat) (off i : Nat),
      findPrefixesLoop needles hs off = some i →
      off ≤ i ∧ ∃ nd ∈ needles,
        (hs.drop (i - off)).take nd.length = nd := by
  intro hs
  induction hs with
  | nil => intro off i h; cases h
  | cons a t ih =>
    intro off i h
    rw [show findPrefixesLoop needles (a :: t) off =
        (if needles.any (fun nd => (a :: t).take nd.length == nd) then
          some off
         else findPrefixesLoop needles t (off + 1)) from rfl] at h
    split_ifs at h with hany
    · rw [List.any_eq_true] at hany
      obtain ⟨nd, hnd, hmatch⟩ := hany
      rw [beq_iff_eq] at hmatch
      cases h
      exact ⟨le_rfl, nd, hnd, by simpa using hmatch⟩
    · have := ih (off + 1) i h
      refine ⟨by omega, ?_⟩
      obtain ⟨nd, hnd, hmatch⟩ := this.2
      refine ⟨nd, hnd, ?_⟩
      rw [show i - off = (i - (off + 1)) + 1 from by omega]
      rw [show ((a :: t).drop ((i - (off + 1)) + 1)) =
        t.drop (i - (off + 1)) from rfl]
      exact hmatch

theorem validNeedle_ne_nil {nd : List Nat} (h : ValidNeedle nd) : nd ≠ [] := by
  obtain ⟨cs, hne, hvt, rfl⟩ := h
  cases cs with
  | nil => exact absurd rfl hne
  | cons c rest =>
    show utf8Encode c ++ encodeList rest ≠ []
    simp [utf8Encode_ne_nil]

theorem validNeedle_head {nd : List Nat} (h : ValidNeedle nd) :
    nd.getD 0 0 < 128 ∨ 192 ≤ nd.getD 0 0 := by
  obtain ⟨cs, hne, hvt, rfl⟩ := h
  cases cs with
  | nil => exact absurd rfl hne
  | cons c rest =>
    have : encodeList (c :: rest) = utf8Encode c ++ encodeList rest := rfl
    rw [this]
    have hgd : (utf8Encode c ++ encodeList rest).getD 0 0 =
        (utf8Encode c).getD 0 0 := by
      rw [List.getD_eq_getElem?_getD, List.getD_eq_getElem?_getD,
        List.getElem?_append_left (by
          cases hu : utf8Encode c with
          | nil => exact absurd hu (utf8Encode_ne_nil c)
          | cons b bs => simp)]
    rw [hgd]
    exact utf8Encode_head

/-- An occurrence of a valid needle inside the encoded text starts on a
character boundary: its first byte is an ASCII or leading byte, while
every non-boundary byte of valid UTF-8 is a continuation byte. -/
theorem occurrence_isBoundary {text nd : List Nat} {m : Nat}
    (hv : ValidText text) (hnd : ValidNeedle nd)
    (hocc : ((encodeList text).drop m).take nd.length = nd) :
    isBoundary text m = true := by
  by_contra hb
  rw [Bool.not_eq_true] at hb
  have hndne := validNeedle_ne_nil hnd
  have hmlt : m < (encodeList text).length := by
    by_contra hge
    push_neg at hge
    rw [List.drop_eq_nil_of_le hge] at hocc
    simp at hocc
    exact hndne hocc
  have hbyte : (encodeList text).getD m 0 = nd.getD 0 0 := by
    have h0 : nd.getD 0 0 = ((encodeList text).drop m).getD 0 0 := by
      conv_lhs => rw [← hocc]
      rw [List.getD_eq_getElem?_getD, List.getD_eq_getElem?_getD]
      have hlen0 : 0 < nd.length := by
        cases nd with
        | nil => exact absurd rfl hndne
        | cons x xs => simp
      rw [List.getElem?_take_of_lt hlen0]
    rw [h0, List.getD_eq_getElem?_getD, List.getD_eq_getElem?_getD,
      List.getElem?_drop]
    rfl
  have hcont := encodeList_continuation hv m hb hmlt
  have hhead := validNeedle_head hnd
  rw [hbyte] at hcont
  omega

theorem drop_drop_eq {α : Type} (l : List α) (n m : Nat) :
    (l.drop n).drop m = l.drop (n + m) := by
  rw [List.drop_drop]

theorem prefixAt_atOk {text : List Nat} {prefixes : List (List Nat)}
    {a a' : InputAt} (hv : ValidText text)
    (hnd : ∀ nd ∈ prefixes, ValidNeedle nd) (ha : AtOk text a)
    (h : prefixAt text prefixes a = some a') :
    AtOk text a' ∧ a.pos ≤ a'.pos := by
  unfold prefixAt at h
  cases prefixes with
  | nil =>
    simp only [Option.some.injEq] at h
    rw [← h]
    exact ⟨ha, le_rfl⟩
  | cons p rest =>
    cases rest with
    | nil =>
      dsimp only at h
      cases hf : findPrefixBytes p ((encodeList text).drop a.pos) with
      | none => rw [hf] at h; cases h
      | some adv =>
        rw [hf] at h
        simp only [Option.map_some', Option.some.injEq] at h
        have hocc := findPrefixBytes_occurrence hf
        rw [drop_drop_eq] at hocc
        have hbnd := occurrence_isBoundary hv (hnd p (by simp)) hocc
        rw [← h]
        exact ⟨⟨rfl, hbnd⟩, by show a.pos ≤ a.pos + adv; omega⟩
    | cons q rest2 =>
      dsimp only at h
      cases hf : findPrefixes (p :: q :: rest2)
          ((encodeList text).drop a.pos) with
      | none => rw [hf] at h; cases h
      | some adv =>
        rw [hf] at h
        simp only [Option.map_some', Option.some.injEq] at h
        have hocc := findPrefixesLoop_occurrence
          ((encodeList text).drop a.pos) 0 adv hf
        obtain ⟨nd, hndmem, hmatch⟩ := hocc.2
        rw [Nat.sub_zero, drop_drop_eq] at hmatch
        have hbnd := occurrence_isBoundary hv (hnd nd hndmem) hmatch
        rw [← h]
        exact ⟨⟨rfl, hbnd⟩, by show a.pos ≤ a.pos + adv; omega⟩

/-- Jump/Split targets of one instruction stay inside the program. -/
def InstTargetsOk (n : Nat) : Inst → Prop
  | Inst.Jump pc2 => pc2 < n
  | Inst.Split x y => x < n ∧ y < n
  | _ => True

/-- The program invariants both VMs rely on: nonempty, final instruction
`Match`, and all branch targets in range. -/
def WfProg (insts : List Inst) : Prop :=
  0 < insts.length ∧
  instAt insts (insts.length - 1) = Inst.Match ∧
  ∀ i, i < insts.length → InstTargetsOk insts.length (instAt insts i)

/-- A well-formed job: program counters in range, snapshots canonical. -/
def JobOk (text : List Nat) (n : Nat) : Job → Prop
  | Job.Inst pc a => pc < n ∧ AtOk text a
  | Job.SplitNext pc a => pc < n ∧ AtOk text a
  | Job.SaveRestore _ _ => True

/-- A well-formed visited key. -/
def VisOk (text : List Nat) (n : Nat) (q : Nat × Nat) : Prop :=
  q.1 < n ∧ isBoundary text q.2 = true

/-- The backtracker's state invariant. -/
def SI (insts : List Inst) (text : List Nat) (st : BtState) : Prop :=
  st.visited.Nodup ∧
  (∀ q ∈ st.visited, VisOk text insts.length q) ∧
  (∀ j ∈ st.jobs, JobOk text insts.length j)

/-- The termination weight of the job stack. -/
def jobWeight : List Job → Nat
  | [] => 0
  | Job.Inst _ _ :: r => 3 + jobWeight r
  | Job.SplitNext _ _ :: r => 2 + jobWeight r
  | Job.SaveRestore _ _ :: r => 1 + jobWeight r

theorem si_visited_card {insts : List Inst} {text : List Nat} {st : BtState}
    (hsi : SI insts text st) :
    st.visited.length ≤ insts.length * (byteLen text + 1) := by
  obtain ⟨hnd, hvis, _⟩ := hsi
  have hcard : st.visited.toFinset.card = st.visited.length :=
    List.toFinset_card_of_nodup hnd
  have hsub : st.visited.toFinset ⊆
      Finset.range insts.length ×ˢ Finset.range (byteLen text + 1) := by
    intro q hq
    rw [List.mem_toFinset] at hq
    have := hvis q hq
    rw [Finset.mem_product, Finset.mem_range, Finset.mem_range]
    exact ⟨this.1, by
      have := isBoundary_le text q.2 this.2
      omega⟩
  have := Finset.card_le_card hsub
  rw [hcard, Finset.card_product, Finset.card_range, Finset.card_range]
    at this
  exact this

theorem instAt_ne_match_succ_lt {insts : List Inst} {pc : Nat}
    (hwf : WfProg insts) (hpc : pc < insts.length)
    (hne : instAt insts pc ≠ Inst.Match) : pc + 1 < insts.length := by
  rcases Nat.lt_or_ge (pc + 1) insts.length with h | h
  · exact h
  · exfalso
    have : pc = insts.length - 1 := by omega
    rw [this] at hne
    exact hne hwf.2.1

theorem btStepOnce_props (insts : List Inst) (fold : Nat → Nat)
    (isw : Nat → Bool) (text : List Nat) (pc : Nat) (a : InputAt)
    (st : BtState) (hwf : WfProg insts) (hv : ValidText text)
    (hsi : SI insts text st) (hpc : pc < insts.length) (ha : AtOk text a) :
    (∀ b st', btStepOnce insts fold isw text pc a st = StepOnce.ret b st' →
      SI insts text st' ∧ st'.visited = st.visited ∧
      jobWeight st'.jobs ≤ jobWeight st.jobs + 2) ∧
    (∀ pc' a' st',
      btStepOnce insts fold isw text pc a st = StepOnce.cont pc' a' st' →
      SI insts text st' ∧ st'.visited = st.visited ∧
      jobWeight st'.jobs ≤ jobWeight st.jobs + 2 ∧
      pc' < insts.length ∧ AtOk text a') := by
  obtain ⟨hnd, hvis, hjobs⟩ := hsi
  unfold btStepOnce
  cases hinst : instAt insts pc with
  | Match =>
    refine ⟨?_, ?_⟩
    · intro b st' h
      dsimp only at h
      cases h
      exact ⟨⟨hnd, hvis, hjobs⟩, rfl, by omega⟩
    · intro pc' a' st' h
      dsimp only at h
      cases h
  | Save slot =>
    have hlt := instAt_ne_match_succ_lt hwf hpc (by rw [hinst]; intro hc; cases hc)
    refine ⟨?_, ?_⟩
    · intro b st' h
      dsimp only at h
      split_ifs at h <;> cases h
    · intro pc' a' st' h
      dsimp only at h
      split_ifs at h with hs <;> cases h
      · refine ⟨⟨hnd, hvis, ?_⟩, rfl, ?_, hlt, ha⟩
        · intro j hj
          rcases List.mem_cons.mp hj with rfl | hj
          · trivial
          · exact hjobs j hj
        · show jobWeight (Job.SaveRestore slot (st.caps.getD slot none) ::
            st.jobs) ≤ _
          show 1 + jobWeight st.jobs ≤ _
          omega
      · exact ⟨⟨hnd, hvis, hjobs⟩, rfl, by omega, hlt, ha⟩
  | Jump pc2 =>
    have htgt := hwf.2.2 pc hpc
    rw [hinst] at htgt
    refine ⟨?_, ?_⟩
    · intro b st' h
      dsimp only at h
      cases h
    · intro pc' a' st' h
      dsimp only at h
      cases h
      exact ⟨⟨hnd, hvis, hjobs⟩, rfl, by omega, htgt, ha⟩
  | Split x y =>
    have htgt := hwf.2.2 pc hpc
    rw [hinst] at htgt
    refine ⟨?_, ?_⟩
    · intro b st' h
      dsimp only at h
      cases h
    · intro pc' a' st' h
      dsimp only at h
      cases h
      refine ⟨⟨hnd, hvis, ?_⟩, rfl, ?_, htgt.1, ha⟩
      · intro j hj
        rcases List.mem_cons.mp hj with rfl | hj
        · exact ⟨htgt.2, ha⟩
        · exact hjobs j hj
      · show jobWeight (Job.SplitNext y a :: st.jobs) ≤ _
        show 2 + jobWeight st.jobs ≤ _
        omega
  | EmptyLook l =>
    have hlt := instAt_ne_match_succ_lt hwf hpc (by rw [hinst]; intro hc; cases hc)
    refine ⟨?_, ?_⟩
    · intro b st' h
      dsimp only at h
      split_ifs at h <;> cases h
      exact ⟨⟨hnd, hvis, hjobs⟩, rfl, by omega⟩
    · intro pc' a' st' h
      dsimp only at h
      split_ifs at h <;> cases h
      exact ⟨⟨hnd, hvis, hjobs⟩, rfl, by omega, hlt, ha⟩
  | Char oc =>
    have hlt := instAt_ne_match_succ_lt hwf hpc (by rw [hinst]; intro hc; cases hc)
    refine ⟨?_, ?_⟩
    · intro b st' h
      dsimp only at h
      split_ifs at h <;> cases h
      exact ⟨⟨hnd, hvis, hjobs⟩, rfl, by omega⟩
    · intro pc' a' st' h
      dsimp only at h
      split_ifs at h <;> cases h
      exact ⟨⟨hnd, hvis, hjobs⟩, rfl, by omega, hlt, (atOk_next hv ha).1⟩
  | Ranges cr =>
    have hlt := instAt_ne_match_succ_lt hwf hpc (by rw [hinst]; intro hc; cases hc)
    refine ⟨?_, ?_⟩
    · intro b st' h
      dsimp only at h
      split_ifs at h <;> cases h
      exact ⟨⟨hnd, hvis, hjobs⟩, rfl, by omega⟩
    · intro pc' a' st' h
      dsimp only at h
      split_ifs at h <;> cases h
      exact ⟨⟨hnd, hvis, hjobs⟩, rfl, by omega, hlt, (atOk_next hv ha).1⟩

theorem hasVisited_false_props {insts : List Inst} {text : List Nat}
    {st : BtState} {pc : Nat} {a : InputAt} (hsi : SI insts text st)
    (hpc : pc < insts.length) (hbnd : isBoundary text a.pos = true)
    {st' : BtState} (h : hasVisited st pc a = (false, st')) :
    SI insts text st' ∧ st'.visited.length = st.visited.length + 1 ∧
    st'.jobs = st.jobs ∧ st'.caps = st.caps := by
  obtain ⟨hnd, hvis, hjobs⟩ := hsi
  unfold hasVisited at h
  split_ifs at h with hmem
  · cases h
  · simp only [Prod.mk.injEq] at h
    rw [← h.2]
    refine ⟨⟨List.nodup_cons.mpr ⟨hmem, hnd⟩, ?_, hjobs⟩, by simp, rfl, rfl⟩
    intro q hq
    rcases List.mem_cons.mp hq with rfl | hq
    · exact ⟨hpc, hbnd⟩
    · exact hvis q hq

theorem hasVisited_true_props {st : BtState} {pc : Nat} {a : InputAt}
    {st' : BtState} (h : hasVisited st pc a = (true, st')) : st' = st := by
  unfold hasVisited at h
  split_ifs at h with hmem
  · simp only [Prod.mk.injEq] at h
    exact h.2.symm
  · cases h

theorem btStep_props (insts : List Inst) (fold : Nat → Nat)
    (isw : Nat → Bool) (text : List Nat) (hwf : WfProg insts)
    (hv : ValidText text) :
    ∀ (fuel pc : Nat) (a : InputAt) (st : BtState) (b : Bool)
      (st' : BtState), SI insts text st → pc < insts.length → AtOk text a →
      btStep insts fold isw text fuel pc a st = some (b, st') →
      SI insts text st' ∧ st.visited.length ≤ st'.visited.length ∧
      jobWeight st'.jobs + 2 * st.visited.length ≤
        jobWeight st.jobs + 2 + 2 * st'.visited.length := by
  intro fuel
  induction fuel with
  | zero => intro pc a st b st' _ _ _ h; cases h
  | succ fuel ih =>
    intro pc a st b st' hsi hpc ha h
    rw [show btStep insts fold isw text (Nat.succ fuel) pc a st =
        (match btStepOnce insts fold isw text pc a st with
         | StepOnce.ret b st' => some (b, st')
         | StepOnce.cont pc' a' st' =>
           match hasVisited st' pc' a' with
           | (true, st'') => some (false, st'')
           | (false, st'') => btStep insts fold isw text fuel pc' a' st'')
        from rfl] at h
    have hprops := btStepOnce_props insts fold isw text pc a st hwf hv hsi
      hpc ha
    cases hr : btStepOnce insts fold isw text pc a st with
    | ret b1 st1 =>
      rw [hr] at h
      simp only [Option.some.injEq, Prod.mk.injEq] at h
      obtain ⟨hsi1, hveq, hw⟩ := hprops.1 b1 st1 hr
      rw [← h.2]
      exact ⟨hsi1, by rw [hveq], by rw [hveq]; omega⟩
    | cont pc1 a1 st1 =>
      rw [hr] at h
      dsimp only at h
      obtain ⟨hsi1, hveq, hw, hpc1, ha1⟩ := hprops.2 pc1 a1 st1 hr
      cases hv2 : hasVisited st1 pc1 a1 with
      | mk vis st2 =>
        rw [hv2] at h
        cases vis with
        | true =>
          have hst2 := hasVisited_true_props hv2
          simp only [Option.some.injEq, Prod.mk.injEq] at h
          rw [← h.2, hst2]
          exact ⟨hsi1, by rw [hveq], by rw [hveq]; omega⟩
        | false =>
          have hf := hasVisited_false_props hsi1 hpc1 ha1.2 hv2
          have := ih pc1 a1 st2 b st' hf.1 hpc1 ha1 h
          refine ⟨this.1, ?_, ?_⟩
          · have h1 := this.2.1
            rw [hf.2.1, hveq] at h1
            omega
          · have h2 := this.2.2
            have h1 := this.2.1
            rw [hf.2.1, hveq] at h1 h2
            rw [hf.2.2.1] at h2
            omega

theorem btStep_terminates (insts : List Inst) (fold : Nat → Nat)
    (isw : Nat → Bool) (text : List Nat) (hwf : WfProg insts)
    (hv : ValidText text) :
    ∀ (fuel pc : Nat) (a : InputAt) (st : BtState),
      SI insts text st → pc < insts.length → AtOk text a →
      insts.length * (byteLen text + 1) + 1 ≤ fuel + st.visited.length →
      (btStep insts fold isw text fuel pc a st).isSome = true := by
  intro fuel
  induction fuel with
  | zero =>
    intro pc a st hsi _ _ hfuel
    have := si_visited_card hsi
    omega
  | succ fuel ih =>
    intro pc a st hsi hpc ha hfuel
    rw [show btStep insts fold isw text (Nat.succ fuel) pc a st =
        (match btStepOnce insts fold isw text pc a st with
         | StepOnce.ret b st' => some (b, st')
         | StepOnce.cont pc' a' st' =>
           match hasVisited st' pc' a' with
           | (true, st'') => some (false, st'')
           | (false, st'') => btStep insts fold isw text fuel pc' a' st'')
        from rfl]
    have hprops := btStepOnce_props insts fold isw text pc a st hwf hv hsi
      hpc ha
    cases hr : btStepOnce insts fold isw text pc a st with
    | ret b1 st1 => rfl
    | cont pc1 a1 st1 =>
      dsimp only
      obtain ⟨hsi1, hveq, _, hpc1, ha1⟩ := hprops.2 pc1 a1 st1 hr
      cases hv2 : hasVisited st1 pc1 a1 with
      | mk vis st2 =>
        cases vis with
        | true => rfl
        | false =>
          have hf := hasVisited_false_props hsi1 hpc1 ha1.2 hv2
          exact ih pc1 a1 st2 hf.1 hpc1 ha1 (by
            rw [hf.2.1, hveq]
            omega)

theorem btLoop_total (insts : List Inst) (fold : Nat → Nat)
    (isw : Nat → Bool) (text : List Nat) (hwf : WfProg insts)
    (hv : ValidText text) (sf : Nat)
    (hsf : insts.length * (byteLen text + 1) + 1 ≤ sf) :
    ∀ (lf : Nat) (st : BtState), SI insts text st →
      jobWeight st.jobs + 2 * (insts.length * (byteLen text + 1)) <
        lf + 2 * st.visited.length →
      ∃ b st', btLoop insts fold isw text sf lf st = some (b, st') ∧
        SI insts text st' := by
  intro lf
  induction lf with
  | zero =>
    intro st hsi hphi
    have := si_visited_card hsi
    omega
  | succ lf ih =>
    intro st hsi hphi
    obtain ⟨caps, jobs, visited⟩ := st
    obtain ⟨hnd, hvis, hjobs0⟩ := hsi
    cases jobs with
    | nil =>
      exact ⟨false, ⟨caps, [], visited⟩, rfl, ⟨hnd, hvis, hjobs0⟩⟩
    | cons job rest =>
      have hsipop : SI insts text ⟨caps, rest, visited⟩ :=
        ⟨hnd, hvis, fun j hj => hjobs0 j (List.mem_cons_of_mem _ hj)⟩
      cases job with
      | Inst pc a =>
        obtain ⟨hpc, ha⟩ := hjobs0 (Job.Inst pc a) (List.mem_cons_self _ _)
        simp only [jobWeight] at hphi
        have hterm := btStep_terminates insts fold isw text hwf hv sf pc a
          ⟨caps, rest, visited⟩ hsipop hpc ha (by
            show insts.length * (byteLen text + 1) + 1 ≤
              sf + visited.length
            omega)
        rw [show btLoop insts fold isw text sf (Nat.succ lf)
            ⟨caps, Job.Inst pc a :: rest, visited⟩ =
            (match btStep insts fold isw text sf pc a
                ⟨caps, rest, visited⟩ with
             | none => none
             | some (true, st') => some (true, st')
             | some (false, st') => btLoop insts fold isw text sf lf st')
            from rfl]
        cases hbs : btStep insts fold isw text sf pc a
            ⟨caps, rest, visited⟩ with
        | none => rw [hbs] at hterm; cases hterm
        | some p =>
          obtain ⟨b1, st1⟩ := p
          have hprops := btStep_props insts fold isw text hwf hv sf pc a
            ⟨caps, rest, visited⟩ b1 st1 hsipop hpc ha hbs
          cases b1 with
          | true => exact ⟨true, st1, rfl, hprops.1⟩
          | false =>
            have harith : jobWeight st1.jobs +
                2 * (insts.length * (byteLen text + 1)) <
                lf + 2 * st1.visited.length := by
              have h1 := hprops.2.1
              have h2 := hprops.2.2
              dsimp only at h1 h2
              show jobWeight st1.jobs + _ < _
              omega
            obtain ⟨b, st', heq, hsi'⟩ := ih st1 hprops.1 harith
            exact ⟨b, st', heq, hsi'⟩
      | SaveRestore slot old =>
        simp only [jobWeight] at hphi
        have hsiset : SI insts text ⟨caps.set slot old, rest, visited⟩ :=
          ⟨hnd, hvis, fun j hj => hjobs0 j (List.mem_cons_of_mem _ hj)⟩
        rw [show btLoop insts fold isw text sf (Nat.succ lf)
            ⟨caps, Job.SaveRestore slot old :: rest, visited⟩ =
            btLoop insts fold isw text sf lf
              ⟨caps.set slot old, rest, visited⟩ from rfl]
        exact ih ⟨caps.set slot old, rest, visited⟩ hsiset (by
          show jobWeight rest + _ < lf + 2 * visited.length
          omega)
      | SplitNext pc a =>
        obtain ⟨hpc, ha⟩ := hjobs0 (Job.SplitNext pc a) (List.mem_cons_self _ _)
        simp only [jobWeight] at hphi
        rw [show btLoop insts fold isw text sf (Nat.succ lf)
            ⟨caps, Job.SplitNext pc a :: rest, visited⟩ =
            btLoop insts fold isw text sf lf
              (btPush ⟨caps, rest, visited⟩ pc a) from rfl]
        unfold btPush
        cases hv2 : hasVisited ⟨caps, rest, visited⟩ pc a with
        | mk vis2 st2 =>
          cases vis2 with
          | true =>
            have hst2 := hasVisited_true_props hv2
            rw [hst2]
            exact ih ⟨caps, rest, visited⟩ hsipop (by
              show jobWeight rest + _ < lf + 2 * visited.length
              omega)
          | false =>
            have hf := hasVisited_false_props hsipop hpc ha.2 hv2
            obtain ⟨⟨hnd2, hvis2, hjobs2⟩, hlen2, hjeq2, _⟩ := hf
            have hsipush : SI insts text
                { st2 with jobs := Job.Inst pc a :: st2.jobs } := by
              refine ⟨hnd2, hvis2, ?_⟩
              intro j hj
              rcases List.mem_cons.mp hj with rfl | hj
              · exact ⟨hpc, ha⟩
              · exact hjobs2 j hj
            refine ih { st2 with jobs := Job.Inst pc a :: st2.jobs }
              hsipush (by
                show jobWeight (Job.Inst pc a :: st2.jobs) + _ <
                  lf + 2 * st2.visited.length
                simp only [jobWeight]
                rw [hjeq2]
                dsimp only at hlen2
                show 3 + jobWeight rest + _ < _
                omega)

theorem btBacktrack_total (insts : List Inst) (fold : Nat → Nat)
    (isw : Nat → Bool) (text : List Nat) (hwf : WfProg insts)
    (hv : ValidText text) (sf lf : Nat) (a : InputAt) (st : BtState)
    (hsi : SI insts text st) (ha : AtOk text a)
    (hsf : insts.length * (byteLen text + 1) + 1 ≤ sf)
    (hlf : jobWeight st.jobs + 2 * (insts.length * (byteLen text + 1)) + 1 <
      lf + 2 * st.visited.length) :
    ∃ b st', btBacktrack insts fold isw text sf lf a st = some (b, st') ∧
      SI insts text st' := by
  unfold btBacktrack btPush
  cases hv2 : hasVisited st 0 a with
  | mk vis2 st2 =>
    cases vis2 with
    | true =>
      have hst2 := hasVisited_true_props hv2
      rw [hst2]
      exact btLoop_total insts fold isw text hwf hv sf hsf lf st hsi
        (by omega)
    | false =>
      have hf := hasVisited_false_props hsi hwf.1 ha.2 hv2
      obtain ⟨⟨hnd2, hvis2, hjobs2⟩, hlen2, hjeq2, _⟩ := hf
      have hsipush : SI insts text
          { st2 with jobs := Job.Inst 0 a :: st2.jobs } := by
        refine ⟨hnd2, hvis2, ?_⟩
        intro j hj
        rcases List.mem_cons.mp hj with rfl | hj
        · exact ⟨hwf.1, ha⟩
        · exact hjobs2 j hj
      exact btLoop_total insts fold isw text hwf hv sf hsf lf
        { st2 with jobs := Job.Inst 0 a :: st2.jobs } hsipush (by
          show jobWeight (Job.Inst 0 a :: st2.jobs) + _ <
            lf + 2 * st2.visited.length
          simp only [jobWeight]
          rw [hjeq2, hlen2]
          omega)

theorem btExecLoop_total (prog : Program) (fold : Nat → Nat)
    (isw : Nat → Bool) (text : List Nat) (hwf : WfProg prog.insts)
    (hv : ValidText text)
    (hnd : ∀ nd ∈ prog.prefixes, ValidNeedle nd) (sf lf : Nat)
    (hsf : prog.insts.length * (byteLen text + 1) + 1 ≤ sf)
    (hlf : 2 * (prog.insts.length * (byteLen text + 1)) + 1 < lf) :
    ∀ (ef : Nat) (a : InputAt) (st : BtState), SI prog.insts text st →
      st.jobs = [] → AtOk text a → byteLen text + 1 ≤ ef + a.pos →
      ∃ b st', btExecLoop prog fold isw text sf lf ef a st =
        some (b, st') ∧ SI prog.insts text st' := by
  intro ef
  induction ef with
  | zero =>
    intro a st hsi hje ha hef
    have := isBoundary_le text a.pos ha.2
    omega
  | succ ef ih =>
    intro a st hsi hje ha hef
    rw [show btExecLoop prog fold isw text sf lf (Nat.succ ef) a st =
        (match prefixAt text prog.prefixes a with
         | none => some (false, st)
         | some a' =>
           match btBacktrack prog.insts fold isw text sf lf a' st with
           | none => none
           | some (true, st') => some (true, st')
           | some (false, st') =>
             if a'.isEnd then some (false, st')
             else btExecLoop prog fold isw text sf lf ef
               (inputAt text a'.nextPos) st') from rfl]
    cases hpf : prefixAt text prog.prefixes a with
    | none => exact ⟨false, st, rfl, hsi⟩
    | some a' =>
      obtain ⟨ha', hmono⟩ := prefixAt_atOk hv hnd ha hpf
      obtain ⟨b1, st1, hbt, hsi1⟩ := btBacktrack_total prog.insts fold isw
        text hwf hv sf lf a' st hsi ha' hsf (by
          rw [hje]
          simp only [jobWeight]
          omega)
      dsimp only
      rw [hbt]
      cases b1 with
      | true => exact ⟨true, st1, rfl, hsi1⟩
      | false =>
        have hje1 := (btBacktrack_false prog.insts fold isw text sf lf a'
          st st1 hbt).1
        dsimp only
        by_cases hend : a'.isEnd = true
        · rw [if_pos hend]
          exact ⟨false, st1, rfl, hsi1⟩
        · rw [if_neg hend]
          have hanext := atOk_next hv ha'
          have hlen1 : 1 ≤ a'.len := by
            have hc : a'.c = headChar (suffixFrom text a'.pos) :=
              congrArg InputAt.c ha'.1
            have hl : a'.len = charLenUtf8 (headChar (suffixFrom text a'.pos)) :=
              congrArg InputAt.len ha'.1
            have hne : charIsNone (headChar (suffixFrom text a'.pos)) = false := by
              rw [← hc]
              exact Bool.not_eq_true _ ▸ hend
            have := headChar_suffix_valid hv a'.pos hne
            rw [hl]
            exact charLenUtf8_pos this
          exact ih (inputAt text a'.nextPos) st1 hsi1 hje1 hanext.1 (by
            show byteLen text + 1 ≤ ef + (inputAt text a'.nextPos).pos
            show byteLen text + 1 ≤ ef + a'.nextPos
            show byteLen text + 1 ≤ ef + (a'.pos + a'.len)
            omega)

/-- C2: for every well-formed program and valid text, a single
backtracking run (`Backtrack::exec`) terminates: every `(pc, pos)` pair
enters `visited` at most once (the final visited list is duplicate-free),
so the run performs at most `|insts| * (|text| + 1)` instruction
expansions — the fuels `sf`, `lf`, `ef` bounded by those quantities always
suffice, and the final visited list is itself bounded by
`|insts| * (|text| + 1)`. -/
theorem backtracker_terminates_bounded (prog : Program) (fold : Nat → Nat)
    (isw : Nat → Bool) (caps0 : List (Option Nat)) (text : List Nat)
    (start sf lf ef : Nat) (hwf : WfProg prog.insts)
    (hv : ValidText text) (hnd : ∀ nd ∈ prog.prefixes, ValidNeedle nd)
    (hstart : isBoundary text start = true)
    (hsf : prog.insts.length * (byteLen text + 1) + 1 ≤ sf)
    (hlf : 2 * (prog.insts.length * (byteLen text + 1)) + 1 < lf)
    (hef : byteLen text + 1 ≤ ef + start) :
    ∃ b st', btExec prog fold isw caps0 text start sf lf ef =
      some (b, st') ∧ st'.visited.Nodup ∧
      st'.visited.length ≤ prog.insts.length * (byteLen text + 1) := by
  have hsi0 : SI prog.insts text ⟨caps0, [], []⟩ :=
    ⟨List.nodup_nil, fun q hq => absurd hq (List.not_mem_nil q),
     fun j hj => absurd hj (List.not_mem_nil j)⟩
  have ha0 : AtOk text (inputAt text start) := ⟨rfl, hstart⟩
  unfold btExec
  by_cases hab : prog.anchored_begin = true
  · rw [if_pos hab]
    by_cases hbeg : (inputAt text start).isBeginning = true
    · rw [hbeg]
      cases hpf : prefixAt text prog.prefixes (inputAt text start) with
      | none =>
        exact ⟨false, ⟨caps0, [], []⟩, rfl, List.nodup_nil, by simp⟩
      | some a' =>
        obtain ⟨ha', _⟩ := prefixAt_atOk hv hnd ha0 hpf
        obtain ⟨b, st', hbt, hsi'⟩ := btBacktrack_total prog.insts fold isw
          text hwf hv sf lf a' ⟨caps0, [], []⟩ hsi0 ha' hsf (by
            show jobWeight [] + _ + 1 < lf + 2 * List.length []
            simp only [jobWeight]
            omega)
        exact ⟨b, st', hbt, hsi'.1, si_visited_card hsi'⟩
    · rw [Bool.not_eq_true] at hbeg
      rw [hbeg]
      exact ⟨false, ⟨caps0, [], []⟩, rfl, List.nodup_nil, by simp⟩
  · rw [if_neg hab]
    obtain ⟨b, st', heq, hsi'⟩ := btExecLoop_total prog fold isw text hwf
      hv hnd sf lf hsf hlf ef (inputAt text start) ⟨caps0, [], []⟩ hsi0
      rfl ha0 (by show byteLen text + 1 ≤ ef + start; omega)
    exact ⟨b, st', heq, hsi'.1, si_visited_card hsi'⟩

theorem sampleProg1_wf : WfProg sampleProg1.insts := by
  refine ⟨by decide, by decide, ?_⟩
  intro i hi
  have hi4 : i < 4 := hi
  interval_cases i <;> trivial

/-- Witness for C2 at a concrete program, text and fuels. -/
theorem backtracker_terminates_bounded_witness :
    ∃ b st', btExec sampleProg1 (fun c => c) (fun _ => false) [] [97] 0
      9 18 2 = some (b, st') ∧ st'.visited.Nodup ∧
      st'.visited.length ≤ sampleProg1.insts.length * (byteLen [97] + 1) :=
  backtracker_terminates_bounded sampleProg1 (fun c => c) (fun _ => false)
    [] [97] 0 9 18 2 sampleProg1_wf
    (by intro c hc; rw [List.mem_singleton] at hc; subst hc; decide)
    (fun nd hnd => absurd hnd (List.not_mem_nil nd)) (by decide)
    (by decide) (by decide) (by decide)

/-- Payload sanity of one instruction: character payloads come from Rust
`char` values, hence are Unicode scalar values. -/
def InstPayloadOk : Inst → Prop
  | Inst.Char oc => isScalarValue oc.c = true
  | Inst.Ranges cr =>
    ∀ r ∈ cr.ranges, isScalarValue r.1 = true ∧ isScalarValue r.2 = true
  | _ => True

/-- Every fetchable instruction has sane payloads (out-of-range fetches
yield `Match`, which is trivially fine). -/
def PayloadsOk (insts : List Inst) : Prop :=
  ∀ pc, InstPayloadOk (instAt insts pc)

theorem isScalarValue_nochar : isScalarValue NOCHAR = false := by decide

theorem scalar_lt_nochar {c : Nat} (h : isScalarValue c = true) :
    c < NOCHAR := by
  simp only [isScalarValue, Bool.and_eq_true, decide_eq_true_iff] at h
  have := h.1
  simp only [NOCHAR]
  omega

theorem charCaseFold_nochar (fold : Nat → Nat) :
    charCaseFold fold NOCHAR = NOCHAR := by
  simp [charCaseFold, isScalarValue_nochar]

theorem oneChar_matches_nochar (fold : Nat → Nat) (oc : OneChar)
    (h : isScalarValue oc.c = true) : oc.matches fold NOCHAR = false := by
  unfold OneChar.matches
  rw [charCaseFold_nochar]
  have hlt := scalar_lt_nochar h
  have hne : (oc.c == NOCHAR) = false := by
    rw [beq_eq_false_iff_ne]
    omega
  rw [hne]
  simp [hne]

theorem oneChar_matches_real {fold : Nat → Nat} {oc : OneChar} {c : Nat}
    (h : isScalarValue oc.c = true) (hm : oc.matches fold c = true) :
    charIsNone c = false := by
  by_contra hc
  rw [Bool.not_eq_false] at hc
  have hceq : c = NOCHAR := by
    simpa [charIsNone, beq_iff_eq] using hc
  subst hceq
  rw [oneChar_matches_nochar fold oc h] at hm
  cases hm

theorem probeRanges_nochar : ∀ (rs : List (Nat × Nat)) (i k : Nat),
    (∀ r ∈ rs, isScalarValue r.1 = true ∧ isScalarValue r.2 = true) →
    probeRanges NOCHAR rs i k = none := by
  intro rs
  induction rs with
  | nil =>
    intro i k _
    cases k <;> rfl
  | cons r rs ih =>
    intro i k hr
    cases k with
    | zero => rfl
    | succ k0 =>
      show (if NOCHAR < r.1 then some none
        else if NOCHAR ≤ r.2 then some (some i)
        else probeRanges NOCHAR rs (i + 1) k0) = none
      have h1 := scalar_lt_nochar (hr r (by simp)).1
      have h2 := scalar_lt_nochar (hr r (by simp)).2
      rw [if_neg (by omega), if_neg (by omega)]
      exact ih (i + 1) k0 (fun q hq => hr q (List.mem_cons_of_mem _ hq))

theorem rangeCmp_nochar_lt {rs : List (Nat × Nat)}
    (hr : ∀ r ∈ rs, isScalarValue r.2 = true) (ix : Nat) :
    rangeCmp NOCHAR (rs.getD ix (0, 0)) = Ordering.lt := by
  rcases Nat.lt_or_ge ix rs.length with hlt | hge
  · have hmem : rs.getD ix (0, 0) ∈ rs := by
      rw [List.getD_eq_getElem rs (0, 0) hlt]
      exact List.getElem_mem hlt
    have := scalar_lt_nochar (hr _ hmem)
    unfold rangeCmp
    rw [if_pos this]
  · rw [List.getD_eq_default rs (0, 0) hge]
    unfold rangeCmp
    rw [if_pos (by show (0 : Nat) < NOCHAR; simp [NOCHAR])]

theorem binarySearchGo_all_lt {c : Nat} {rs : List (Nat × Nat)}
    (h : ∀ ix, rangeCmp c (rs.getD ix (0, 0)) = Ordering.lt) :
    ∀ (fuel base lim : Nat), binarySearchGo c rs fuel base lim = none := by
  intro fuel
  induction fuel with
  | zero => intro base lim; rfl
  | succ fuel ih =>
    intro base lim
    show (if lim = 0 then none else _) = none
    split_ifs with hlim
    · rfl
    · rw [show (match rangeCmp c (rs.getD (base + lim / 2) (0, 0)) with
        | Ordering.eq => some (base + lim / 2)
        | Ordering.lt =>
          binarySearchGo c rs fuel (base + lim / 2 + 1) ((lim - 1) / 2)
        | Ordering.gt => binarySearchGo c rs fuel base (lim / 2)) =
          binarySearchGo c rs fuel (base + lim / 2 + 1) ((lim - 1) / 2) from by
        rw [h (base + lim / 2)]]
      exact ih _ _

theorem charRanges_matches_nochar (fold : Nat → Nat) (cr : CharRanges)
    (h : ∀ r ∈ cr.ranges, isScalarValue r.1 = true ∧ isScalarValue r.2 = true) :
    cr.matches fold NOCHAR = none := by
  unfold CharRanges.matches
  have hc : (if cr.casei then charCaseFold fold NOCHAR else NOCHAR) =
      NOCHAR := by
    cases cr.casei <;> simp [charCaseFold_nochar]
  rw [hc]
  dsimp only
  rw [probeRanges_nochar cr.ranges 0 (min cr.ranges.length 4) h]
  exact binarySearchGo_all_lt
    (rangeCmp_nochar_lt (fun r hr => (h r hr).2)) _ _ _

theorem charRanges_matches_real {fold : Nat → Nat} {cr : CharRanges}
    {c : Nat}
    (h : ∀ r ∈ cr.ranges, isScalarValue r.1 = true ∧ isScalarValue r.2 = true)
    (hm : (cr.matches fold c).isSome = true) : charIsNone c = false := by
  by_contra hc
  rw [Bool.not_eq_false] at hc
  have hceq : c = NOCHAR := by
    simpa [charIsNone, beq_iff_eq] using hc
  subst hceq
  rw [charRanges_matches_nochar fold cr h] at hm
  cases hm

theorem suffixFrom_nil_of_ge {text : List Nat} (hv : ValidText text)
    {p : Nat} (hb : isBoundary text p = true) (hp : byteLen text ≤ p) :
    suffixFrom text p = [] := by
  cases hs : suffixFrom text p with
  | nil => rfl
  | cons d rest =>
    exfalso
    have hbl := byteLen_suffixFrom text p hb
    rw [hs, byteLen_cons] at hbl
    have hd : isScalarValue d = true := by
      apply hv
      apply mem_suffixFrom text p
      rw [hs]
      simp
    have := charLenUtf8_pos hd
    omega

theorem inputAt_c_none_of_ge {text : List Nat} (hv : ValidText text)
    {p : Nat} (hb : isBoundary text p = true) (hp : byteLen text ≤ p) :
    charIsNone (inputAt text p).c = true := by
  show charIsNone (headChar (suffixFrom text p)) = true
  rw [suffixFrom_nil_of_ge hv hb hp]
  rfl

theorem inputAt_c_real_of_lt {text : List Nat} (hv : ValidText text)
    {p : Nat} (hb : isBoundary text p = true) (hp : p < byteLen text) :
    isScalarValue (inputAt text p).c = true := by
  show isScalarValue (headChar (suffixFrom text p)) = true
  apply headChar_suffix_valid hv
  cases hs : suffixFrom text p with
  | nil =>
    exfalso
    have hbl := byteLen_suffixFrom text p hb
    rw [hs, show byteLen ([] : List Nat) = 0 from rfl] at hbl
    omega
  | cons d rest =>
    show charIsNone d = false
    have hd : isScalarValue d = true := by
      apply hv
      apply mem_suffixFrom text p
      rw [hs]
      simp
    have := scalar_lt_nochar hd
    show (d == NOCHAR) = false
    rw [beq_eq_false_iff_ne]
    omega

theorem charIsNone_of_scalar {c : Nat} (h : isScalarValue c = true) :
    charIsNone c = false := by
  have := scalar_lt_nochar h
  show (c == NOCHAR) = false
  rw [beq_eq_false_iff_ne]
  omega

theorem inputAt_pos_lt_of_real {text : List Nat} (hv : ValidText text)
    {p : Nat} (hb : isBoundary text p = true)
    (hc : charIsNone (inputAt text p).c = false) : p < byteLen text := by
  rcases Nat.lt_or_ge p (byteLen text) with h | h
  · exact h
  · rw [inputAt_c_none_of_ge hv hb h] at hc
    cases hc

theorem isBoundary_gap : ∀ (ts : List Nat) (m m' : Nat),
    isBoundary ts m = true → isBoundary ts m' = true → m < m' →
    m + charLenUtf8 (headChar (suffixFrom ts m)) ≤ m' := by
  intro ts
  induction ts with
  | nil =>
    intro m m' _ hb' hlt
    cases m' with
    | zero => omega
    | succ j0 => simp [isBoundary] at hb'
  | cons t ts ih =>
    intro m m' hb hb' hlt
    cases m' with
    | zero => omega
    | succ j0 =>
      have hb'2 : (decide (charLenUtf8 t ≤ Nat.succ j0) &&
          isBoundary ts (Nat.succ j0 - charLenUtf8 t)) = true := hb'
      rw [Bool.and_eq_true, decide_eq_true_iff] at hb'2
      cases m with
      | zero =>
        show 0 + charLenUtf8 t ≤ Nat.succ j0
        omega
      | succ i0 =>
        have hb2 : (decide (charLenUtf8 t ≤ Nat.succ i0) &&
            isBoundary ts (Nat.succ i0 - charLenUtf8 t)) = true := hb
        rw [Bool.and_eq_true, decide_eq_true_iff] at hb2
        have hsuf : suffixFrom (t :: ts) (Nat.succ i0) =
            suffixFrom ts (Nat.succ i0 - charLenUtf8 t) := rfl
        rw [hsuf]
        have := ih (Nat.succ i0 - charLenUtf8 t) (Nat.succ j0 - charLenUtf8 t)
          hb2.2 hb'2.2 (by omega)
        omega

/-- Stepping one character forward and asking for the previous character
round-trips (standalone form used by the engine-equivalence development). -/
theorem previousAt_nextPos {text : List Nat} (hv : ValidText text) {p : Nat}
    (hb : isBoundary text p = true) (hp : p < byteLen text) :
    previousAt text ((inputAt text p).nextPos) = inputAt text p := by
  show previousAt text (p + charLenUtf8 (headChar (suffixFrom text p))) = _
  have hpush := prefixTo_push text p hv hb hp
  unfold previousAt
  rw [hpush]
  have hlast : lastChar (prefixTo text p ++ [headChar (suffixFrom text p)]) =
      headChar (suffixFrom text p) := by
    unfold lastChar
    rw [List.getLast?_concat]
  rw [hlast]
  show InputAt.mk _ _ _ = InputAt.mk _ _ _
  congr 1
  omega

/-- One transition of the declarative machine underlying both engines:
from `(pc, p)` (program counter, byte position) to `(pc', p')`.
Zero-width instructions keep the position; a satisfied character
instruction consumes the character starting at `p`. -/
inductive NEdge (insts : List Inst) (fold : Nat → Nat) (isw : Nat → Bool)
    (text : List Nat) : Nat → Nat → Nat → Nat → Prop
  | save {pc p slot} : instAt insts pc = Inst.Save slot →
      NEdge insts fold isw text pc p (pc + 1) p
  | jump {pc p pc2} : instAt insts pc = Inst.Jump pc2 →
      NEdge insts fold isw text pc p pc2 p
  | splitl {pc p x y} : instAt insts pc = Inst.Split x y →
      NEdge insts fold isw text pc p x p
  | splitr {pc p x y} : instAt insts pc = Inst.Split x y →
      NEdge insts fold isw text pc p y p
  | look {pc p l} : instAt insts pc = Inst.EmptyLook l →
      l.matches isw (previousAt text p).c (inputAt text p).c = true →
      NEdge insts fold isw text pc p (pc + 1) p
  | char {pc p oc} : instAt insts pc = Inst.Char oc →
      oc.matches fold (inputAt text p).c = true →
      NEdge insts fold isw text pc p (pc + 1) ((inputAt text p).nextPos)
  | ranges {pc p cr} : instAt insts pc = Inst.Ranges cr →
      (cr.matches fold (inputAt text p).c).isSome = true →
      NEdge insts fold isw text pc p (pc + 1) ((inputAt text p).nextPos)

/-- Declarative acceptance: from `(pc, p)` some transition path reaches a
`Match` instruction. -/
inductive NM (insts : List Inst) (fold : Nat → Nat) (isw : Nat → Bool)
    (text : List Nat) : Nat → Nat → Prop
  | done {pc p} : instAt insts pc = Inst.Match →
      NM insts fold isw text pc p
  | step {pc p pc' p'} : NEdge insts fold isw text pc p pc' p' →
      NM insts fold isw text pc' p' → NM insts fold isw text pc p

theorem instAt_match_of_ge {insts : List Inst} {pc : Nat}
    (h : insts.length ≤ pc) : instAt insts pc = Inst.Match := by
  unfold instAt
  rw [List.getD_eq_default _ _ h]

theorem nedge_src_lt {insts : List Inst} {fold : Nat → Nat}
    {isw : Nat → Bool} {text : List Nat} {pc p pc' p' : Nat}
    (h : NEdge insts fold isw text pc p pc' p') : pc < insts.length := by
  rcases Nat.lt_or_ge pc insts.length with hlt | hge
  · exact hlt
  · exfalso
    have hm := instAt_match_of_ge hge
    cases h <;> simp_all

theorem nedge_tgt_lt {insts : List Inst} {fold : Nat → Nat}
    {isw : Nat → Bool} {text : List Nat} {pc p pc' p' : Nat}
    (hwf : WfProg insts) (h : NEdge insts fold isw text pc p pc' p') :
    pc' < insts.length := by
  have hsrc := nedge_src_lt h
  have htgt := hwf.2.2 pc hsrc
  cases h with
  | save hi => exact instAt_ne_match_succ_lt hwf hsrc (by rw [hi]; nofun)
  | jump hi => rw [hi] at htgt; exact htgt
  | splitl hi => rw [hi] at htgt; exact htgt.1
  | splitr hi => rw [hi] at htgt; exact htgt.2
  | look hi _ => exact instAt_ne_match_succ_lt hwf hsrc (by rw [hi]; nofun)
  | char hi _ => exact instAt_ne_match_succ_lt hwf hsrc (by rw [hi]; nofun)
  | ranges hi _ => exact instAt_ne_match_succ_lt hwf hsrc (by rw [hi]; nofun)

theorem nedge_pos_boundary {insts : List Inst} {fold : Nat → Nat}
    {isw : Nat → Bool} {text : List Nat} {pc p pc' p' : Nat}
    (h : NEdge insts fold isw text pc p pc' p')
    (hb : isBoundary text p = true) :
    isBoundary text p' = true ∧ p ≤ p' := by
  cases h with
  | save _ => exact ⟨hb, le_rfl⟩
  | jump _ => exact ⟨hb, le_rfl⟩
  | splitl _ => exact ⟨hb, le_rfl⟩
  | splitr _ => exact ⟨hb, le_rfl⟩
  | look _ _ => exact ⟨hb, le_rfl⟩
  | char _ _ =>
    refine ⟨isBoundary_step text p hb, ?_⟩
    show p ≤ p + _
    omega
  | ranges _ _ =>
    refine ⟨isBoundary_step text p hb, ?_⟩
    show p ≤ p + _
    omega

/-- A consuming edge exists only while a real character is under the
cursor: at the end sentinel neither `Char` nor `Ranges` can fire. -/
theorem nedge_cons_real {insts : List Inst} {fold : Nat → Nat}
    {isw : Nat → Bool} {text : List Nat} {pc p pc' p' : Nat}
    (hpay : PayloadsOk insts)
    (h : NEdge insts fold isw text pc p pc' p') :
    p' = p ∨ (charIsNone (inputAt text p).c = false ∧
      p' = (inputAt text p).nextPos) := by
  cases h with
  | save _ => exact Or.inl rfl
  | jump _ => exact Or.inl rfl
  | splitl _ => exact Or.inl rfl
  | splitr _ => exact Or.inl rfl
  | look _ _ => exact Or.inl rfl
  | char hi hm =>
    refine Or.inr ⟨?_, rfl⟩
    have hp := hpay pc
    rw [hi] at hp
    exact oneChar_matches_real hp hm
  | ranges hi hm =>
    refine Or.inr ⟨?_, rfl⟩
    have hp := hpay pc
    rw [hi] at hp
    exact charRanges_matches_real hp hm

/-- A non-consuming transition at the fixed position `p` (the relation the
NFA epsilon closure computes). -/
inductive EpsStepAt (insts : List Inst) (isw : Nat → Bool) (text : List Nat)
    (p : Nat) : Nat → Nat → Prop
  | save {pc slot} : instAt insts pc = Inst.Save slot →
      EpsStepAt insts isw text p pc (pc + 1)
  | jump {pc pc2} : instAt insts pc = Inst.Jump pc2 →
      EpsStepAt insts isw text p pc pc2
  | splitl {pc x y} : instAt insts pc = Inst.Split x y →
      EpsStepAt insts isw text p pc x
  | splitr {pc x y} : instAt insts pc = Inst.Split x y →
      EpsStepAt insts isw text p pc y
  | look {pc l} : instAt insts pc = Inst.EmptyLook l →
      l.matches isw (previousAt text p).c (inputAt text p).c = true →
      EpsStepAt insts isw text p pc (pc + 1)

/-- Reflexive-transitive closure of `EpsStepAt`. -/
inductive EpsReachAt (insts : List Inst) (isw : Nat → Bool)
    (text : List Nat) (p : Nat) : Nat → Nat → Prop
  | refl (pc : Nat) : EpsReachAt insts isw text p pc pc
  | head {pc pc' pc''} : EpsStepAt insts isw text p pc pc' →
      EpsReachAt insts isw text p pc' pc'' → EpsReachAt insts isw text p pc pc''

theorem epsStepAt_nedge {insts : List Inst} {fold : Nat → Nat}
    {isw : Nat → Bool} {text : List Nat} {p pc pc' : Nat}
    (h : EpsStepAt insts isw text p pc pc') :
    NEdge insts fold isw text pc p pc' p := by
  cases h with
  | save hi => exact NEdge.save hi
  | jump hi => exact NEdge.jump hi
  | splitl hi => exact NEdge.splitl hi
  | splitr hi => exact NEdge.splitr hi
  | look hi hm => exact NEdge.look hi hm

theorem epsReachAt_nm {insts : List Inst} {fold : Nat → Nat}
    {isw : Nat → Bool} {text : List Nat} {p pc pc' : Nat}
    (h : EpsReachAt insts isw text p pc pc')
    (hnm : NM insts fold isw text pc' p) : NM insts fold isw text pc p := by
  induction h with
  | refl _ => exact hnm
  | head hstep _ ih => exact NM.step (epsStepAt_nedge hstep) (ih hnm)

theorem epsReachAt_tgt_lt {insts : List Inst} {isw : Nat → Bool}
    {text : List Nat} {p pc pc' : Nat} (hwf : WfProg insts)
    (hpc : pc < insts.length) (h : EpsReachAt insts isw text p pc pc') :
    pc' < insts.length := by
  induction h with
  | refl _ => exact hpc
  | head hstep _ ih =>
    have he : NEdge insts id isw text _ p _ p := epsStepAt_nedge hstep
    exact ih (nedge_tgt_lt hwf he)

theorem atOk_c {text : List Nat} {a : InputAt} (ha : AtOk text a) :
    a.c = (inputAt text a.pos).c := congrArg InputAt.c ha.1

theorem atOk_nextPos {text : List Nat} {a : InputAt} (ha : AtOk text a) :
    a.nextPos = (inputAt text a.pos).nextPos := by
  show a.pos + a.len = (inputAt text a.pos).pos + (inputAt text a.pos).len
  have hl : a.len = (inputAt text a.pos).len := congrArg InputAt.len ha.1
  rw [hl]
  rfl

theorem btStepOnce_rettrue {insts : List Inst} {fold : Nat → Nat}
    {isw : Nat → Bool} {text : List Nat} {pc : Nat} {a : InputAt}
    {st st' : BtState}
    (h : btStepOnce insts fold isw text pc a st = StepOnce.ret true st') :
    instAt insts pc = Inst.Match := by
  unfold btStepOnce at h
  cases hinst : instAt insts pc
  case Match => rfl
  case Save slot =>
    rw [hinst] at h
    dsimp only at h
    split_ifs at h <;> cases h
  case Jump pc2 =>
    rw [hinst] at h
    dsimp only at h
    cases h
  case Split x y =>
    rw [hinst] at h
    dsimp only at h
    cases h
  case EmptyLook l =>
    rw [hinst] at h
    dsimp only at h
    split_ifs at h <;> cases h
  case Char oc =>
    rw [hinst] at h
    dsimp only at h
    split_ifs at h <;> cases h
  case Ranges cr =>
    rw [hinst] at h
    dsimp only at h
    split_ifs at h <;> cases h

theorem btStepOnce_cont_edge {insts : List Inst} {fold : Nat → Nat}
    {isw : Nat → Bool} {text : List Nat} {pc : Nat} {a : InputAt}
    {st : BtState} {pc' : Nat} {a' : InputAt} {st' : BtState}
    (ha : AtOk text a)
    (h : btStepOnce insts fold isw text pc a st = StepOnce.cont pc' a' st') :
    NEdge insts fold isw text pc a.pos pc' a'.pos := by
  unfold btStepOnce at h
  cases hinst : instAt insts pc
  case Match =>
    rw [hinst] at h
    dsimp only at h
    cases h
  case Save slot =>
    rw [hinst] at h
    dsimp only at h
    split_ifs at h <;> cases h <;> exact NEdge.save hinst
  case Jump pc2 =>
    rw [hinst] at h
    dsimp only at h
    cases h
    exact NEdge.jump hinst
  case Split x y =>
    rw [hinst] at h
    dsimp only at h
    cases h
    exact NEdge.splitl hinst
  case EmptyLook l =>
    rw [hinst] at h
    dsimp only at h
    split_ifs at h with hl <;> cases h
    rw [atOk_c ha] at hl
    exact NEdge.look hinst hl
  case Char oc =>
    rw [hinst] at h
    dsimp only at h
    split_ifs at h with hm <;> cases h
    rw [atOk_c ha] at hm
    show NEdge insts fold isw text pc a.pos (pc + 1)
      (inputAt text a.nextPos).pos
    rw [show (inputAt text a.nextPos).pos = a.nextPos from rfl,
      atOk_nextPos ha]
    exact NEdge.char hinst hm
  case Ranges cr =>
    rw [hinst] at h
    dsimp only at h
    split_ifs at h with hm <;> cases h
    rw [atOk_c ha] at hm
    show NEdge insts fold isw text pc a.pos (pc + 1)
      (inputAt text a.nextPos).pos
    rw [show (inputAt text a.nextPos).pos = a.nextPos from rfl,
      atOk_nextPos ha]
    exact NEdge.ranges hinst hm

theorem btStepOnce_retfalse_noedge {insts : List Inst} {fold : Nat → Nat}
    {isw : Nat → Bool} {text : List Nat} {pc : Nat} {a : InputAt}
    {st st' : BtState} (ha : AtOk text a)
    (h : btStepOnce insts fold isw text pc a st = StepOnce.ret false st') :
    instAt insts pc ≠ Inst.Match ∧
    ∀ pc' p', ¬ NEdge insts fold isw text pc a.pos pc' p' := by
  unfold btStepOnce at h
  cases hinst : instAt insts pc
  case Match =>
    rw [hinst] at h
    dsimp only at h
    cases h
  case Save slot =>
    rw [hinst] at h
    dsimp only at h
    split_ifs at h <;> cases h
  case Jump pc2 =>
    rw [hinst] at h
    dsimp only at h
    cases h
  case Split x y =>
    rw [hinst] at h
    dsimp only at h
    cases h
  case EmptyLook l =>
    rw [hinst] at h
    dsimp only at h
    split_ifs at h with hl <;> cases h
    refine ⟨by nofun, ?_⟩
    intro pc' p' hedge
    cases hedge with
    | save hi => rw [hinst] at hi; cases hi
    | jump hi => rw [hinst] at hi; cases hi
    | splitl hi => rw [hinst] at hi; cases hi
    | splitr hi => rw [hinst] at hi; cases hi
    | look hi hm =>
      rw [hinst] at hi
      injection hi with hle
      subst hle
      rw [atOk_c ha] at hl
      exact hl hm
    | char hi hm => rw [hinst] at hi; cases hi
    | ranges hi hm => rw [hinst] at hi; cases hi
  case Char oc =>
    rw [hinst] at h
    dsimp only at h
    split_ifs at h with hm <;> cases h
    refine ⟨by nofun, ?_⟩
    intro pc' p' hedge
    cases hedge with
    | save hi => rw [hinst] at hi; cases hi
    | jump hi => rw [hinst] at hi; cases hi
    | splitl hi => rw [hinst] at hi; cases hi
    | splitr hi => rw [hinst] at hi; cases hi
    | look hi hmm => rw [hinst] at hi; cases hi
    | char hi hmm =>
      rw [hinst] at hi
      injection hi with hoc
      subst hoc
      rw [atOk_c ha] at hm
      exact hm hmm
    | ranges hi hmm => rw [hinst] at hi; cases hi
  case Ranges cr =>
    rw [hinst] at h
    dsimp only at h
    split_ifs at h with hm <;> cases h
    refine ⟨by nofun, ?_⟩
    intro pc' p' hedge
    cases hedge with
    | save hi => rw [hinst] at hi; cases hi
    | jump hi => rw [hinst] at hi; cases hi
    | splitl hi => rw [hinst] at hi; cases hi
    | splitr hi => rw [hinst] at hi; cases hi
    | look hi hmm => rw [hinst] at hi; cases hi
    | char hi hmm => rw [hinst] at hi; cases hi
    | ranges hi hmm =>
      rw [hinst] at hi
      injection hi with hcr
      subst hcr
      rw [atOk_c ha] at hm
      exact hm hmm

theorem btStepOnce_state_visited (insts : List Inst) (fold : Nat → Nat)
    (isw : Nat → Bool) (text : List Nat) (pc : Nat) (a : InputAt)
    (st : BtState) :
    (btStepOnce insts fold isw text pc a st).state.visited = st.visited := by
  unfold btStepOnce
  cases instAt insts pc <;> dsimp only [StepOnce.state] <;>
    (try split_ifs) <;> rfl

theorem hasVisited_false_parts {st : BtState} {pc : Nat} {a : InputAt}
    {st' : BtState} (h : hasVisited st pc a = (false, st')) :
    st'.visited = (pc, a.pos) :: st.visited ∧ st'.jobs = st.jobs ∧
    st'.caps = st.caps ∧ (pc, a.pos) ∉ st.visited := by
  unfold hasVisited at h
  split_ifs at h with hmem
  · cases h
  · simp only [Prod.mk.injEq] at h
    rw [← h.2]
    exact ⟨rfl, rfl, rfl, hmem⟩

theorem hasVisited_true_parts {st : BtState} {pc : Nat} {a : InputAt}
    {st' : BtState} (h : hasVisited st pc a = (true, st')) :
    st' = st ∧ (pc, a.pos) ∈ st.visited := by
  unfold hasVisited at h
  split_ifs at h with hmem
  · simp only [Prod.mk.injEq] at h
    exact ⟨h.2.symm, hmem⟩
  · cases h

theorem btStep_visited_mem_mono (insts : List Inst) (fold : Nat → Nat)
    (isw : Nat → Bool) (text : List Nat) :
    ∀ (fuel pc : Nat) (a : InputAt) (st : BtState) (b : Bool)
      (st' : BtState),
      btStep insts fold isw text fuel pc a st = some (b, st') →
      ∀ q, q ∈ st.visited → q ∈ st'.visited := by
  intro fuel
  induction fuel with
  | zero => intro pc a st b st' h; cases h
  | succ fuel ih =>
    intro pc a st b st' h q hq
    rw [show btStep insts fold isw text (Nat.succ fuel) pc a st =
        (match btStepOnce insts fold isw text pc a st with
         | StepOnce.ret b st' => some (b, st')
         | StepOnce.cont pc' a' st' =>
           match hasVisited st' pc' a' with
           | (true, st'') => some (false, st'')
           | (false, st'') => btStep insts fold isw text fuel pc' a' st'')
        from rfl] at h
    have hvis := btStepOnce_state_visited insts fold isw text pc a st
    cases hr : btStepOnce insts fold isw text pc a st with
    | ret b1 st1 =>
      rw [hr] at h hvis
      simp only [Option.some.injEq, Prod.mk.injEq] at h
      rw [← h.2]
      simp only [StepOnce.state] at hvis
      rw [hvis]
      exact hq
    | cont pc1 a1 st1 =>
      rw [hr] at h hvis
      simp only [StepOnce.state] at hvis
      dsimp only at h
      cases hv2 : hasVisited st1 pc1 a1 with
      | mk vis st2 =>
        rw [hv2] at h
        cases vis with
        | true =>
          have hst2 := (hasVisited_true_parts hv2).1
          simp only [Option.some.injEq, Prod.mk.injEq] at h
          rw [← h.2, hst2, hvis]
          exact hq
        | false =>
          have hparts := hasVisited_false_parts hv2
          refine ih pc1 a1 st2 b st' h q ?_
          rw [hparts.1, hvis]
          exact List.mem_cons_of_mem _ hq

theorem btStep_true_nm (insts : List Inst) (fold : Nat → Nat)
    (isw : Nat → Bool) (text : List Nat) (hwf : WfProg insts)
    (hv : ValidText text) :
    ∀ (fuel pc : Nat) (a : InputAt) (st : BtState) (st' : BtState),
      SI insts text st → pc < insts.length → AtOk text a →
      btStep insts fold isw text fuel pc a st = some (true, st') →
      NM insts fold isw text pc a.pos := by
  intro fuel
  induction fuel with
  | zero => intro pc a st st' _ _ _ h; cases h
  | succ fuel ih =>
    intro pc a st st' hsi hpc ha h
    rw [show btStep insts fold isw text (Nat.succ fuel) pc a st =
        (match btStepOnce insts fold isw text pc a st with
         | StepOnce.ret b st' => some (b, st')
         | StepOnce.cont pc' a' st' =>
           match hasVisited st' pc' a' with
           | (true, st'') => some (false, st'')
           | (false, st'') => btStep insts fold isw text fuel pc' a' st'')
        from rfl] at h
    have hprops := btStepOnce_props insts fold isw text pc a st hwf hv hsi
      hpc ha
    cases hr : btStepOnce insts fold isw text pc a st with
    | ret b1 st1 =>
      rw [hr] at h
      simp only [Option.some.injEq, Prod.mk.injEq] at h
      have hb1 : b1 = true := h.1
      subst hb1
      exact NM.done (btStepOnce_rettrue hr)
    | cont pc1 a1 st1 =>
      rw [hr] at h
      dsimp only at h
      obtain ⟨hsi1, _, _, hpc1, ha1⟩ := hprops.2 pc1 a1 st1 hr
      have hedge := btStepOnce_cont_edge ha hr
      cases hv2 : hasVisited st1 pc1 a1 with
      | mk vis st2 =>
        rw [hv2] at h
        cases vis with
        | true =>
          simp only [Option.some.injEq, Prod.mk.injEq] at h
          cases h.1
        | false =>
          have hparts := hasVisited_false_parts hv2
          have hsi2 : SI insts text st2 :=
            (hasVisited_false_props hsi1 hpc1 ha1.2 hv2).1
          exact NM.step hedge (ih pc1 a1 st2 st' hsi2 hpc1 ha1 h)

theorem btStepOnce_jobs_ret {insts : List Inst} {fold : Nat → Nat}
    {isw : Nat → Bool} {text : List Nat} {pc : Nat} {a : InputAt}
    {st : BtState} {b : Bool} {st1 : BtState}
    (h : btStepOnce insts fold isw text pc a st = StepOnce.ret b st1) :
    st1.jobs = st.jobs := by
  unfold btStepOnce at h
  cases hinst : instAt insts pc <;> rw [hinst] at h <;> dsimp only at h <;>
    (try split_ifs at h) <;> cases h <;> rfl

theorem btStepOnce_jobs_cont {insts : List Inst} {fold : Nat → Nat}
    {isw : Nat → Bool} {text : List Nat} {pc : Nat} {a : InputAt}
    {st : BtState} {pc1 : Nat} {a1 : InputAt} {st1 : BtState}
    (h : btStepOnce insts fold isw text pc a st = StepOnce.cont pc1 a1 st1) :
    st1.jobs = st.jobs ∨
    (∃ slot old, st1.jobs = Job.SaveRestore slot old :: st.jobs) ∨
    (∃ y, st1.jobs = Job.SplitNext y a :: st.jobs ∧
      instAt insts pc = Inst.Split pc1 y) := by
  unfold btStepOnce at h
  cases hinst : instAt insts pc
  case Match =>
    rw [hinst] at h
    dsimp only at h
    cases h
  case Save slot =>
    rw [hinst] at h
    dsimp only at h
    split_ifs at h <;> cases h
    · exact Or.inr (Or.inl ⟨slot, st.caps.getD slot none, rfl⟩)
    · exact Or.inl rfl
  case Jump pc2 =>
    rw [hinst] at h
    dsimp only at h
    cases h
    exact Or.inl rfl
  case Split x y =>
    rw [hinst] at h
    dsimp only at h
    cases h
    exact Or.inr (Or.inr ⟨y, rfl, rfl⟩)
  case EmptyLook l =>
    rw [hinst] at h
    dsimp only at h
    split_ifs at h <;> cases h
    exact Or.inl rfl
  case Char oc =>
    rw [hinst] at h
    dsimp only at h
    split_ifs at h <;> cases h
    exact Or.inl rfl
  case Ranges cr =>
    rw [hinst] at h
    dsimp only at h
    split_ifs at h <;> cases h
    exact Or.inl rfl

theorem btStep_jobs (insts : List Inst) (fold : Nat → Nat)
    (isw : Nat → Bool) (text : List Nat) (hwf : WfProg insts)
    (hv : ValidText text) :
    ∀ (fuel pc : Nat) (a : InputAt) (st : BtState) (b : Bool)
      (st' : BtState), SI insts text st → pc < insts.length →
      AtOk text a →
      btStep insts fold isw text fuel pc a st = some (b, st') →
      (∀ pc0 a0, Job.Inst pc0 a0 ∈ st'.jobs →
        Job.Inst pc0 a0 ∈ st.jobs) ∧
      (∀ pc0 a0, Job.SplitNext pc0 a0 ∈ st'.jobs →
        Job.SplitNext pc0 a0 ∈ st.jobs ∨
        (NM insts fold isw text pc0 a0.pos →
          NM insts fold isw text pc a.pos)) := by
  intro fuel
  induction fuel with
  | zero => intro pc a st b st' _ _ _ h; cases h
  | succ fuel ih =>
    intro pc a st b st' hsi hpc ha h
    rw [show btStep insts fold isw text (Nat.succ fuel) pc a st =
        (match btStepOnce insts fold isw text pc a st with
         | StepOnce.ret b st' => some (b, st')
         | StepOnce.cont pc' a' st' =>
           match hasVisited st' pc' a' with
           | (true, st'') => some (false, st'')
           | (false, st'') => btStep insts fold isw text fuel pc' a' st'')
        from rfl] at h
    have hprops := btStepOnce_props insts fold isw text pc a st hwf hv hsi
      hpc ha
    cases hr : btStepOnce insts fold isw text pc a st with
    | ret b1 st1 =>
      rw [hr] at h
      simp only [Option.some.injEq, Prod.mk.injEq] at h
      have hj := btStepOnce_jobs_ret hr
      rw [← h.2, hj]
      exact ⟨fun pc0 a0 hm => hm, fun pc0 a0 hm => Or.inl hm⟩
    | cont pc1 a1 st1 =>
      rw [hr] at h
      dsimp only at h
      obtain ⟨hsi1, _, _, hpc1, ha1⟩ := hprops.2 pc1 a1 st1 hr
      have hedge := btStepOnce_cont_edge ha hr
      have hforms := btStepOnce_jobs_cont hr
      have hmap : (∀ pc0 a0, Job.Inst pc0 a0 ∈ st1.jobs →
            Job.Inst pc0 a0 ∈ st.jobs) ∧
          (∀ pc0 a0, Job.SplitNext pc0 a0 ∈ st1.jobs →
            Job.SplitNext pc0 a0 ∈ st.jobs ∨
            (NM insts fold isw text pc0 a0.pos →
              NM insts fold isw text pc a.pos)) := by
        rcases hforms with hf | ⟨slot, old, hf⟩ | ⟨y, hf, hspl⟩
        · rw [hf]
          exact ⟨fun pc0 a0 hm => hm, fun pc0 a0 hm => Or.inl hm⟩
        · rw [hf]
          constructor
          · intro pc0 a0 hm
            rcases List.mem_cons.mp hm with hcon | hm
            · cases hcon
            · exact hm
          · intro pc0 a0 hm
            rcases List.mem_cons.mp hm with hcon | hm
            · cases hcon
            · exact Or.inl hm
        · rw [hf]
          constructor
          · intro pc0 a0 hm
            rcases List.mem_cons.mp hm with hcon | hm
            · cases hcon
            · exact hm
          · intro pc0 a0 hm
            rcases List.mem_cons.mp hm with hcon | hm
            · injection hcon with h1 h2
              subst h1
              subst h2
              right
              intro hnm
              exact NM.step (NEdge.splitr hspl) hnm
            · exact Or.inl hm
      cases hv2 : hasVisited st1 pc1 a1 with
      | mk vis st2 =>
        rw [hv2] at h
        cases vis with
        | true =>
          have hst2 := (hasVisited_true_parts hv2).1
          simp only [Option.some.injEq, Prod.mk.injEq] at h
          rw [← h.2, hst2]
          exact hmap
        | false =>
          have hparts := hasVisited_false_parts hv2
          have hsi2 : SI insts text st2 :=
            (hasVisited_false_props hsi1 hpc1 ha1.2 hv2).1
          have hih := ih pc1 a1 st2 b st' hsi2 hpc1 ha1 h
          constructor
          · intro pc0 a0 hm
            have := hih.1 pc0 a0 hm
            rw [hparts.2.1] at this
            exact hmap.1 pc0 a0 this
          · intro pc0 a0 hm
            rcases hih.2 pc0 a0 hm with hmem | himp
            · rw [hparts.2.1] at hmem
              exact hmap.2 pc0 a0 hmem
            · right
              intro hnm
              exact NM.step hedge (himp hnm)

theorem btLoop_true_nm (insts : List Inst) (fold : Nat → Nat)
    (isw : Nat → Bool) (text : List Nat) (hwf : WfProg insts)
    (hv : ValidText text) (sf : Nat) :
    ∀ (lf : Nat) (st st' : BtState), SI insts text st →
      btLoop insts fold isw text sf lf st = some (true, st') →
      ∃ pc0 a0, (Job.Inst pc0 a0 ∈ st.jobs ∨
        Job.SplitNext pc0 a0 ∈ st.jobs) ∧
        NM insts fold isw text pc0 a0.pos := by
  intro lf
  induction lf with
  | zero => intro st st' _ h; cases h
  | succ lf ih =>
    intro st st' hsi h
    obtain ⟨caps, jobs, visited⟩ := st
    obtain ⟨hnd, hvis, hjobs0⟩ := hsi
    cases jobs with
    | nil =>
      rw [show btLoop insts fold isw text sf (Nat.succ lf)
          ⟨caps, [], visited⟩ = some (false, ⟨caps, [], visited⟩)
          from rfl] at h
      simp only [Option.some.injEq, Prod.mk.injEq] at h
      cases h.1
    | cons job rest =>
      have hsipop : SI insts text ⟨caps, rest, visited⟩ :=
        ⟨hnd, hvis, fun j hj => hjobs0 j (List.mem_cons_of_mem _ hj)⟩
      cases job with
      | Inst pc a =>
        obtain ⟨hpc, ha⟩ := hjobs0 (Job.Inst pc a) (List.mem_cons_self _ _)
        rw [show btLoop insts fold isw text sf (Nat.succ lf)
            ⟨caps, Job.Inst pc a :: rest, visited⟩ =
            (match btStep insts fold isw text sf pc a
                ⟨caps, rest, visited⟩ with
             | none => none
             | some (true, st') => some (true, st')
             | some (false, st') => btLoop insts fold isw text sf lf st')
            from rfl] at h
        cases hbs : btStep insts fold isw text sf pc a
            ⟨caps, rest, visited⟩ with
        | none => rw [hbs] at h; cases h
        | some p =>
          obtain ⟨b1, st1⟩ := p
          rw [hbs] at h
          cases b1 with
          | true =>
            have hnm := btStep_true_nm insts fold isw text hwf hv sf pc a
              ⟨caps, rest, visited⟩ st1 hsipop hpc ha hbs
            exact ⟨pc, a, Or.inl (List.mem_cons_self _ _), hnm⟩
          | false =>
            dsimp only at h
            have hprops := btStep_props insts fold isw text hwf hv sf pc a
              ⟨caps, rest, visited⟩ false st1 hsipop hpc ha hbs
            obtain ⟨pc0, a0, hmem, hnm⟩ := ih st1 st' hprops.1 h
            have hjm := btStep_jobs insts fold isw text hwf hv sf pc a
              ⟨caps, rest, visited⟩ false st1 hsipop hpc ha hbs
            rcases hmem with hmem | hmem
            · have := hjm.1 pc0 a0 hmem
              exact ⟨pc0, a0,
                Or.inl (List.mem_cons_of_mem _ this), hnm⟩
            · rcases hjm.2 pc0 a0 hmem with hmem2 | himp
              · exact ⟨pc0, a0,
                  Or.inr (List.mem_cons_of_mem _ hmem2), hnm⟩
              · exact ⟨pc, a, Or.inl (List.mem_cons_self _ _), himp hnm⟩
      | SaveRestore slot old =>
        rw [show btLoop insts fold isw text sf (Nat.succ lf)
            ⟨caps, Job.SaveRestore slot old :: rest, visited⟩ =
            btLoop insts fold isw text sf lf
              ⟨caps.set slot old, rest, visited⟩ from rfl] at h
        have hsiset : SI insts text ⟨caps.set slot old, rest, visited⟩ :=
          ⟨hnd, hvis, fun j hj => hjobs0 j (List.mem_cons_of_mem _ hj)⟩
        obtain ⟨pc0, a0, hmem, hnm⟩ := ih _ st' hsiset h
        rcases hmem with hmem | hmem
        · exact ⟨pc0, a0, Or.inl (List.mem_cons_of_mem _ hmem), hnm⟩
        · exact ⟨pc0, a0, Or.inr (List.mem_cons_of_mem _ hmem), hnm⟩
      | SplitNext pc a =>
        obtain ⟨hpc, ha⟩ := hjobs0 (Job.SplitNext pc a)
          (List.mem_cons_self _ _)
        rw [show btLoop insts fold isw text sf (Nat.succ lf)
            ⟨caps, Job.SplitNext pc a :: rest, visited⟩ =
            btLoop insts fold isw text sf lf
              (btPush ⟨caps, rest, visited⟩ pc a) from rfl] at h
        unfold btPush at h
        cases hv2 : hasVisited ⟨caps, rest, visited⟩ pc a with
        | mk vis2 st2 =>
          rw [hv2] at h
          cases vis2 with
          | true =>
            have hst2 := (hasVisited_true_parts hv2).1
            dsimp only at h
            rw [hst2] at h
            obtain ⟨pc0, a0, hmem, hnm⟩ := ih _ st' hsipop h
            rcases hmem with hmem | hmem
            · exact ⟨pc0, a0, Or.inl (List.mem_cons_of_mem _ hmem), hnm⟩
            · exact ⟨pc0, a0, Or.inr (List.mem_cons_of_mem _ hmem), hnm⟩
          | false =>
            dsimp only at h
            have hf := hasVisited_false_props hsipop hpc ha.2 hv2
            obtain ⟨⟨hnd2, hvis2, hjobs2⟩, _, hjeq2, _⟩ := hf
            have hsipush : SI insts text
                { st2 with jobs := Job.Inst pc a :: st2.jobs } := by
              refine ⟨hnd2, hvis2, ?_⟩
              intro j hj
              rcases List.mem_cons.mp hj with rfl | hj
              · exact ⟨hpc, ha⟩
              · exact hjobs2 j hj
            obtain ⟨pc0, a0, hmem, hnm⟩ := ih _ st' hsipush h
            rcases hmem with hmem | hmem
            · rcases List.mem_cons.mp hmem with hcon | hmem
              · injection hcon with h1 h2
                subst h1
                subst h2
                exact ⟨pc0, a0, Or.inr (List.mem_cons_self _ _), hnm⟩
              · rw [hjeq2] at hmem
                exact ⟨pc0, a0, Or.inl (List.mem_cons_of_mem _ hmem), hnm⟩
            · rcases List.mem_cons.mp hmem with hcon | hmem
              · cases hcon
              · rw [hjeq2] at hmem
                exact ⟨pc0, a0, Or.inr (List.mem_cons_of_mem _ hmem), hnm⟩

theorem btBacktrack_true_nm (insts : List Inst) (fold : Nat → Nat)
    (isw : Nat → Bool) (text : List Nat) (hwf : WfProg insts)
    (hv : ValidText text) (sf lf : Nat) (a : InputAt) (st st' : BtState)
    (hsi : SI insts text st) (hje : st.jobs = []) (ha : AtOk text a)
    (h : btBacktrack insts fold isw text sf lf a st = some (true, st')) :
    NM insts fold isw text 0 a.pos := by
  unfold btBacktrack at h
  have hsipush : SI insts text (btPush st 0 a) := by
    unfold btPush
    cases hv2 : hasVisited st 0 a with
    | mk vis2 st2 =>
      cases vis2 with
      | true => rw [(hasVisited_true_parts hv2).1]; exact hsi
      | false =>
        have hf := hasVisited_false_props hsi hwf.1 ha.2 hv2
        obtain ⟨⟨hnd2, hvis2, hjobs2⟩, _, _, _⟩ := hf
        refine ⟨hnd2, hvis2, ?_⟩
        intro j hj
        rcases List.mem_cons.mp hj with rfl | hj
        · exact ⟨hwf.1, ha⟩
        · exact hjobs2 j hj
  obtain ⟨pc0, a0, hmem, hnm⟩ := btLoop_true_nm insts fold isw text hwf hv
    sf lf (btPush st 0 a) st' hsipush h
  have hjobs : (btPush st 0 a).jobs = [] ∨
      (btPush st 0 a).jobs = [Job.Inst 0 a] := by
    unfold btPush
    cases hv2 : hasVisited st 0 a with
    | mk vis2 st2 =>
      cases vis2 with
      | true =>
        left
        rw [(hasVisited_true_parts hv2).1]
        exact hje
      | false =>
        right
        have hparts := hasVisited_false_parts hv2
        show Job.Inst 0 a :: st2.jobs = [Job.Inst 0 a]
        rw [hparts.2.1, hje]
  rcases hjobs with hj | hj <;> rw [hj] at hmem
  · rcases hmem with hmem | hmem <;> cases hmem
  · rcases hmem with hmem | hmem
    · rcases List.mem_singleton.mp hmem with hcon
      injection hcon with h1 h2
      subst h1
      subst h2
      exact hnm
    · rcases List.mem_singleton.mp hmem with hcon
      cases hcon

/-- Node `(pc, p)` of the backtracker's search graph is accounted for:
either its expansion is still pending as an `Inst` job, or it has been
expanded — it is not a `Match` and each outgoing transition leads to a
visited node or to a pending `SplitNext` job. -/
def BtCov (insts : List Inst) (fold : Nat → Nat) (isw : Nat → Bool)
    (text : List Nat) (jobs : List Job) (visited : List (Nat × Nat))
    (pc p : Nat) : Prop :=
  Job.Inst pc (inputAt text p) ∈ jobs ∨
  (instAt insts pc ≠ Inst.Match ∧
   ∀ pc' p', NEdge insts fold isw text pc p pc' p' →
     (pc', p') ∈ visited ∨ Job.SplitNext pc' (inputAt text p') ∈ jobs)

/-- Every visited node is accounted for. -/
def BtClosed (insts : List Inst) (fold : Nat → Nat) (isw : Nat → Bool)
    (text : List Nat) (st : BtState) : Prop :=
  ∀ pc p, (pc, p) ∈ st.visited →
    BtCov insts fold isw text st.jobs st.visited pc p

/-- Every visited node except possibly `(pc0, p0)` (whose expansion is in
flight) is accounted for. -/
def BtClosedX (insts : List Inst) (fold : Nat → Nat) (isw : Nat → Bool)
    (text : List Nat) (st : BtState) (pc0 p0 : Nat) : Prop :=
  ∀ pc p, (pc, p) ∈ st.visited → ¬(pc = pc0 ∧ p = p0) →
    BtCov insts fold isw text st.jobs st.visited pc p

theorem btCov_mono {insts : List Inst} {fold : Nat → Nat} {isw : Nat → Bool}
    {text : List Nat} {jobs jobs' : List Job}
    {visited visited' : List (Nat × Nat)} {pc p : Nat}
    (hj : ∀ j ∈ jobs, j ∈ jobs') (hvv : ∀ q ∈ visited, q ∈ visited')
    (h : BtCov insts fold isw text jobs visited pc p) :
    BtCov insts fold isw text jobs' visited' pc p := by
  rcases h with h | ⟨hne, hcov⟩
  · exact Or.inl (hj _ h)
  · refine Or.inr ⟨hne, ?_⟩
    intro pc' p' he
    rcases hcov pc' p' he with hc | hc
    · exact Or.inl (hvv _ hc)
    · exact Or.inr (hj _ hc)

theorem btStepOnce_cont_cov {insts : List Inst} {fold : Nat → Nat}
    {isw : Nat → Bool} {text : List Nat} {pc : Nat} {a : InputAt}
    {st : BtState} {pc1 : Nat} {a1 : InputAt} {st1 : BtState}
    (ha : AtOk text a)
    (h : btStepOnce insts fold isw text pc a st = StepOnce.cont pc1 a1 st1) :
    instAt insts pc ≠ Inst.Match ∧
    ∀ pc' p', NEdge insts fold isw text pc a.pos pc' p' →
      (pc' = pc1 ∧ p' = a1.pos) ∨
      Job.SplitNext pc' (inputAt text p') ∈ st1.jobs := by
  unfold btStepOnce at h
  cases hinst : instAt insts pc
  case Match =>
    rw [hinst] at h
    dsimp only at h
    cases h
  case Save slot =>
    rw [hinst] at h
    dsimp only at h
    refine ⟨by nofun, ?_⟩
    intro pc' p' hedge
    cases hedge with
    | save hi =>
      split_ifs at h <;> cases h <;> exact Or.inl ⟨rfl, rfl⟩
    | jump hi => rw [hinst] at hi; cases hi
    | splitl hi => rw [hinst] at hi; cases hi
    | splitr hi => rw [hinst] at hi; cases hi
    | look hi _ => rw [hinst] at hi; cases hi
    | char hi _ => rw [hinst] at hi; cases hi
    | ranges hi _ => rw [hinst] at hi; cases hi
  case Jump pc2 =>
    rw [hinst] at h
    dsimp only at h
    cases h
    refine ⟨by nofun, ?_⟩
    intro pc' p' hedge
    cases hedge with
    | save hi => rw [hinst] at hi; cases hi
    | jump hi =>
      rw [hinst] at hi
      injection hi with h2
      subst h2
      exact Or.inl ⟨rfl, rfl⟩
    | splitl hi => rw [hinst] at hi; cases hi
    | splitr hi => rw [hinst] at hi; cases hi
    | look hi _ => rw [hinst] at hi; cases hi
    | char hi _ => rw [hinst] at hi; cases hi
    | ranges hi _ => rw [hinst] at hi; cases hi
  case Split x y =>
    rw [hinst] at h
    dsimp only at h
    cases h
    refine ⟨by nofun, ?_⟩
    intro pc' p' hedge
    cases hedge with
    | save hi => rw [hinst] at hi; cases hi
    | jump hi => rw [hinst] at hi; cases hi
    | splitl hi =>
      rw [hinst] at hi
      injection hi with h1 h2
      subst h1
      exact Or.inl ⟨rfl, rfl⟩
    | splitr hi =>
      rw [hinst] at hi
      injection hi with h1 h2
      subst h2
      right
      rw [← ha.1]
      exact List.mem_cons_self _ _
    | look hi _ => rw [hinst] at hi; cases hi
    | char hi _ => rw [hinst] at hi; cases hi
    | ranges hi _ => rw [hinst] at hi; cases hi
  case EmptyLook l =>
    rw [hinst] at h
    dsimp only at h
    split_ifs at h with hl <;> cases h
    refine ⟨by nofun, ?_⟩
    intro pc' p' hedge
    cases hedge with
    | save hi => rw [hinst] at hi; cases hi
    | jump hi => rw [hinst] at hi; cases hi
    | splitl hi => rw [hinst] at hi; cases hi
    | splitr hi => rw [hinst] at hi; cases hi
    | look hi _ => exact Or.inl ⟨rfl, rfl⟩
    | char hi _ => rw [hinst] at hi; cases hi
    | ranges hi _ => rw [hinst] at hi; cases hi
  case Char oc =>
    rw [hinst] at h
    dsimp only at h
    split_ifs at h with hm <;> cases h
    refine ⟨by nofun, ?_⟩
    intro pc' p' hedge
    cases hedge with
    | save hi => rw [hinst] at hi; cases hi
    | jump hi => rw [hinst] at hi; cases hi
    | splitl hi => rw [hinst] at hi; cases hi
    | splitr hi => rw [hinst] at hi; cases hi
    | look hi _ => rw [hinst] at hi; cases hi
    | char hi _ =>
      left
      refine ⟨rfl, ?_⟩
      show (inputAt text a.pos).nextPos = (inputAt text a.nextPos).pos
      rw [show (inputAt text a.nextPos).pos = a.nextPos from rfl,
        atOk_nextPos ha]
    | ranges hi _ => rw [hinst] at hi; cases hi
  case Ranges cr =>
    rw [hinst] at h
    dsimp only at h
    split_ifs at h with hm <;> cases h
    refine ⟨by nofun, ?_⟩
    intro pc' p' hedge
    cases hedge with
    | save hi => rw [hinst] at hi; cases hi
    | jump hi => rw [hinst] at hi; cases hi
    | splitl hi => rw [hinst] at hi; cases hi
    | splitr hi => rw [hinst] at hi; cases hi
    | look hi _ => rw [hinst] at hi; cases hi
    | char hi _ => rw [hinst] at hi; cases hi
    | ranges hi _ =>
      left
      refine ⟨rfl, ?_⟩
      show (inputAt text a.pos).nextPos = (inputAt text a.nextPos).pos
      rw [show (inputAt text a.nextPos).pos = a.nextPos from rfl,
        atOk_nextPos ha]

theorem btStepOnce_jobs_mono {insts : List Inst} {fold : Nat → Nat}
    {isw : Nat → Bool} {text : List Nat} {pc : Nat} {a : InputAt}
    {st : BtState} {pc1 : Nat} {a1 : InputAt} {st1 : BtState}
    (h : btStepOnce insts fold isw text pc a st = StepOnce.cont pc1 a1 st1) :
    ∀ j ∈ st.jobs, j ∈ st1.jobs := by
  rcases btStepOnce_jobs_cont h with hf | ⟨slot, old, hf⟩ | ⟨y, hf, _⟩ <;>
    rw [hf]
  · exact fun j hj => hj
  · exact fun j hj => List.mem_cons_of_mem _ hj
  · exact fun j hj => List.mem_cons_of_mem _ hj

theorem btStep_jobs_mem_mono (insts : List Inst) (fold : Nat → Nat)
    (isw : Nat → Bool) (text : List Nat) :
    ∀ (fuel pc : Nat) (a : InputAt) (st : BtState) (b : Bool)
      (st' : BtState),
      btStep insts fold isw text fuel pc a st = some (b, st') →
      ∀ j, j ∈ st.jobs → j ∈ st'.jobs := by
  intro fuel
  induction fuel with
  | zero => intro pc a st b st' h; cases h
  | succ fuel ih =>
    intro pc a st b st' h j hj
    rw [show btStep insts fold isw text (Nat.succ fuel) pc a st =
        (match btStepOnce insts fold isw text pc a st with
         | StepOnce.ret b st' => some (b, st')
         | StepOnce.cont pc' a' st' =>
           match hasVisited st' pc' a' with
           | (true, st'') => some (false, st'')
           | (false, st'') => btStep insts fold isw text fuel pc' a' st'')
        from rfl] at h
    cases hr : btStepOnce insts fold isw text pc a st with
    | ret b1 st1 =>
      rw [hr] at h
      simp only [Option.some.injEq, Prod.mk.injEq] at h
      rw [← h.2]
      rw [btStepOnce_jobs_ret hr]
      exact hj
    | cont pc1 a1 st1 =>
      rw [hr] at h
      dsimp only at h
      have hmono := btStepOnce_jobs_mono hr
      cases hv2 : hasVisited st1 pc1 a1 with
      | mk vis st2 =>
        rw [hv2] at h
        cases vis with
        | true =>
          have hst2 := (hasVisited_true_parts hv2).1
          simp only [Option.some.injEq, Prod.mk.injEq] at h
          rw [← h.2, hst2]
          exact hmono j hj
        | false =>
          have hparts := hasVisited_false_parts hv2
          refine ih pc1 a1 st2 b st' h j ?_
          rw [hparts.2.1]
          exact hmono j hj

theorem btStep_closed (insts : List Inst) (fold : Nat → Nat)
    (isw : Nat → Bool) (text : List Nat) (hwf : WfProg insts)
    (hv : ValidText text) :
    ∀ (fuel pc : Nat) (a : InputAt) (st : BtState) (st' : BtState),
      SI insts text st → pc < insts.length → AtOk text a →
      BtClosedX insts fold isw text st pc a.pos →
      btStep insts fold isw text fuel pc a st = some (false, st') →
      BtClosed insts fold isw text st' := by
  intro fuel
  induction fuel with
  | zero => intro pc a st st' _ _ _ _ h; cases h
  | succ fuel ih =>
    intro pc a st st' hsi hpc ha hclx h
    rw [show btStep insts fold isw text (Nat.succ fuel) pc a st =
        (match btStepOnce insts fold isw text pc a st with
         | StepOnce.ret b st' => some (b, st')
         | StepOnce.cont pc' a' st' =>
           match hasVisited st' pc' a' with
           | (true, st'') => some (false, st'')
           | (false, st'') => btStep insts fold isw text fuel pc' a' st'')
        from rfl] at h
    have hprops := btStepOnce_props insts fold isw text pc a st hwf hv hsi
      hpc ha
    have hvisonce := btStepOnce_state_visited insts fold isw text pc a st
    cases hr : btStepOnce insts fold isw text pc a st with
    | ret b1 st1 =>
      rw [hr] at h hvisonce
      simp only [StepOnce.state] at hvisonce
      simp only [Option.some.injEq, Prod.mk.injEq] at h
      have hb1 : b1 = false := h.1
      subst hb1
      have hnoe := btStepOnce_retfalse_noedge ha hr
      have hjeq := btStepOnce_jobs_ret hr
      rw [← h.2]
      intro pc2 p2 hmem
      rw [hvisonce] at hmem
      by_cases hexc : pc2 = pc ∧ p2 = a.pos
      · obtain ⟨rfl, rfl⟩ := hexc
        refine Or.inr ⟨hnoe.1, ?_⟩
        intro pc' p' he
        exact absurd he (hnoe.2 pc' p')
      · have := hclx pc2 p2 hmem hexc
        refine btCov_mono ?_ ?_ this
        · rw [hjeq]
          exact fun j hj => hj
        · rw [hvisonce]
          exact fun q hq => hq
    | cont pc1 a1 st1 =>
      rw [hr] at h hvisonce
      simp only [StepOnce.state] at hvisonce
      dsimp only at h
      obtain ⟨hsi1, _, _, hpc1, ha1⟩ := hprops.2 pc1 a1 st1 hr
      have hcov := btStepOnce_cont_cov ha hr
      have hjmono := btStepOnce_jobs_mono hr
      cases hv2 : hasVisited st1 pc1 a1 with
      | mk vis st2 =>
        rw [hv2] at h
        cases vis with
        | true =>
          obtain ⟨hst2, hmem1⟩ := hasVisited_true_parts hv2
          simp only [Option.some.injEq, Prod.mk.injEq] at h
          rw [← h.2, hst2]
          intro pc2 p2 hmem
          by_cases hexc : pc2 = pc ∧ p2 = a.pos
          · obtain ⟨rfl, rfl⟩ := hexc
            refine Or.inr ⟨hcov.1, ?_⟩
            intro pc' p' he
            rcases hcov.2 pc' p' he with ⟨rfl, rfl⟩ | hc
            · exact Or.inl hmem1
            · exact Or.inr hc
          · rw [hvisonce] at hmem
            have := hclx pc2 p2 hmem hexc
            refine btCov_mono hjmono ?_ this
            rw [hvisonce]
            exact fun q hq => hq
        | false =>
          obtain ⟨hvis2, hjobs2, hcaps2, hfresh⟩ := hasVisited_false_parts hv2
          have hsi2 : SI insts text st2 :=
            (hasVisited_false_props hsi1 hpc1 ha1.2 hv2).1
          refine ih pc1 a1 st2 st' hsi2 hpc1 ha1 ?_ h
          intro pc2 p2 hmem hexc2
          rw [hvis2] at hmem
          rcases List.mem_cons.mp hmem with hcon | hmem
          · exfalso
            injection hcon with h1 h2
            exact hexc2 ⟨h1, h2⟩
          · rw [hvisonce] at hmem
            by_cases hexc : pc2 = pc ∧ p2 = a.pos
            · obtain ⟨rfl, rfl⟩ := hexc
              refine Or.inr ⟨hcov.1, ?_⟩
              intro pc' p' he
              rcases hcov.2 pc' p' he with ⟨rfl, rfl⟩ | hc
              · left
                rw [hvis2]
                exact List.mem_cons_self _ _
              · right
                rw [hjobs2]
                exact hc
            · have := hclx pc2 p2 hmem hexc
              refine btCov_mono ?_ ?_ this
              · intro j hj
                rw [hjobs2]
                exact hjmono j hj
              · intro q hq
                rw [hvis2, hvisonce]
                exact List.mem_cons_of_mem _ hq

theorem btLoop_closed (insts : List Inst) (fold : Nat → Nat)
    (isw : Nat → Bool) (text : List Nat) (hwf : WfProg insts)
    (hv : ValidText text) (sf : Nat) :
    ∀ (lf : Nat) (st st' : BtState), SI insts text st →
      BtClosed insts fold isw text st →
      btLoop insts fold isw text sf lf st = some (false, st') →
      BtClosed insts fold isw text st' ∧
      (∀ q ∈ st.visited, q ∈ st'.visited) := by
  intro lf
  induction lf with
  | zero => intro st st' _ _ h; cases h
  | succ lf ih =>
    intro st st' hsi hcl h
    obtain ⟨caps, jobs, visited⟩ := st
    obtain ⟨hnd, hvis, hjobs0⟩ := hsi
    cases jobs with
    | nil =>
      rw [show btLoop insts fold isw text sf (Nat.succ lf)
          ⟨caps, [], visited⟩ = some (false, ⟨caps, [], visited⟩)
          from rfl] at h
      simp only [Option.some.injEq, Prod.mk.injEq] at h
      rw [← h.2]
      exact ⟨hcl, fun q hq => hq⟩
    | cons job rest =>
      have hsipop : SI insts text ⟨caps, rest, visited⟩ :=
        ⟨hnd, hvis, fun j hj => hjobs0 j (List.mem_cons_of_mem _ hj)⟩
      cases job with
      | Inst pc a =>
        obtain ⟨hpc, ha⟩ := hjobs0 (Job.Inst pc a) (List.mem_cons_self _ _)
        rw [show btLoop insts fold isw text sf (Nat.succ lf)
            ⟨caps, Job.Inst pc a :: rest, visited⟩ =
            (match btStep insts fold isw text sf pc a
                ⟨caps, rest, visited⟩ with
             | none => none
             | some (true, st') => some (true, st')
             | some (false, st') => btLoop insts fold isw text sf lf st')
            from rfl] at h
        cases hbs : btStep insts fold isw text sf pc a
            ⟨caps, rest, visited⟩ with
        | none => rw [hbs] at h; cases h
        | some p =>
          obtain ⟨b1, st1⟩ := p
          rw [hbs] at h
          cases b1 with
          | true =>
            dsimp only at h
            simp only [Option.some.injEq, Prod.mk.injEq] at h
            cases h.1
          | false =>
            dsimp only at h
            have hclx : BtClosedX insts fold isw text
                ⟨caps, rest, visited⟩ pc a.pos := by
              intro pc2 p2 hmem hexc
              have hc := hcl pc2 p2 hmem
              rcases hc with hc | ⟨hne, hcov⟩
              · rcases List.mem_cons.mp hc with hcon | hc
                · exfalso
                  injection hcon with h1 h2
                  apply hexc
                  refine ⟨h1, ?_⟩
                  have := congrArg InputAt.pos h2
                  rw [show (inputAt text p2).pos = p2 from rfl] at this
                  exact this
                · exact Or.inl hc
              · refine Or.inr ⟨hne, ?_⟩
                intro pc' p' he
                rcases hcov pc' p' he with hcc | hcc
                · exact Or.inl hcc
                · rcases List.mem_cons.mp hcc with hcon | hcc
                  · cases hcon
                  · exact Or.inr hcc
            have hcl1 := btStep_closed insts fold isw text hwf hv sf pc a
              ⟨caps, rest, visited⟩ st1 hsipop hpc ha hclx hbs
            have hprops := btStep_props insts fold isw text hwf hv sf pc a
              ⟨caps, rest, visited⟩ false st1 hsipop hpc ha hbs
            have hvm := btStep_visited_mem_mono insts fold isw text sf pc a
              ⟨caps, rest, visited⟩ false st1 hbs
            obtain ⟨hcl', hvm'⟩ := ih st1 st' hprops.1 hcl1 h
            exact ⟨hcl', fun q hq => hvm' q (hvm q hq)⟩
      | SaveRestore slot old =>
        rw [show btLoop insts fold isw text sf (Nat.succ lf)
            ⟨caps, Job.SaveRestore slot old :: rest, visited⟩ =
            btLoop insts fold isw text sf lf
              ⟨caps.set slot old, rest, visited⟩ from rfl] at h
        have hsiset : SI insts text ⟨caps.set slot old, rest, visited⟩ :=
          ⟨hnd, hvis, fun j hj => hjobs0 j (List.mem_cons_of_mem _ hj)⟩
        have hclset : BtClosed insts fold isw text
            ⟨caps.set slot old, rest, visited⟩ := by
          intro pc2 p2 hmem
          have hc := hcl pc2 p2 hmem
          rcases hc with hc | ⟨hne, hcov⟩
          · rcases List.mem_cons.mp hc with hcon | hc
            · cases hcon
            · exact Or.inl hc
          · refine Or.inr ⟨hne, ?_⟩
            intro pc' p' he
            rcases hcov pc' p' he with hcc | hcc
            · exact Or.inl hcc
            · rcases List.mem_cons.mp hcc with hcon | hcc
              · cases hcon
              · exact Or.inr hcc
        obtain ⟨hcl', hvm'⟩ := ih ⟨caps.set slot old, rest, visited⟩ st'
          hsiset hclset h
        exact ⟨hcl', hvm'⟩
      | SplitNext pc a =>
        obtain ⟨hpc, ha⟩ := hjobs0 (Job.SplitNext pc a)
          (List.mem_cons_self _ _)
        rw [show btLoop insts fold isw text sf (Nat.succ lf)
            ⟨caps, Job.SplitNext pc a :: rest, visited⟩ =
            btLoop insts fold isw text sf lf
              (btPush ⟨caps, rest, visited⟩ pc a) from rfl] at h
        unfold btPush at h
        cases hv2 : hasVisited ⟨caps, rest, visited⟩ pc a with
        | mk vis2 st2 =>
          rw [hv2] at h
          cases vis2 with
          | true =>
            obtain ⟨hst2, hmem1⟩ := hasVisited_true_parts hv2
            dsimp only at h
            rw [hst2] at h
            have hclpop : BtClosed insts fold isw text
                ⟨caps, rest, visited⟩ := by
              intro pc2 p2 hmem
              have hc := hcl pc2 p2 hmem
              rcases hc with hc | ⟨hne, hcov⟩
              · rcases List.mem_cons.mp hc with hcon | hc
                · cases hcon
                · exact Or.inl hc
              · refine Or.inr ⟨hne, ?_⟩
                intro pc' p' he
                rcases hcov pc' p' he with hcc | hcc
                · exact Or.inl hcc
                · rcases List.mem_cons.mp hcc with hcon | hcc
                  · injection hcon with h1 h2
                    subst h1
                    left
                    have := congrArg InputAt.pos h2
                    rw [show (inputAt text p').pos = p' from rfl] at this
                    rw [this]
                    exact hmem1
                  · exact Or.inr hcc
            obtain ⟨hcl', hvm'⟩ := ih ⟨caps, rest, visited⟩ st' hsipop
              hclpop h
            exact ⟨hcl', hvm'⟩
          | false =>
            dsimp only at h
            obtain ⟨hvis2, hjobs2, hcaps2, hfresh⟩ :=
              hasVisited_false_parts hv2
            have hf := hasVisited_false_props hsipop hpc ha.2 hv2
            obtain ⟨⟨hnd2, hvis2b, hjobs2b⟩, _, _, _⟩ := hf
            have hsipush : SI insts text
                { st2 with jobs := Job.Inst pc a :: st2.jobs } := by
              refine ⟨hnd2, hvis2b, ?_⟩
              intro j hj
              rcases List.mem_cons.mp hj with rfl | hj
              · exact ⟨hpc, ha⟩
              · exact hjobs2b j hj
            have hclpush : BtClosed insts fold isw text
                { st2 with jobs := Job.Inst pc a :: st2.jobs } := by
              intro pc2 p2 hmem
              show BtCov insts fold isw text (Job.Inst pc a :: st2.jobs)
                st2.visited pc2 p2
              rw [hjobs2, hvis2] at *
              rcases List.mem_cons.mp hmem with hcon | hmem
              · injection hcon with h1 h2
                subst h1
                subst h2
                left
                rw [← ha.1]
                exact List.mem_cons_self _ _
              · have hc := hcl pc2 p2 hmem
                rcases hc with hc | ⟨hne, hcov⟩
                · rcases List.mem_cons.mp hc with hcon | hc
                  · cases hcon
                  · exact Or.inl (List.mem_cons_of_mem _ hc)
                · refine Or.inr ⟨hne, ?_⟩
                  intro pc' p' he
                  rcases hcov pc' p' he with hcc | hcc
                  · exact Or.inl (List.mem_cons_of_mem _ hcc)
                  · rcases List.mem_cons.mp hcc with hcon | hcc
                    · injection hcon with h1 h2
                      subst h1
                      left
                      have := congrArg InputAt.pos h2
                      rw [show (inputAt text p').pos = p' from rfl] at this
                      rw [this]
                      exact List.mem_cons_self _ _
                    · right
                      exact List.mem_cons_of_mem _ hcc
            obtain ⟨hcl', hvm'⟩ := ih _ st' hsipush hclpush h
            refine ⟨hcl', fun q hq => hvm' q ?_⟩
            show q ∈ st2.visited
            rw [hvis2]
            exact List.mem_cons_of_mem _ hq

theorem btBacktrack_closed (insts : List Inst) (fold : Nat → Nat)
    (isw : Nat → Bool) (text : List Nat) (hwf : WfProg insts)
    (hv : ValidText text) (sf lf : Nat) (a : InputAt) (st st' : BtState)
    (hsi : SI insts text st) (ha : AtOk text a)
    (hcl : BtClosed insts fold isw text st)
    (h : btBacktrack insts fold isw text sf lf a st = some (false, st')) :
    BtClosed insts fold isw text st' ∧ (0, a.pos) ∈ st'.visited ∧
    (∀ q ∈ st.visited, q ∈ st'.visited) := by
  unfold btBacktrack at h
  have hres : SI insts text (btPush st 0 a) ∧
      BtClosed insts fold isw text (btPush st 0 a) ∧
      (0, a.pos) ∈ (btPush st 0 a).visited ∧
      (∀ q ∈ st.visited, q ∈ (btPush st 0 a).visited) := by
    unfold btPush
    cases hv2 : hasVisited st 0 a with
    | mk vis2 st2 =>
      cases vis2 with
      | true =>
        obtain ⟨hst2, hmem⟩ := hasVisited_true_parts hv2
        rw [hst2]
        exact ⟨hsi, hcl, hmem, fun q hq => hq⟩
      | false =>
        obtain ⟨hvis2, hjobs2, hcaps2, hfresh⟩ := hasVisited_false_parts hv2
        have hf := hasVisited_false_props hsi hwf.1 ha.2 hv2
        obtain ⟨⟨hnd2, hvis2b, hjobs2b⟩, _, _, _⟩ := hf
        refine ⟨⟨hnd2, hvis2b, ?_⟩, ?_, ?_, ?_⟩
        · intro j hj
          rcases List.mem_cons.mp hj with rfl | hj
          · exact ⟨hwf.1, ha⟩
          · exact hjobs2b j hj
        · intro pc2 p2 hmem
          show BtCov insts fold isw text (Job.Inst 0 a :: st2.jobs)
            st2.visited pc2 p2
          rw [hjobs2, hvis2] at *
          rcases List.mem_cons.mp hmem with hcon | hmem
          · injection hcon with h1 h2
            subst h1
            subst h2
            left
            rw [← ha.1]
            exact List.mem_cons_self _ _
          · have hc := hcl pc2 p2 hmem
            rcases hc with hc | ⟨hne, hcov⟩
            · exact Or.inl (List.mem_cons_of_mem _ hc)
            · refine Or.inr ⟨hne, ?_⟩
              intro pc' p' he
              rcases hcov pc' p' he with hcc | hcc
              · exact Or.inl (List.mem_cons_of_mem _ hcc)
              · exact Or.inr (List.mem_cons_of_mem _ hcc)
        · show (0, a.pos) ∈ st2.visited
          rw [hvis2]
          exact List.mem_cons_self _ _
        · intro q hq
          show q ∈ st2.visited
          rw [hvis2]
          exact List.mem_cons_of_mem _ hq
  obtain ⟨hsip, hclp, hmemp, hmonop⟩ := hres
  obtain ⟨hcl', hvm'⟩ := btLoop_closed insts fold isw text hwf hv sf lf
    (btPush st 0 a) st' hsip hclp h
  exact ⟨hcl', hvm' _ hmemp, fun q hq => hvm' q (hmonop q hq)⟩

theorem btClosed_refute (insts : List Inst) (fold : Nat → Nat)
    (isw : Nat → Bool) (text : List Nat) {st : BtState}
    (hje : st.jobs = []) (hcl : BtClosed insts fold isw text st) :
    ∀ pc p, NM insts fold isw text pc p → (pc, p) ∈ st.visited → False := by
  intro pc p hnm
  induction hnm with
  | done hi =>
    intro hmem
    rcases hcl _ _ hmem with hc | ⟨hne, _⟩
    · rw [hje] at hc
      cases hc
    · exact hne hi
  | step hedge _ ih =>
    intro hmem
    rcases hcl _ _ hmem with hc | ⟨hne, hcov⟩
    · rw [hje] at hc
      cases hc
    · rcases hcov _ _ hedge with hcc | hcc
      · exact ih hcc
      · rw [hje] at hcc
        cases hcc

theorem findPrefixLoop_none {needle : List Nat} :
    ∀ (hs : List Nat) (off : Nat), findPrefixLoop needle hs off = none →
    ∀ d, (hs.drop d).take needle.length ≠ needle := by
  intro hs
  induction hs with
  | nil =>
    intro off h d
    rw [show findPrefixLoop needle [] off =
        (if [].take needle.length == needle then some off else none)
        from rfl] at h
    split_ifs at h with htake
    rw [List.drop_nil]
    intro hcon
    rw [← beq_iff_eq] at hcon
    simp only [List.take_nil] at htake hcon
    exact htake hcon
  | cons a t ih =>
    intro off h d
    rw [show findPrefixLoop needle (a :: t) off =
        (if (a :: t).take needle.length == needle then some off
         else findPrefixLoop needle t (off + 1)) from rfl] at h
    split_ifs at h with htake
    cases d with
    | zero =>
      intro hcon
      rw [← beq_iff_eq] at hcon
      simp only [List.drop_zero] at hcon
      exact htake hcon
    | succ d0 =>
      rw [show (a :: t).drop (d0 + 1) = t.drop d0 from rfl]
      exact ih (off + 1) h d0

theorem findPrefixLoop_min {needle : List Nat} :
    ∀ (hs : List Nat) (off i : Nat), findPrefixLoop needle hs off = some i →
    ∀ d, d < i - off → (hs.drop d).take needle.length ≠ needle := by
  intro hs
  induction hs with
  | nil =>
    intro off i h d hd
    rw [show findPrefixLoop needle [] off =
        (if [].take needle.length == needle then some off else none)
        from rfl] at h
    split_ifs at h with htake
    injection h with hio
    exfalso
    omega
  | cons a t ih =>
    intro off i h d hd
    rw [show findPrefixLoop needle (a :: t) off =
        (if (a :: t).take needle.length == needle then some off
         else findPrefixLoop needle t (off + 1)) from rfl] at h
    split_ifs at h with htake
    · injection h with hio
      exfalso
      omega
    · cases d with
      | zero =>
        intro hcon
        rw [← beq_iff_eq] at hcon
        simp only [List.drop_zero] at hcon
        exact htake hcon
      | succ d0 =>
        rw [show (a :: t).drop (d0 + 1) = t.drop d0 from rfl]
        exact ih (off + 1) i h d0 (by omega)

theorem take_ne_of_short {α : Type} {l nd : List α}
    (h : l.length < nd.length) : l.take nd.length ≠ nd := by
  intro hcon
  have := congrArg List.length hcon
  rw [List.length_take] at this
  omega

theorem findPrefixesLoop_none {needles : List (List Nat)} :
    ∀ (hs : List Nat) (off : Nat), findPrefixesLoop needles hs off = none →
    ∀ d nd, nd ∈ needles → nd ≠ [] →
      (hs.drop d).take nd.length ≠ nd := by
  intro hs
  induction hs with
  | nil =>
    intro off _ d nd hmem hne
    rw [List.drop_nil, List.take_nil]
    exact fun hcon => hne hcon.symm
  | cons a t ih =>
    intro off h d nd hmem hne
    rw [show findPrefixesLoop needles (a :: t) off =
        (if needles.any (fun nd => (a :: t).take nd.length == nd) then
          some off
         else findPrefixesLoop needles t (off + 1)) from rfl] at h
    split_ifs at h with hany
    cases d with
    | zero =>
      intro hcon
      rw [List.drop_zero] at hcon
      rw [Bool.not_eq_true, List.any_eq_false] at hany
      exact hany nd hmem (by rw [beq_iff_eq]; exact hcon)
    | succ d0 =>
      rw [show (a :: t).drop (d0 + 1) = t.drop d0 from rfl]
      exact ih (off + 1) h d0 nd hmem hne

theorem findPrefixesLoop_min {needles : List (List Nat)} :
    ∀ (hs : List Nat) (off i : Nat),
      findPrefixesLoop needles hs off = some i →
    ∀ d, d < i - off → ∀ nd, nd ∈ needles →
      (hs.drop d).take nd.length ≠ nd := by
  intro hs
  induction hs with
  | nil => intro off i h; cases h
  | cons a t ih =>
    intro off i h d hd nd hmem
    rw [show findPrefixesLoop needles (a :: t) off =
        (if needles.any (fun nd => (a :: t).take nd.length == nd) then
          some off
         else findPrefixesLoop needles t (off + 1)) from rfl] at h
    split_ifs at h with hany
    · injection h with hio
      exfalso
      omega
    · cases d with
      | zero =>
        intro hcon
        rw [List.drop_zero] at hcon
        rw [Bool.not_eq_true, List.any_eq_false] at hany
        exact hany nd hmem (by rw [beq_iff_eq]; exact hcon)
      | succ d0 =>
        rw [show (a :: t).drop (d0 + 1) = t.drop d0 from rfl]
        exact ih (off + 1) i h d0 (by omega) nd hmem

theorem findPrefixBytes_none {needle hs : List Nat} (hne : needle ≠ [])
    (h : findPrefixBytes needle hs = none) :
    ∀ d, (hs.drop d).take needle.length ≠ needle := by
  unfold findPrefixBytes at h
  split_ifs at h with hguard
  · rw [Bool.or_eq_true, decide_eq_true_iff, beq_iff_eq] at hguard
    rcases hguard with hlong | hzero
    · intro d
      apply take_ne_of_short
      rw [List.length_drop]
      omega
    · exfalso
      exact hne (List.length_eq_zero.mp hzero)
  · intro d
    exact findPrefixLoop_none hs 0 h d

theorem findPrefixBytes_min {needle hs : List Nat} {i : Nat}
    (h : findPrefixBytes needle hs = some i) :
    ∀ d, d < i → (hs.drop d).take needle.length ≠ needle := by
  unfold findPrefixBytes at h
  split_ifs at h with hguard
  intro d hd
  exact findPrefixLoop_min hs 0 i h d (by omega)

/-- An occurrence of one of the program's literal needles at byte offset
`m` of the encoded text. -/
def PrefOcc (text : List Nat) (prefixes : List (List Nat)) (m : Nat) :
    Prop :=
  ∃ nd ∈ prefixes, ((encodeList text).drop m).take nd.length = nd

theorem prefixAt_none_noocc {text : List Nat} {prefixes : List (List Nat)}
    {a : InputAt} (hnd : ∀ nd ∈ prefixes, ValidNeedle nd)
    (h : prefixAt text prefixes a = none) :
    ∀ m, a.pos ≤ m → ¬ PrefOcc text prefixes m := by
  unfold prefixAt at h
  cases prefixes with
  | nil => cases h
  | cons p rest =>
    cases rest with
    | nil =>
      dsimp only at h
      cases hf : findPrefixBytes p ((encodeList text).drop a.pos) with
      | none =>
        intro m hm hocc
        obtain ⟨nd, hndm, hocc⟩ := hocc
        rcases List.mem_singleton.mp hndm with rfl
        have := findPrefixBytes_none
          (validNeedle_ne_nil (hnd nd (by simp))) hf (m - a.pos)
        rw [drop_drop_eq, show a.pos + (m - a.pos) = m from by omega] at this
        exact this hocc
      | some adv =>
        rw [hf] at h
        cases h
    | cons q rest2 =>
      dsimp only at h
      cases hf : findPrefixes (p :: q :: rest2)
          ((encodeList text).drop a.pos) with
      | none =>
        intro m hm hocc
        obtain ⟨nd, hndm, hocc⟩ := hocc
        have := findPrefixesLoop_none ((encodeList text).drop a.pos) 0 hf
          (m - a.pos) nd hndm (validNeedle_ne_nil (hnd nd hndm))
        rw [drop_drop_eq, show a.pos + (m - a.pos) = m from by omega] at this
        exact this hocc
      | some adv =>
        rw [hf] at h
        cases h

theorem prefixAt_min_noocc {text : List Nat} {prefixes : List (List Nat)}
    {a a' : InputAt} (hnd : ∀ nd ∈ prefixes, ValidNeedle nd)
    (h : prefixAt text prefixes a = some a') :
    ∀ m, a.pos ≤ m → m < a'.pos → ¬ PrefOcc text prefixes m := by
  unfold prefixAt at h
  cases prefixes with
  | nil =>
    simp only [Option.some.injEq] at h
    rw [← h]
    intro m hm hm2
    omega
  | cons p rest =>
    cases rest with
    | nil =>
      dsimp only at h
      cases hf : findPrefixBytes p ((encodeList text).drop a.pos) with
      | none => rw [hf] at h; cases h
      | some adv =>
        rw [hf] at h
        simp only [Option.map_some', Option.some.injEq] at h
        intro m hm hm2 hocc
        obtain ⟨nd, hndm, hocc⟩ := hocc
        rcases List.mem_singleton.mp hndm with rfl
        have hpos : a'.pos = a.pos + adv := by rw [← h]; rfl
        have := findPrefixBytes_min hf (m - a.pos) (by omega)
        rw [drop_drop_eq, show a.pos + (m - a.pos) = m from by omega] at this
        exact this hocc
    | cons q rest2 =>
      dsimp only at h
      cases hf : findPrefixes (p :: q :: rest2)
          ((encodeList text).drop a.pos) with
      | none => rw [hf] at h; cases h
      | some adv =>
        rw [hf] at h
        simp only [Option.map_some', Option.some.injEq] at h
        intro m hm hm2 hocc
        obtain ⟨nd, hndm, hocc⟩ := hocc
        have hpos : a'.pos = a.pos + adv := by rw [← h]; rfl
        have := findPrefixesLoop_min ((encodeList text).drop a.pos) 0 adv hf
          (m - a.pos) (by omega) nd hndm
        rw [drop_drop_eq, show a.pos + (m - a.pos) = m from by omega] at this
        exact this hocc

theorem btLoop_si (insts : List Inst) (fold : Nat → Nat)
    (isw : Nat → Bool) (text : List Nat) (hwf : WfProg insts)
    (hv : ValidText text) (sf : Nat) :
    ∀ (lf : Nat) (st : BtState) (b : Bool) (st' : BtState),
      SI insts text st →
      btLoop insts fold isw text sf lf st = some (b, st') →
      SI insts text st' := by
  intro lf
  induction lf with
  | zero => intro st b st' _ h; cases h
  | succ lf ih =>
    intro st b st' hsi h
    obtain ⟨caps, jobs, visited⟩ := st
    obtain ⟨hnd, hvis, hjobs0⟩ := hsi
    cases jobs with
    | nil =>
      rw [show btLoop insts fold isw text sf (Nat.succ lf)
          ⟨caps, [], visited⟩ = some (false, ⟨caps, [], visited⟩)
          from rfl] at h
      simp only [Option.some.injEq, Prod.mk.injEq] at h
      rw [← h.2]
      exact ⟨hnd, hvis, hjobs0⟩
    | cons job rest =>
      have hsipop : SI insts text ⟨caps, rest, visited⟩ :=
        ⟨hnd, hvis, fun j hj => hjobs0 j (List.mem_cons_of_mem _ hj)⟩
      cases job with
      | Inst pc a =>
        obtain ⟨hpc, ha⟩ := hjobs0 (Job.Inst pc a) (List.mem_cons_self _ _)
        rw [show btLoop insts fold isw text sf (Nat.succ lf)
            ⟨caps, Job.Inst pc a :: rest, visited⟩ =
            (match btStep insts fold isw text sf pc a
                ⟨caps, rest, visited⟩ with
             | none => none
             | some (true, st') => some (true, st')
             | some (false, st') => btLoop insts fold isw text sf lf st')
            from rfl] at h
        cases hbs : btStep insts fold isw text sf pc a
            ⟨caps, rest, visited⟩ with
        | none => rw [hbs] at h; cases h
        | some p =>
          obtain ⟨b1, st1⟩ := p
          rw [hbs] at h
          have hprops := btStep_props insts fold isw text hwf hv sf pc a
            ⟨caps, rest, visited⟩ b1 st1 hsipop hpc ha hbs
          cases b1 with
          | true =>
            dsimp only at h
            simp only [Option.some.injEq, Prod.mk.injEq] at h
            rw [← h.2]
            exact hprops.1
          | false =>
            dsimp only at h
            exact ih st1 b st' hprops.1 h
      | SaveRestore slot old =>
        rw [show btLoop insts fold isw text sf (Nat.succ lf)
            ⟨caps, Job.SaveRestore slot old :: rest, visited⟩ =
            btLoop insts fold isw text sf lf
              ⟨caps.set slot old, rest, visited⟩ from rfl] at h
        exact ih ⟨caps.set slot old, rest, visited⟩ b st'
          ⟨hnd, hvis, fun j hj => hjobs0 j (List.mem_cons_of_mem _ hj)⟩ h
      | SplitNext pc a =>
        obtain ⟨hpc, ha⟩ := hjobs0 (Job.SplitNext pc a)
          (List.mem_cons_self _ _)
        rw [show btLoop insts fold isw text sf (Nat.succ lf)
            ⟨caps, Job.SplitNext pc a :: rest, visited⟩ =
            btLoop insts fold isw text sf lf
              (btPush ⟨caps, rest, visited⟩ pc a) from rfl] at h
        unfold btPush at h
        cases hv2 : hasVisited ⟨caps, rest, visited⟩ pc a with
        | mk vis2 st2 =>
          rw [hv2] at h
          cases vis2 with
          | true =>
            have hst2 := (hasVisited_true_parts hv2).1
            dsimp only at h
            rw [hst2] at h
            exact ih ⟨caps, rest, visited⟩ b st' hsipop h
          | false =>
            dsimp only at h
            have hf := hasVisited_false_props hsipop hpc ha.2 hv2
            obtain ⟨⟨hnd2, hvis2b, hjobs2b⟩, _, _, _⟩ := hf
            refine ih { st2 with jobs := Job.Inst pc a :: st2.jobs } b st'
              ⟨hnd2, hvis2b, ?_⟩ h
            intro j hj
            rcases List.mem_cons.mp hj with rfl | hj
            · exact ⟨hpc, ha⟩
            · exact hjobs2b j hj

theorem btBacktrack_si (insts : List Inst) (fold : Nat → Nat)
    (isw : Nat → Bool) (text : List Nat) (hwf : WfProg insts)
    (hv : ValidText text) (sf lf : Nat) (a : InputAt) (st : BtState)
    (b : Bool) (st' : BtState) (hsi : SI insts text st) (ha : AtOk text a)
    (h : btBacktrack insts fold isw text sf lf a st = some (b, st')) :
    SI insts text st' := by
  unfold btBacktrack at h
  refine btLoop_si insts fold isw text hwf hv sf lf _ b st' ?_ h
  unfold btPush
  cases hv2 : hasVisited st 0 a with
  | mk vis2 st2 =>
    cases vis2 with
    | true => rw [(hasVisited_true_parts hv2).1]; exact hsi
    | false =>
      have hf := hasVisited_false_props hsi hwf.1 ha.2 hv2
      obtain ⟨⟨hnd2, hvis2b, hjobs2b⟩, _, _, _⟩ := hf
      refine ⟨hnd2, hvis2b, ?_⟩
      intro j hj
      rcases List.mem_cons.mp hj with rfl | hj
      · exact ⟨hwf.1, ha⟩
      · exact hjobs2b j hj

theorem btExecLoop_true_nm (prog : Program) (fold : Nat → Nat)
    (isw : Nat → Bool) (text : List Nat) (hwf : WfProg prog.insts)
    (hv : ValidText text)
    (hnd : ∀ nd ∈ prog.prefixes, ValidNeedle nd) (sf lf : Nat) :
    ∀ (ef : Nat) (a : InputAt) (st st' : BtState), SI prog.insts text st →
      st.jobs = [] → AtOk text a →
      btExecLoop prog fold isw text sf lf ef a st = some (true, st') →
      ∃ m, isBoundary text m = true ∧
        NM prog.insts fold isw text 0 m := by
  intro ef
  induction ef with
  | zero => intro a st st' _ _ _ h; cases h
  | succ ef ih =>
    intro a st st' hsi hje ha h
    rw [show btExecLoop prog fold isw text sf lf (Nat.succ ef) a st =
        (match prefixAt text prog.prefixes a with
         | none => some (false, st)
         | some a' =>
           match btBacktrack prog.insts fold isw text sf lf a' st with
           | none => none
           | some (true, st') => some (true, st')
           | some (false, st') =>
             if a'.isEnd then some (false, st')
             else btExecLoop prog fold isw text sf lf ef
               (inputAt text a'.nextPos) st') from rfl] at h
    cases hpf : prefixAt text prog.prefixes a with
    | none =>
      rw [hpf] at h
      simp only [Option.some.injEq, Prod.mk.injEq] at h
      cases h.1
    | some a' =>
      rw [hpf] at h
      dsimp only at h
      obtain ⟨ha', hmono⟩ := prefixAt_atOk hv hnd ha hpf
      cases hbt : btBacktrack prog.insts fold isw text sf lf a' st with
      | none => rw [hbt] at h; cases h
      | some p =>
        obtain ⟨b1, st1⟩ := p
        rw [hbt] at h
        cases b1 with
        | true =>
          have hnm := btBacktrack_true_nm prog.insts fold isw text hwf hv
            sf lf a' st st1 hsi hje ha' hbt
          exact ⟨a'.pos, ha'.2, hnm⟩
        | false =>
          dsimp only at h
          split_ifs at h with hend
          · simp only [Option.some.injEq, Prod.mk.injEq] at h
            cases h.1
          · have hsi1 := btBacktrack_si prog.insts fold isw text hwf hv sf
              lf a' st false st1 hsi ha' hbt
            have hje1 := (btBacktrack_false prog.insts fold isw text sf lf
              a' st st1 hbt).1
            exact ih (inputAt text a'.nextPos) st1 st' hsi1 hje1
              (atOk_next hv ha').1 h

theorem btExecLoop_false_nm (prog : Program) (fold : Nat → Nat)
    (isw : Nat → Bool) (text : List Nat) (hwf : WfProg prog.insts)
    (hv : ValidText text)
    (hnd : ∀ nd ∈ prog.prefixes, ValidNeedle nd)
    (hsound : prog.prefixes ≠ [] → ∀ m, isBoundary text m = true →
      NM prog.insts fold isw text 0 m → PrefOcc text prog.prefixes m)
    (sf lf : Nat) :
    ∀ (ef : Nat) (a : InputAt) (st st' : BtState), SI prog.insts text st →
      st.jobs = [] → AtOk text a →
      BtClosed prog.insts fold isw text st →
      btExecLoop prog fold isw text sf lf ef a st = some (false, st') →
      ∀ m, a.pos ≤ m → isBoundary text m = true →
        ¬ NM prog.insts fold isw text 0 m := by
  intro ef
  induction ef with
  | zero => intro a st st' _ _ _ _ h; cases h
  | succ ef ih =>
    intro a st st' hsi hje ha hcl h
    rw [show btExecLoop prog fold isw text sf lf (Nat.succ ef) a st =
        (match prefixAt text prog.prefixes a with
         | none => some (false, st)
         | some a' =>
           match btBacktrack prog.insts fold isw text sf lf a' st with
           | none => none
           | some (true, st') => some (true, st')
           | some (false, st') =>
             if a'.isEnd then some (false, st')
             else btExecLoop prog fold isw text sf lf ef
               (inputAt text a'.nextPos) st') from rfl] at h
    cases hpf : prefixAt text prog.prefixes a with
    | none =>
      intro m hm hb hnm
      have hpe : prog.prefixes ≠ [] := by
        intro hcon
        rw [hcon] at hpf
        cases hpf
      exact prefixAt_none_noocc hnd hpf m hm (hsound hpe m hb hnm)
    | some a' =>
      rw [hpf] at h
      dsimp only at h
      obtain ⟨ha', hmono⟩ := prefixAt_atOk hv hnd ha hpf
      have hskip : ∀ m, a.pos ≤ m → m < a'.pos →
          isBoundary text m = true →
          ¬ NM prog.insts fold isw text 0 m := by
        intro m hm hm2 hb hnm
        have hpe : prog.prefixes ≠ [] := by
          intro hcon
          rw [hcon] at hpf
          simp only [prefixAt, Option.some.injEq] at hpf
          rw [← hpf] at hm2
          omega
        exact prefixAt_min_noocc hnd hpf m hm hm2 (hsound hpe m hb hnm)
      cases hbt : btBacktrack prog.insts fold isw text sf lf a' st with
      | none => rw [hbt] at h; cases h
      | some p =>
        obtain ⟨b1, st1⟩ := p
        rw [hbt] at h
        cases b1 with
        | true =>
          dsimp only at h
          simp only [Option.some.injEq, Prod.mk.injEq] at h
          cases h.1
        | false =>
          dsimp only at h
          obtain ⟨hcl1, hroot1, hvm1⟩ := btBacktrack_closed prog.insts fold
            isw text hwf hv sf lf a' st st1 hsi ha' hcl hbt
          have hje1 := (btBacktrack_false prog.insts fold isw text sf lf
            a' st st1 hbt).1
          have hsi1 := btBacktrack_si prog.insts fold isw text hwf hv sf
            lf a' st false st1 hsi ha' hbt
          have hroot_refute : ¬ NM prog.insts fold isw text 0 a'.pos :=
            fun hnm => btClosed_refute prog.insts fold isw text hje1 hcl1
              0 a'.pos hnm hroot1
          split_ifs at h with hend
          · intro m hm hb hnm
            rcases Nat.lt_or_ge m a'.pos with hlt | hge
            · exact hskip m hm hlt hb hnm
            · rcases Nat.eq_or_lt_of_le hge with heq | hgt
              · rw [heq] at hroot_refute
                exact hroot_refute hnm
              · have hend2 : charIsNone (inputAt text a'.pos).c = true := by
                  have := congrArg InputAt.c ha'.1
                  rw [← this]
                  exact hend
                have hge2 : byteLen text ≤ a'.pos := by
                  by_contra hcon
                  push_neg at hcon
                  rw [charIsNone_of_scalar
                    (inputAt_c_real_of_lt hv ha'.2 hcon)] at hend2
                  cases hend2
                have := isBoundary_le text m hb
                omega
          · intro m hm hb hnm
            rcases Nat.lt_or_ge m a'.pos with hlt | hge
            · exact hskip m hm hlt hb hnm
            · rcases Nat.eq_or_lt_of_le hge with heq | hgt
              · rw [heq] at hroot_refute
                exact hroot_refute hnm
              · have hnext : (inputAt text a'.nextPos).pos ≤ m := by
                  show a'.nextPos ≤ m
                  rw [atOk_nextPos ha']
                  exact isBoundary_gap text a'.pos m ha'.2 hb hgt
                exact ih (inputAt text a'.nextPos) st1 st' hsi1 hje1
                  (atOk_next hv ha').1 hcl1 h m hnext hb hnm

/-- The sparse/dense set invariant with the insertion history quantified
away (the form convenient for the NFA closure proofs). -/
def TInvE (n : Nat) (t : Threads) : Prop := ∃ added, ThreadsInv n added t

theorem tinvE_size_le {n : Nat} {t : Threads} (h : TInvE n t) :
    t.size ≤ n := by
  obtain ⟨added, hq, hsp, hsz, hnd, hlt, _, _⟩ := h
  rw [hsz]
  exact nodup_all_lt_length_le hnd hlt

theorem tinvE_contains_lt {n : Nat} {t : Threads} (h : TInvE n t)
    {pc : Nat} (hc : t.contains pc = true) : pc < n := by
  obtain ⟨added, _, _, _, _, hlt, _, hct⟩ := h
  exact hlt pc ((hct pc).mp hc)

theorem tinvE_empty {n : Nat} {t : Threads} (h : TInvE n t) :
    TInvE n t.empty := by
  obtain ⟨added, hinv⟩ := h
  exact ⟨[], threadsInv_empty hinv⟩

theorem contains_empty {n : Nat} {t : Threads} (h : TInvE n t) (pc : Nat) :
    t.empty.contains pc = false := by
  obtain ⟨added, hinv⟩ := h
  have := (threadsInv_empty hinv).2.2.2.2.2.2 pc
  rw [Bool.eq_false_iff]
  intro hc
  exact absurd ((this).mp hc) (List.not_mem_nil pc)

theorem tinvE_add {n : Nat} {t : Threads} {pc : Nat} (h : TInvE n t)
    (hpc : pc < n) (hnc : t.contains pc = false) :
    TInvE n (t.add pc).1 ∧ (t.add pc).1.contains pc = true ∧
    (∀ q, t.contains q = true → (t.add pc).1.contains q = true) ∧
    (∀ q, (t.add pc).1.contains q = true → q = pc ∨
      t.contains q = true) ∧
    (t.add pc).1.size = t.size + 1 := by
  obtain ⟨added, hinv⟩ := h
  have hadd := threadsInv_add hinv hpc hnc
  have hct := hadd.2.2.2.2.2.2
  refine ⟨⟨added ++ [pc], hadd⟩, ?_, ?_, ?_, rfl⟩
  · exact (hct pc).mpr (by simp)
  · intro q hq
    refine (hct q).mpr ?_
    rw [List.mem_append]
    exact Or.inl ((hinv.2.2.2.2.2.2 q).mp hq)
  · intro q hq
    have := (hct q).mp hq
    rw [List.mem_append, List.mem_singleton] at this
    rcases this with hm | hm
    · exact Or.inr ((hinv.2.2.2.2.2.2 q).mpr hm)
    · exact Or.inl hm

theorem queue_set_pc_getD (l : List Thread) (i j : Nat) (ent : Thread)
    (hpc : ent.pc = (l.getD i ⟨0, []⟩).pc) :
    ((l.set i ent).getD j ⟨0, []⟩).pc = (l.getD j ⟨0, []⟩).pc := by
  by_cases hij : i = j
  · subst hij
    rcases Nat.lt_or_ge i l.length with hlt | hge
    · rw [getD_set_self _ _ _ _ hlt, hpc]
    · rw [List.set_eq_of_length_le hge]
  · rw [getD_set_ne _ _ _ _ _ (fun hcon => hij hcon.symm)]

theorem setGroups_pcAt (t : Threads) (i : Nat) (cp : List (Option Nat))
    (j : Nat) : (t.setGroups i cp).pcAt j = t.pcAt j := by
  show ((t.queue.set i _).getD j ⟨0, []⟩).pc = (t.queue.getD j ⟨0, []⟩).pc
  exact queue_set_pc_getD _ _ _ _ rfl

theorem setGroups_contains (t : Threads) (i : Nat) (cp : List (Option Nat))
    (q : Nat) : (t.setGroups i cp).contains q = t.contains q := by
  show (decide (t.sparse.getD q 0 < t.size) &&
      (((t.queue.set i _).getD (t.sparse.getD q 0) ⟨0, []⟩).pc == q)) = _
  rw [queue_set_pc_getD t.queue i (t.sparse.getD q 0)
    { pc := (t.queue.getD i ⟨0, []⟩).pc, caps := cp } rfl]
  rfl

theorem setGroups_size (t : Threads) (i : Nat) (cp : List (Option Nat)) :
    (t.setGroups i cp).size = t.size := rfl

theorem tinvE_setGroups {n : Nat} {t : Threads} (h : TInvE n t) (i : Nat)
    (cp : List (Option Nat)) : TInvE n (t.setGroups i cp) := by
  obtain ⟨added, hq, hsp, hsz, hnd, hlt, hpcd, hct⟩ := h
  refine ⟨added, ?_, hsp, hsz, hnd, hlt, ?_, ?_⟩
  · show (t.queue.set i _).length = n
    rw [List.length_set]
    exact hq
  · intro j hj
    rw [setGroups_pcAt]
    exact hpcd j hj
  · intro pc
    rw [setGroups_contains]
    exact hct pc

theorem tinvE_pcAt_contains {n : Nat} {t : Threads} (h : TInvE n t)
    {i : Nat} (hi : i < t.size) : t.contains (t.pcAt i) = true := by
  obtain ⟨added, hq, hsp, hsz, hnd, hlt, hpcd, hct⟩ := h
  rw [hsz] at hi
  rw [hpcd i hi]
  refine (hct _).mpr ?_
  rw [List.getD_eq_getElem _ _ hi]
  exact List.getElem_mem hi

theorem tinvE_contains_index {n : Nat} {t : Threads} (h : TInvE n t)
    {pc : Nat} (hc : t.contains pc = true) :
    ∃ i, i < t.size ∧ t.pcAt i = pc := by
  obtain ⟨added, hq, hsp, hsz, hnd, hlt, hpcd, hct⟩ := h
  have hmem := (hct pc).mp hc
  obtain ⟨i, hi, hgi⟩ := List.mem_iff_getElem.mp hmem
  refine ⟨i, by omega, ?_⟩
  rw [hpcd i hi, List.getD_eq_getElem _ _ hi]
  exact hgi

/-- Epsilon-closedness of a thread set up to a pending predicate `P`:
every epsilon successor of a member is a member or pending. -/
def EpsClosedP (insts : List Inst) (isw : Nat → Bool) (text : List Nat)
    (qp : Nat) (t : Threads) (P : Nat → Prop) : Prop :=
  ∀ u v, t.contains u = true → EpsStepAt insts isw text qp u v →
    t.contains v = true ∨ P v

theorem nfaAdd_main (insts : List Inst) (isw : Nat → Bool) (text : List Nat)
    (qp savePos : Nat) (hwf : WfProg insts) :
    ∀ (fuel : Nat) (nlist : Threads) (pc : Nat) (tcaps : List (Option Nat))
      (nl' : Threads) (tc' : List (Option Nat)),
      TInvE insts.length nlist → pc < insts.length →
      nfaAdd insts isw (previousAt text qp).c (inputAt text qp).c savePos
        fuel nlist pc tcaps = some (nl', tc') →
      TInvE insts.length nl' ∧ nl'.contains pc = true ∧
      (∀ q, nlist.contains q = true → nl'.contains q = true) ∧
      nlist.size ≤ nl'.size ∧
      (∀ q, nl'.contains q = true → nlist.contains q = true ∨
        EpsReachAt insts isw text qp pc q) ∧
      (∀ P : Nat → Prop,
        EpsClosedP insts isw text qp nlist (fun v => P v ∨ v = pc) →
        EpsClosedP insts isw text qp nl' P) := by
  intro fuel
  induction fuel with
  | zero => intro nlist pc tcaps nl' tc' _ _ h; cases h
  | succ fuel ih =>
    intro nlist pc tcaps nl' tc' hTI hpc h
    simp only [nfaAdd] at h
    split_ifs at h with hcont
    · simp only [Option.some.injEq, Prod.mk.injEq] at h
      obtain ⟨h1, h2⟩ := h
      subst h1
      refine ⟨hTI, hcont, fun q hq => hq, le_rfl, fun q hq => Or.inl hq, ?_⟩
      intro P hp u v hu he
      rcases hp u v hu he with hc | hc | hc
      · exact Or.inl hc
      · exact Or.inr hc
      · subst hc
        exact Or.inl hcont
    · rw [Bool.not_eq_true] at hcont
      have hadd := tinvE_add hTI hpc hcont
      obtain ⟨hTI1, hc1, hmono1, hsub1, hsz1⟩ := hadd
      cases hinst : instAt insts pc with
      | EmptyLook l =>
        rw [hinst] at h
        dsimp only at h
        have hpc1 : pc + 1 < insts.length :=
          instAt_ne_match_succ_lt hwf hpc (by rw [hinst]; nofun)
        split_ifs at h with hl
        · obtain ⟨hTI', hcpc1, hmono', hsz', horig', hcl'⟩ :=
            ih _ _ _ nl' tc' hTI1 hpc1 h
          have hstep : EpsStepAt insts isw text qp pc (pc + 1) :=
            EpsStepAt.look hinst hl
          refine ⟨hTI', hmono' _ hc1, fun q hq => hmono' q (hmono1 q hq),
            by rw [hsz1] at hsz'; omega, ?_, ?_⟩
          · intro q hq
            rcases horig' q hq with hq2 | hq2
            · rcases hsub1 q hq2 with rfl | hq3
              · exact Or.inr (EpsReachAt.refl q)
              · exact Or.inl hq3
            · exact Or.inr (EpsReachAt.head hstep hq2)
          · intro P hp
            refine hcl' P ?_
            intro u v hu he
            rcases hsub1 u hu with rfl | hu2
            · cases he with
              | save hi => rw [hinst] at hi; cases hi
              | jump hi => rw [hinst] at hi; cases hi
              | splitl hi => rw [hinst] at hi; cases hi
              | splitr hi => rw [hinst] at hi; cases hi
              | look hi hm => exact Or.inr (Or.inr rfl)
            · rcases hp u v hu2 he with hc | hc | hc
              · exact Or.inl (hmono1 v hc)
              · exact Or.inr (Or.inl hc)
              · subst hc
                exact Or.inl hc1
        · simp only [Option.some.injEq, Prod.mk.injEq] at h
          obtain ⟨h1, h2⟩ := h
          subst h1
          refine ⟨hTI1, hc1, hmono1, by omega, ?_, ?_⟩
          · intro q hq
            rcases hsub1 q hq with rfl | hq2
            · exact Or.inr (EpsReachAt.refl q)
            · exact Or.inl hq2
          · intro P hp u v hu he
            rcases hsub1 u hu with rfl | hu2
            · cases he with
              | save hi => rw [hinst] at hi; cases hi
              | jump hi => rw [hinst] at hi; cases hi
              | splitl hi => rw [hinst] at hi; cases hi
              | splitr hi => rw [hinst] at hi; cases hi
              | look hi hm =>
                exfalso
                rw [hinst] at hi
                injection hi with hle
                subst hle
                exact hl hm
            · rcases hp u v hu2 he with hc | hc | hc
              · exact Or.inl (hmono1 v hc)
              · exact Or.inr hc
              · subst hc
                exact Or.inl hc1
      | Save slot =>
        rw [hinst] at h
        dsimp only at h
        have hpc1 : pc + 1 < insts.length :=
          instAt_ne_match_succ_lt hwf hpc (by rw [hinst]; nofun)
        have hstep : EpsStepAt insts isw text qp pc (pc + 1) :=
          EpsStepAt.save hinst
        have hfin : ∀ (tc0 : List (Option Nat)) (nl2 : Threads)
            (tc2 : List (Option Nat)),
            nfaAdd insts isw (previousAt text qp).c (inputAt text qp).c
              savePos fuel (nlist.add pc).1 (pc + 1) tc0 =
              some (nl2, tc2) →
            TInvE insts.length nl2 ∧ nl2.contains pc = true ∧
            (∀ q, nlist.contains q = true → nl2.contains q = true) ∧
            nlist.size ≤ nl2.size ∧
            (∀ q, nl2.contains q = true → nlist.contains q = true ∨
              EpsReachAt insts isw text qp pc q) ∧
            (∀ P : Nat → Prop,
              EpsClosedP insts isw text qp nlist (fun v => P v ∨ v = pc) →
              EpsClosedP insts isw text qp nl2 P) := by
          intro tc0 nl2 tc2 hrec
          obtain ⟨hTI', hcpc1, hmono', hsz', horig', hcl'⟩ :=
            ih _ _ _ nl2 tc2 hTI1 hpc1 hrec
          refine ⟨hTI', hmono' _ hc1, fun q hq => hmono' q (hmono1 q hq),
            by rw [hsz1] at hsz'; omega, ?_, ?_⟩
          · intro q hq
            rcases horig' q hq with hq2 | hq2
            · rcases hsub1 q hq2 with rfl | hq3
              · exact Or.inr (EpsReachAt.refl q)
              · exact Or.inl hq3
            · exact Or.inr (EpsReachAt.head hstep hq2)
          · intro P hp
            refine hcl' P ?_
            intro u v hu he
            rcases hsub1 u hu with rfl | hu2
            · cases he with
              | save hi =>
                right
                right
                rfl
              | jump hi => rw [hinst] at hi; cases hi
              | splitl hi => rw [hinst] at hi; cases hi
              | splitr hi => rw [hinst] at hi; cases hi
              | look hi hm => rw [hinst] at hi; cases hi
            · rcases hp u v hu2 he with hc | hc | hc
              · exact Or.inl (hmono1 v hc)
              · exact Or.inr (Or.inl hc)
              · subst hc
                exact Or.inl hc1
        split_ifs at h with hslot
        · exact hfin tcaps nl' tc' h
        · cases hrec : nfaAdd insts isw (previousAt text qp).c
              (inputAt text qp).c savePos fuel (nlist.add pc).1 (pc + 1)
              (tcaps.set slot (some savePos)) with
          | none => rw [hrec] at h; cases h
          | some q2 =>
            rw [hrec] at h
            simp only [Option.some.injEq, Prod.mk.injEq] at h
            obtain ⟨h1, h2⟩ := h
            subst h1
            exact hfin _ q2.1 q2.2 (by rw [hrec])
      | Jump pc2 =>
        rw [hinst] at h
        dsimp only at h
        have htgt := hwf.2.2 pc hpc
        rw [hinst] at htgt
        have hstep : EpsStepAt insts isw text qp pc pc2 :=
          EpsStepAt.jump hinst
        obtain ⟨hTI', hcpc1, hmono', hsz', horig', hcl'⟩ :=
          ih _ _ _ nl' tc' hTI1 htgt h
        refine ⟨hTI', hmono' _ hc1, fun q hq => hmono' q (hmono1 q hq),
          by rw [hsz1] at hsz'; omega, ?_, ?_⟩
        · intro q hq
          rcases horig' q hq with hq2 | hq2
          · rcases hsub1 q hq2 with rfl | hq3
            · exact Or.inr (EpsReachAt.refl q)
            · exact Or.inl hq3
          · exact Or.inr (EpsReachAt.head hstep hq2)
        · intro P hp
          refine hcl' P ?_
          intro u v hu he
          rcases hsub1 u hu with rfl | hu2
          · cases he with
            | save hi => rw [hinst] at hi; cases hi
            | jump hi =>
              right
              right
              rw [hinst] at hi
              injection hi with h2
              exact h2.symm
            | splitl hi => rw [hinst] at hi; cases hi
            | splitr hi => rw [hinst] at hi; cases hi
            | look hi hm => rw [hinst] at hi; cases hi
          · rcases hp u v hu2 he with hc | hc | hc
            · exact Or.inl (hmono1 v hc)
            · exact Or.inr (Or.inl hc)
            · subst hc
              exact Or.inl hc1
      | Split x y =>
        rw [hinst] at h
        dsimp only at h
        have htgt := hwf.2.2 pc hpc
        rw [hinst] at htgt
        have hstepx : EpsStepAt insts isw text qp pc x :=
          EpsStepAt.splitl hinst
        have hstepy : EpsStepAt insts isw text qp pc y :=
          EpsStepAt.splitr hinst
        cases hr1 : nfaAdd insts isw (previousAt text qp).c
            (inputAt text qp).c savePos fuel (nlist.add pc).1 x tcaps with
        | none => rw [hr1] at h; cases h
        | some q1 =>
          rw [hr1] at h
          obtain ⟨hTIa, hcxa, hmonoa, hsza, horiga, hcla⟩ :=
            ih _ _ _ q1.1 q1.2 hTI1 htgt.1 hr1
          obtain ⟨hTIb, hcyb, hmonob, hszb, horigb, hclb⟩ :=
            ih _ _ _ nl' tc' hTIa htgt.2 h
          refine ⟨hTIb, hmonob _ (hmonoa _ hc1),
            fun q hq => hmonob q (hmonoa q (hmono1 q hq)),
            by rw [hsz1] at hsza; omega, ?_, ?_⟩
          · intro q hq
            rcases horigb q hq with hq2 | hq2
            · rcases horiga q hq2 with hq3 | hq3
              · rcases hsub1 q hq3 with rfl | hq4
                · exact Or.inr (EpsReachAt.refl q)
                · exact Or.inl hq4
              · exact Or.inr (EpsReachAt.head hstepx hq3)
            · exact Or.inr (EpsReachAt.head hstepy hq2)
          · intro P hp
            refine hclb P ?_
            refine hcla (fun v => P v ∨ v = y) ?_
            intro u v hu he
            rcases hsub1 u hu with rfl | hu2
            · cases he with
              | save hi => rw [hinst] at hi; cases hi
              | jump hi => rw [hinst] at hi; cases hi
              | splitl hi =>
                right
                right
                rw [hinst] at hi
                injection hi with h1 h2
                exact h1.symm
              | splitr hi =>
                right
                left
                right
                rw [hinst] at hi
                injection hi with h1 h2
                exact h2.symm
              | look hi hm => rw [hinst] at hi; cases hi
            · rcases hp u v hu2 he with hc | hc | hc
              · exact Or.inl (hmono1 v hc)
              · exact Or.inr (Or.inl (Or.inl hc))
              · subst hc
                exact Or.inl hc1
      | Match =>
        rw [hinst] at h
        dsimp only at h
        simp only [Option.some.injEq, Prod.mk.injEq] at h
        obtain ⟨h1, h2⟩ := h
        subst h1
        refine ⟨tinvE_setGroups hTI1 _ _, ?_, ?_, ?_, ?_, ?_⟩
        · rw [setGroups_contains]
          exact hc1
        · intro q hq
          rw [setGroups_contains]
          exact hmono1 q hq
        · rw [setGroups_size]
          omega
        · intro q hq
          rw [setGroups_contains] at hq
          rcases hsub1 q hq with rfl | hq2
          · exact Or.inr (EpsReachAt.refl q)
          · exact Or.inl hq2
        · intro P hp u v hu he
          rw [setGroups_contains] at hu
          rcases hsub1 u hu with rfl | hu2
          · exfalso
            cases he with
            | save hi => rw [hinst] at hi; cases hi
            | jump hi => rw [hinst] at hi; cases hi
            | splitl hi => rw [hinst] at hi; cases hi
            | splitr hi => rw [hinst] at hi; cases hi
            | look hi hm => rw [hinst] at hi; cases hi
          · rcases hp u v hu2 he with hc | hc | hc
            · left
              rw [setGroups_contains]
              exact hmono1 v hc
            · exact Or.inr hc
            · subst hc
              left
              rw [setGroups_contains]
              exact hc1
      | Char oc =>
        rw [hinst] at h
        dsimp only at h
        simp only [Option.some.injEq, Prod.mk.injEq] at h
        obtain ⟨h1, h2⟩ := h
        subst h1
        refine ⟨tinvE_setGroups hTI1 _ _, ?_, ?_, ?_, ?_, ?_⟩
        · rw [setGroups_contains]
          exact hc1
        · intro q hq
          rw [setGroups_contains]
          exact hmono1 q hq
        · rw [setGroups_size]
          omega
        · intro q hq
          rw [setGroups_contains] at hq
          rcases hsub1 q hq with rfl | hq2
          · exact Or.inr (EpsReachAt.refl q)
          · exact Or.inl hq2
        · intro P hp u v hu he
          rw [setGroups_contains] at hu
          rcases hsub1 u hu with rfl | hu2
          · exfalso
            cases he with
            | save hi => rw [hinst] at hi; cases hi
            | jump hi => rw [hinst] at hi; cases hi
            | splitl hi => rw [hinst] at hi; cases hi
            | splitr hi => rw [hinst] at hi; cases hi
            | look hi hm => rw [hinst] at hi; cases hi
          · rcases hp u v hu2 he with hc | hc | hc
            · left
              rw [setGroups_contains]
              exact hmono1 v hc
            · exact Or.inr hc
            · subst hc
              left
              rw [setGroups_contains]
              exact hc1
      | Ranges cr =>
        rw [hinst] at h
        dsimp only at h
        simp only [Option.some.injEq, Prod.mk.injEq] at h
        obtain ⟨h1, h2⟩ := h
        subst h1
        refine ⟨tinvE_setGroups hTI1 _ _, ?_, ?_, ?_, ?_, ?_⟩
        · rw [setGroups_contains]
          exact hc1
        · intro q hq
          rw [setGroups_contains]
          exact hmono1 q hq
        · rw [setGroups_size]
          omega
        · intro q hq
          rw [setGroups_contains] at hq
          rcases hsub1 q hq with rfl | hq2
          · exact Or.inr (EpsReachAt.refl q)
          · exact Or.inl hq2
        · intro P hp u v hu he
          rw [setGroups_contains] at hu
          rcases hsub1 u hu with rfl | hu2
          · exfalso
            cases he with
            | save hi => rw [hinst] at hi; cases hi
            | jump hi => rw [hinst] at hi; cases hi
            | splitl hi => rw [hinst] at hi; cases hi
            | splitr hi => rw [hinst] at hi; cases hi
            | look hi hm => rw [hinst] at hi; cases hi
          · rcases hp u v hu2 he with hc | hc | hc
            · left
              rw [setGroups_contains]
              exact hmono1 v hc
            · exact Or.inr hc
            · subst hc
              left
              rw [setGroups_contains]
              exact hc1

theorem nfaAdd_total (insts : List Inst) (isw : Nat → Bool)
    (text : List Nat) (qp savePos : Nat) (hwf : WfProg insts) :
    ∀ (fuel : Nat) (nlist : Threads) (pc : Nat) (tcaps : List (Option Nat)),
      TInvE insts.length nlist → pc < insts.length →
      insts.length + 1 ≤ fuel + nlist.size →
      ∃ nl' tc',
        nfaAdd insts isw (previousAt text qp).c (inputAt text qp).c savePos
          fuel nlist pc tcaps = some (nl', tc') := by
  intro fuel
  induction fuel with
  | zero =>
    intro nlist pc tcaps hTI _ hfuel
    have := tinvE_size_le hTI
    omega
  | succ fuel ih =>
    intro nlist pc tcaps hTI hpc hfuel
    simp only [nfaAdd]
    split_ifs with hcont
    · exact ⟨nlist, tcaps, rfl⟩
    · rw [Bool.not_eq_true] at hcont
      obtain ⟨hTI1, hc1, hmono1, hsub1, hsz1⟩ := tinvE_add hTI hpc hcont
      cases hinst : instAt insts pc with
      | EmptyLook l =>
        dsimp only
        have hpc1 : pc + 1 < insts.length :=
          instAt_ne_match_succ_lt hwf hpc (by rw [hinst]; nofun)
        split_ifs with hl
        · exact ih _ _ _ hTI1 hpc1 (by rw [hsz1]; omega)
        · exact ⟨_, _, rfl⟩
      | Save slot =>
        dsimp only
        have hpc1 : pc + 1 < insts.length :=
          instAt_ne_match_succ_lt hwf hpc (by rw [hinst]; nofun)
        split_ifs with hslot
        · exact ih _ _ _ hTI1 hpc1 (by rw [hsz1]; omega)
        · obtain ⟨nl2, tc2, hrec⟩ := ih (nlist.add pc).1 (pc + 1)
            (tcaps.set slot (some savePos)) hTI1 hpc1 (by rw [hsz1]; omega)
          rw [hrec]
          exact ⟨_, _, rfl⟩
      | Jump pc2 =>
        dsimp only
        have htgt := hwf.2.2 pc hpc
        rw [hinst] at htgt
        exact ih _ _ _ hTI1 htgt (by rw [hsz1]; omega)
      | Split x y =>
        dsimp only
        have htgt := hwf.2.2 pc hpc
        rw [hinst] at htgt
        obtain ⟨nl2, tc2, hr1⟩ := ih (nlist.add pc).1 x tcaps hTI1 htgt.1
          (by rw [hsz1]; omega)
        rw [hr1]
        obtain ⟨hTIa, _, _, hsza, _, _⟩ := nfaAdd_main insts isw text qp
          savePos hwf fuel (nlist.add pc).1 x tcaps nl2 tc2 hTI1 htgt.1 hr1
        exact ih nl2 y tc2 hTIa htgt.2 (by rw [hsz1] at hsza; omega)
      | Match => exact ⟨_, _, rfl⟩
      | Char oc => exact ⟨_, _, rfl⟩
      | Ranges cr => exact ⟨_, _, rfl⟩

theorem nfaAdd_nil_tcaps (insts : List Inst) (isw : Nat → Bool)
    (prevC curC savePos : Nat) :
    ∀ (fuel : Nat) (nlist : Threads) (pc : Nat) (nl' : Threads)
      (tc' : List (Option Nat)),
      nfaAdd insts isw prevC curC savePos fuel nlist pc [] =
        some (nl', tc') → tc' = [] := by
  intro fuel
  induction fuel with
  | zero => intro nlist pc nl' tc' h; cases h
  | succ fuel ih =>
    intro nlist pc nl' tc' h
    simp only [nfaAdd] at h
    split_ifs at h with hcont
    · simp only [Option.some.injEq, Prod.mk.injEq] at h
      exact h.2.symm
    · cases hinst : instAt insts pc <;> rw [hinst] at h <;> dsimp only at h
      · simp only [Option.some.injEq, Prod.mk.injEq] at h
        exact h.2.symm
      · rename_i slot
        split_ifs at h with hslot
        · exact ih _ _ _ _ h
        · exfalso
          show False
          simp at hslot
      · exact ih _ _ _ _ h
      · rename_i x y
        cases hr1 : nfaAdd insts isw prevC curC savePos fuel
            (nlist.add pc).1 x [] with
        | none => rw [hr1] at h; cases h
        | some q1 =>
          rw [hr1] at h
          have hq1 := ih _ _ _ _ hr1
          obtain ⟨q1a, q1b⟩ := q1
          dsimp only at h hq1
          subst hq1
          exact ih _ _ _ _ h
      · split_ifs at h with hl
        · exact ih _ _ _ _ h
        · simp only [Option.some.injEq, Prod.mk.injEq] at h
          exact h.2.symm
      · simp only [Option.some.injEq, Prod.mk.injEq] at h
        exact h.2.symm
      · simp only [Option.some.injEq, Prod.mk.injEq] at h
        exact h.2.symm

theorem nedge_cons_advance {insts : List Inst} {fold : Nat → Nat}
    {isw : Nat → Bool} {text : List Nat} {pc p pc' p' : Nat}
    (hpay : PayloadsOk insts) (hv : ValidText text)
    (hb : isBoundary text p = true)
    (h : NEdge insts fold isw text pc p pc' p') :
    p' = p ∨ (p < p' ∧ p' = (inputAt text p).nextPos ∧
      p < byteLen text) := by
  rcases nedge_cons_real hpay h with hp | ⟨hreal, hp⟩
  · exact Or.inl hp
  · right
    have hlt : p < byteLen text := inputAt_pos_lt_of_real hv hb hreal
    have hsc := inputAt_c_real_of_lt hv hb hlt
    have hlen := charLenUtf8_pos hsc
    refine ⟨?_, hp, hlt⟩
    rw [hp]
    show p < p + (inputAt text p).len
    have : (inputAt text p).len = charLenUtf8 (inputAt text p).c := rfl
    omega

theorem nfaStep_cases (insts : List Inst) (fold : Nat → Nat)
    (isw : Nat → Bool) (text : List Nat) (af p : Nat) (hwf : WfProg insts)
    (hv : ValidText text) (hb : isBoundary text p = true)
    (nlist : Threads) (tcaps : List (Option Nat)) (pc : Nat)
    (hTI : TInvE insts.length nlist) (hpc : pc < insts.length)
    (haf : insts.length + 1 ≤ af) (hpay : PayloadsOk insts) :
    (instAt insts pc = Inst.Match ∧
      nfaStep insts fold isw text af p [] nlist tcaps pc =
        some (NStep.MatchEarlyReturn, [], nlist, tcaps)) ∨
    (∃ nl' tc', p < byteLen text ∧ instAt insts pc ≠ Inst.Match ∧
      NEdge insts fold isw text pc p (pc + 1) ((inputAt text p).nextPos) ∧
      nfaAdd insts isw (previousAt text ((inputAt text p).nextPos)).c
        (inputAt text ((inputAt text p).nextPos)).c
        ((inputAt text p).nextPos) af nlist (pc + 1) tcaps =
        some (nl', tc') ∧
      nfaStep insts fold isw text af p [] nlist tcaps pc =
        some (NStep.Continue, [], nl', tc')) ∨
    (nfaStep insts fold isw text af p [] nlist tcaps pc =
        some (NStep.Continue, [], nlist, tcaps) ∧
      instAt insts pc ≠ Inst.Match ∧
      (∀ pc' p', NEdge insts fold isw text pc p pc' p' → p' = p)) := by
  unfold nfaStep
  cases hinst : instAt insts pc with
  | Match =>
    left
    refine ⟨rfl, ?_⟩
    dsimp only
    rfl
  | Char oc =>
    dsimp only
    by_cases hm : oc.matches fold (inputAt text p).c = true
    · right
      left
      have hedge : NEdge insts fold isw text pc p (pc + 1)
          ((inputAt text p).nextPos) := NEdge.char hinst hm
      have hreal : charIsNone (inputAt text p).c = false := by
        have hp := hpay pc
        rw [hinst] at hp
        exact oneChar_matches_real hp hm
      have hlt : p < byteLen text := inputAt_pos_lt_of_real hv hb hreal
      have hprev : previousAt text ((inputAt text p).nextPos) =
          inputAt text p := previousAt_nextPos hv hb hlt
      have hpc1 : pc + 1 < insts.length :=
        instAt_ne_match_succ_lt hwf hpc (by rw [hinst]; nofun)
      obtain ⟨nl', tc', hadd⟩ := nfaAdd_total insts isw text
        ((inputAt text p).nextPos) ((inputAt text p).nextPos) hwf af nlist
        (pc + 1) tcaps hTI hpc1 (by omega)
      refine ⟨nl', tc', hlt, by nofun, hedge, hadd, ?_⟩
      rw [if_pos hm]
      rw [hprev] at hadd
      rw [hadd]
    · right
      right
      rw [if_neg hm]
      refine ⟨rfl, by nofun, ?_⟩
      intro pc' p' he
      cases he with
      | save hi => rfl
      | jump hi => rfl
      | splitl hi => rfl
      | splitr hi => rfl
      | look hi _ => rfl
      | char hi hmm =>
        exfalso
        rw [hinst] at hi
        injection hi with hoc
        subst hoc
        exact hm hmm
      | ranges hi _ => rw [hinst] at hi; cases hi
  | Ranges cr =>
    dsimp only
    by_cases hm : (cr.matches fold (inputAt text p).c).isSome = true
    · right
      left
      have hedge : NEdge insts fold isw text pc p (pc + 1)
          ((inputAt text p).nextPos) := NEdge.ranges hinst hm
      have hreal : charIsNone (inputAt text p).c = false := by
        have hp := hpay pc
        rw [hinst] at hp
        exact charRanges_matches_real hp hm
      have hlt : p < byteLen text := inputAt_pos_lt_of_real hv hb hreal
      have hprev : previousAt text ((inputAt text p).nextPos) =
          inputAt text p := previousAt_nextPos hv hb hlt
      have hpc1 : pc + 1 < insts.length :=
        instAt_ne_match_succ_lt hwf hpc (by rw [hinst]; nofun)
      obtain ⟨nl', tc', hadd⟩ := nfaAdd_total insts isw text
        ((inputAt text p).nextPos) ((inputAt text p).nextPos) hwf af nlist
        (pc + 1) tcaps hTI hpc1 (by omega)
      refine ⟨nl', tc', hlt, by nofun, hedge, hadd, ?_⟩
      rw [if_pos hm]
      rw [hprev] at hadd
      rw [hadd]
    · right
      right
      rw [if_neg hm]
      refine ⟨rfl, by nofun, ?_⟩
      intro pc' p' he
      cases he with
      | save hi => rfl
      | jump hi => rfl
      | splitl hi => rfl
      | splitr hi => rfl
      | look hi _ => rfl
      | char hi _ => rw [hinst] at hi; cases hi
      | ranges hi hmm =>
        exfalso
        rw [hinst] at hi
        injection hi with hcr
        subst hcr
        exact hm hmm
  | Save slot =>
    right
    right
    refine ⟨rfl, by nofun, ?_⟩
    intro pc' p' he
    cases he with
    | save hi => rfl
    | jump hi => rfl
    | splitl hi => rfl
    | splitr hi => rfl
    | look hi _ => rfl
    | char hi _ => rw [hinst] at hi; cases hi
    | ranges hi _ => rw [hinst] at hi; cases hi
  | Jump pc2 =>
    right
    right
    refine ⟨rfl, by nofun, ?_⟩
    intro pc' p' he
    cases he with
    | save hi => rfl
    | jump hi => rfl
    | splitl hi => rfl
    | splitr hi => rfl
    | look hi _ => rfl
    | char hi _ => rw [hinst] at hi; cases hi
    | ranges hi _ => rw [hinst] at hi; cases hi
  | Split x y =>
    right
    right
    refine ⟨rfl, by nofun, ?_⟩
    intro pc' p' he
    cases he with
    | save hi => rfl
    | jump hi => rfl
    | splitl hi => rfl
    | splitr hi => rfl
    | look hi _ => rfl
    | char hi _ => rw [hinst] at hi; cases hi
    | ranges hi _ => rw [hinst] at hi; cases hi
  | EmptyLook l =>
    right
    right
    refine ⟨rfl, by nofun, ?_⟩
    intro pc' p' he
    cases he with
    | save hi => rfl
    | jump hi => rfl
    | splitl hi => rfl
    | splitr hi => rfl
    | look hi _ => rfl
    | char hi _ => rw [hinst] at hi; cases hi
    | ranges hi _ => rw [hinst] at hi; cases hi

theorem nfaStepAll_main (insts : List Inst) (fold : Nat → Nat)
    (isw : Nat → Bool) (text : List Nat) (af p : Nat) (hwf : WfProg insts)
    (hv : ValidText text) (hb : isBoundary text p = true)
    (hpay : PayloadsOk insts) (haf : insts.length + 1 ≤ af) :
    ∀ (k i : Nat) (clist nlist : Threads),
      TInvE insts.length clist → TInvE insts.length nlist →
      i + k = clist.size →
      ∃ er mh caps2 clist2 nlist2,
        nfaStepAll insts fold isw text af p k i [] clist nlist =
          some (er, mh, caps2, clist2, nlist2) ∧
        caps2 = [] ∧ mh = er ∧
        TInvE insts.length clist2 ∧
        TInvE insts.length nlist2 ∧
        (∀ q, nlist.contains q = true → nlist2.contains q = true) ∧
        (er = true → ∃ j, i ≤ j ∧ j < clist.size ∧
          instAt insts (clist.pcAt j) = Inst.Match) ∧
        (∀ j, i ≤ j → j < clist.size →
          instAt insts (clist.pcAt j) = Inst.Match → er = true) ∧
        (∀ j, i ≤ j → j < clist.size →
          ∀ pc' p', NEdge insts fold isw text (clist.pcAt j) p pc' p' →
            p' ≠ p → er = true ∨ nlist2.contains pc' = true) ∧
        (∀ q, nlist2.contains q = true → nlist.contains q = true ∨
          ∃ j, i ≤ j ∧ j < clist.size ∧ ∃ s,
            NEdge insts fold isw text (clist.pcAt j) p s
              ((inputAt text p).nextPos) ∧
            EpsReachAt insts isw text ((inputAt text p).nextPos) s q) ∧
        (EpsClosedP insts isw text ((inputAt text p).nextPos) nlist
            (fun _ => False) →
          EpsClosedP insts isw text ((inputAt text p).nextPos) nlist2
            (fun _ => False)) := by
  intro k
  induction k with
  | zero =>
    intro i clist nlist hTIc hTIn hik
    refine ⟨false, false, [], clist, nlist, rfl, rfl, rfl, hTIc, hTIn,
      fun q hq => hq, ?_, ?_, ?_, fun q hq => Or.inl hq,
      fun hcl => hcl⟩
    · intro h
      cases h
    · intro j hij hjs
      omega
    · intro j hij hjs hpc hp hedge
      omega
  | succ k ih =>
    intro i clist nlist hTIc hTIn hik
    have his : i < clist.size := by omega
    have hpci : clist.pcAt i < insts.length :=
      tinvE_contains_lt hTIc (tinvE_pcAt_contains hTIc his)
    rcases nfaStep_cases insts fold isw text af p hwf hv hb nlist
        (clist.groups i) (clist.pcAt i) hTIn hpci haf hpay with
      ⟨hmatch, heq⟩ | ⟨nl', tc', hplt, hnmB, hedge, hadd, heq⟩ |
      ⟨heq, hnm, hnoc⟩
    · refine ⟨true, true, [], clist.setGroups i (clist.groups i), nlist,
        ?_, rfl, rfl, tinvE_setGroups hTIc _ _, hTIn, fun q hq => hq,
        fun _ => ⟨i, le_rfl, his, hmatch⟩, fun _ _ _ _ => rfl,
        fun _ _ _ _ _ _ _ => Or.inl rfl, fun q hq => Or.inl hq,
        fun hcl => hcl⟩
      rw [show nfaStepAll insts fold isw text af p (Nat.succ k) i [] clist
          nlist =
          (match nfaStep insts fold isw text af p [] nlist
              (clist.groups i) (clist.pcAt i) with
           | none => none
           | some (NStep.MatchEarlyReturn, caps', nlist', tcaps') =>
             some (true, true, caps', clist.setGroups i tcaps', nlist')
           | some (NStep.Match, caps', nlist', tcaps') =>
             some (false, true, caps', clist.setGroups i tcaps', nlist')
           | some (NStep.Continue, caps', nlist', tcaps') =>
             nfaStepAll insts fold isw text af p k (i + 1) caps'
               (clist.setGroups i tcaps') nlist') from rfl]
      rw [heq]
    · have hTIn' : TInvE insts.length nl' := by
        have hpc1 : clist.pcAt i + 1 < insts.length :=
          nedge_tgt_lt hwf hedge
        exact (nfaAdd_main insts isw text ((inputAt text p).nextPos)
          ((inputAt text p).nextPos) hwf af nlist (clist.pcAt i + 1)
          (clist.groups i) nl' tc' hTIn hpc1 hadd).1
      have hmain := nfaAdd_main insts isw text ((inputAt text p).nextPos)
        ((inputAt text p).nextPos) hwf af nlist (clist.pcAt i + 1)
        (clist.groups i) nl' tc' hTIn (nedge_tgt_lt hwf hedge) hadd
      obtain ⟨_, hcpc1, hmono', _, horig', hcl'⟩ := hmain
      obtain ⟨er, mh, caps2, clist2, nlist2, heq2, hc2, hmh, hTIc2, hTIn2,
        hmono2, herj, hmatchj, hconsj, horig2, hcl2⟩ :=
        ih (i + 1) (clist.setGroups i tc') nl'
          (tinvE_setGroups hTIc _ _) hTIn' (by
            rw [setGroups_size]
            omega)
      refine ⟨er, mh, caps2, clist2, nlist2, ?_, hc2, hmh, hTIc2, hTIn2,
        fun q hq => hmono2 q (hmono' q hq), ?_, ?_, ?_, ?_, ?_⟩
      · rw [show nfaStepAll insts fold isw text af p (Nat.succ k) i []
            clist nlist =
            (match nfaStep insts fold isw text af p [] nlist
                (clist.groups i) (clist.pcAt i) with
             | none => none
             | some (NStep.MatchEarlyReturn, caps', nlist', tcaps') =>
               some (true, true, caps', clist.setGroups i tcaps', nlist')
             | some (NStep.Match, caps', nlist', tcaps') =>
               some (false, true, caps', clist.setGroups i tcaps', nlist')
             | some (NStep.Continue, caps', nlist', tcaps') =>
               nfaStepAll insts fold isw text af p k (i + 1) caps'
                 (clist.setGroups i tcaps') nlist') from rfl]
        rw [heq]
        exact heq2
      · intro her
        obtain ⟨j, hj1, hj2, hj3⟩ := herj her
        rw [setGroups_size] at hj2
        rw [setGroups_pcAt] at hj3
        exact ⟨j, by omega, hj2, hj3⟩
      · intro j hij hjs hm
        rcases Nat.eq_or_lt_of_le hij with rfl | hgt
        · exact absurd hm hnmB
        · refine hmatchj j (by omega) (by rw [setGroups_size]; omega) ?_
          rw [setGroups_pcAt]
          exact hm
      · intro j hij hjs pc' p' he hne
        rcases Nat.eq_or_lt_of_le hij with rfl | hgt
        · have hpc' : pc' = clist.pcAt i + 1 := by
            cases he with
            | save _ => exact absurd rfl hne
            | jump _ => exact absurd rfl hne
            | splitl _ => exact absurd rfl hne
            | splitr _ => exact absurd rfl hne
            | look _ _ => exact absurd rfl hne
            | char _ _ => rfl
            | ranges _ _ => rfl
          right
          rw [hpc']
          exact hmono2 _ hcpc1
        · have := hconsj j (by omega) (by rw [setGroups_size]; omega)
            pc' p' (by rw [setGroups_pcAt]; exact he) hne
          exact this
      · intro q hq
        rcases horig2 q hq with hq2 | ⟨j, hj1, hj2, s, hs1, hs2⟩
        · rcases horig' q hq2 with hq3 | hq3
          · exact Or.inl hq3
          · exact Or.inr ⟨i, le_rfl, his, clist.pcAt i + 1, hedge, hq3⟩
        · rw [setGroups_size] at hj2
          rw [setGroups_pcAt] at hs1
          exact Or.inr ⟨j, by omega, hj2, s, hs1, hs2⟩
      · intro hcl
        refine hcl2 ?_
        refine hcl' (fun _ => False) ?_
        intro u v hu he
        rcases hcl u v hu he with hc | hc
        · exact Or.inl hc
        · cases hc
    · obtain ⟨er, mh, caps2, clist2, nlist2, heq2, hc2, hmh, hTIc2, hTIn2,
        hmono2, herj, hmatchj, hconsj, horig2, hcl2⟩ :=
        ih (i + 1) (clist.setGroups i (clist.groups i)) nlist
          (tinvE_setGroups hTIc _ _) hTIn (by
            rw [setGroups_size]
            omega)
      refine ⟨er, mh, caps2, clist2, nlist2, ?_, hc2, hmh, hTIc2, hTIn2,
        hmono2, ?_, ?_, ?_, ?_, hcl2⟩
      · rw [show nfaStepAll insts fold isw text af p (Nat.succ k) i []
            clist nlist =
            (match nfaStep insts fold isw text af p [] nlist
                (clist.groups i) (clist.pcAt i) with
             | none => none
             | some (NStep.MatchEarlyReturn, caps', nlist', tcaps') =>
               some (true, true, caps', clist.setGroups i tcaps', nlist')
             | some (NStep.Match, caps', nlist', tcaps') =>
               some (false, true, caps', clist.setGroups i tcaps', nlist')
             | some (NStep.Continue, caps', nlist', tcaps') =>
               nfaStepAll insts fold isw text af p k (i + 1) caps'
                 (clist.setGroups i tcaps') nlist') from rfl]
        rw [heq]
        exact heq2
      · intro her
        obtain ⟨j, hj1, hj2, hj3⟩ := herj her
        rw [setGroups_size] at hj2
        rw [setGroups_pcAt] at hj3
        exact ⟨j, by omega, hj2, hj3⟩
      · intro j hij hjs hm
        rcases Nat.eq_or_lt_of_le hij with rfl | hgt
        · exact absurd hm hnm
        · refine hmatchj j (by omega) (by rw [setGroups_size]; omega) ?_
          rw [setGroups_pcAt]
          exact hm
      · intro j hij hjs pc' p' he hne
        rcases Nat.eq_or_lt_of_le hij with rfl | hgt
        · exact absurd (hnoc pc' p' he) hne
        · exact hconsj j (by omega) (by rw [setGroups_size]; omega)
            pc' p' (by rw [setGroups_pcAt]; exact he) hne
      · intro q hq
        rcases horig2 q hq with hq2 | ⟨j, hj1, hj2, s, hs1, hs2⟩
        · exact Or.inl hq2
        · rw [setGroups_size] at hj2
          rw [setGroups_pcAt] at hs1
          exact Or.inr ⟨j, by omega, hj2, s, hs1, hs2⟩

theorem nedge_eps_or_cons {insts : List Inst} {fold : Nat → Nat}
    {isw : Nat → Bool} {text : List Nat} {pc p pc' p' : Nat}
    (hpay : PayloadsOk insts) (hv : ValidText text)
    (hb : isBoundary text p = true)
    (h : NEdge insts fold isw text pc p pc' p') :
    (EpsStepAt insts isw text p pc pc' ∧ p' = p) ∨
    (charIsNone (inputAt text p).c = false ∧
      p' = (inputAt text p).nextPos ∧ p < p') := by
  cases h with
  | save hi => exact Or.inl ⟨EpsStepAt.save hi, rfl⟩
  | jump hi => exact Or.inl ⟨EpsStepAt.jump hi, rfl⟩
  | splitl hi => exact Or.inl ⟨EpsStepAt.splitl hi, rfl⟩
  | splitr hi => exact Or.inl ⟨EpsStepAt.splitr hi, rfl⟩
  | look hi hm => exact Or.inl ⟨EpsStepAt.look hi hm, rfl⟩
  | char hi hm =>
    right
    have hp := hpay pc
    rw [hi] at hp
    have hreal := oneChar_matches_real hp hm
    have hlt : p < byteLen text := inputAt_pos_lt_of_real hv hb hreal
    have hsc := inputAt_c_real_of_lt hv hb hlt
    have hlen := charLenUtf8_pos hsc
    refine ⟨hreal, rfl, ?_⟩
    show p < p + (inputAt text p).len
    have : (inputAt text p).len = charLenUtf8 (inputAt text p).c := rfl
    omega
  | ranges hi hm =>
    right
    have hp := hpay pc
    rw [hi] at hp
    have hreal := charRanges_matches_real hp hm
    have hlt : p < byteLen text := inputAt_pos_lt_of_real hv hb hreal
    have hsc := inputAt_c_real_of_lt hv hb hlt
    have hlen := charLenUtf8_pos hsc
    refine ⟨hreal, rfl, ?_⟩
    show p < p + (inputAt text p).len
    have : (inputAt text p).len = charLenUtf8 (inputAt text p).c := rfl
    omega

theorem contains_size_zero {t : Threads} (h : t.size = 0) (pc : Nat) :
    t.contains pc = false := by
  unfold Threads.contains
  rw [h]
  simp

theorem nfaStepAll_adequacy (insts : List Inst) (fold : Nat → Nat)
    (isw : Nat → Bool) (text : List Nat) (p : Nat)
    (hpay : PayloadsOk insts) (hv : ValidText text)
    (hb : isBoundary text p = true) (clist1 nlist2 : Threads) (er : Bool)
    (hTIc : TInvE insts.length clist1)
    (hmatchj : ∀ j, 0 ≤ j → j < clist1.size →
      instAt insts (clist1.pcAt j) = Inst.Match → er = true)
    (hconsj : ∀ j, 0 ≤ j → j < clist1.size →
      ∀ pc' p', NEdge insts fold isw text (clist1.pcAt j) p pc' p' →
        p' ≠ p → er = true ∨ nlist2.contains pc' = true)
    (hclosed : EpsClosedP insts isw text p clist1 (fun _ => False)) :
    ∀ (pc p0 : Nat), NM insts fold isw text pc p0 → p0 = p →
      clist1.contains pc = true →
      er = true ∨ (charIsNone (inputAt text p).c = false ∧
        ∃ q, nlist2.contains q = true ∧
          NM insts fold isw text q ((inputAt text p).nextPos)) := by
  intro pc p0 hnm
  induction hnm with
  | done hi =>
    intro hp0 hcont
    obtain ⟨j, hj, hjp⟩ := tinvE_contains_index hTIc hcont
    left
    refine hmatchj j (by omega) hj ?_
    rw [hjp]
    exact hi
  | step hedge hnm2 ih =>
    intro hp0 hcont
    subst hp0
    rcases nedge_eps_or_cons hpay hv hb hedge with ⟨hstep, hpp⟩ |
      ⟨hreal, hpp, hadv⟩
    · subst hpp
      rcases hclosed _ _ hcont hstep with hc | hc
      · exact ih rfl hc
      · cases hc
    · obtain ⟨j, hj, hjp⟩ := tinvE_contains_index hTIc hcont
      have := hconsj j (by omega) hj _ _ (by rw [hjp]; exact hedge)
        (by omega)
      rcases this with her | hcc
      · exact Or.inl her
      · right
        refine ⟨hreal, _, hcc, ?_⟩
        rw [← hpp]
        exact hnm2

/-- The conclusions of one run of the existence-mode NFA loop from
position `p` with current list `clist`. -/
def NfaLoopConc (prog : Program) (fold : Nat → Nat) (isw : Nat → Bool)
    (text : List Nat) (G : Prop) (p : Nat) (clist : Threads)
    (b : Bool) : Prop :=
  (b = true → G) ∧
  (b = false →
    (∀ pc, clist.contains pc = true →
      ¬ NM prog.insts fold isw text pc p) ∧
    (prog.anchored_begin = false → ∀ m, p ≤ m →
      isBoundary text m = true →
      ¬ NM prog.insts fold isw text 0 m) ∧
    (prog.anchored_begin = true → p = 0 → clist.size = 0 →
      ∀ a', prefixAt text prog.prefixes (inputAt text 0) = some a' →
        ¬ NM prog.insts fold isw text 0 a'.pos))

theorem nfaLoop_iter (prog : Program) (fold : Nat → Nat) (isw : Nat → Bool)
    (text : List Nat) (af : Nat) (G : Prop) (hwf : WfProg prog.insts)
    (hv : ValidText text) (hpay : PayloadsOk prog.insts)
    (haf : prog.insts.length + 1 ≤ af)
    (hrootNA : prog.anchored_begin = false → ∀ q, isBoundary text q = true →
      NM prog.insts fold isw text 0 q → G)
    (lf : Nat)
    (ih : ∀ (p : Nat) (clist nlist : Threads),
      TInvE prog.insts.length clist → TInvE prog.insts.length nlist →
      nlist.size = 0 → isBoundary text p = true →
      byteLen text + 2 ≤ lf + p →
      (∀ pc, clist.contains pc = true →
        NM prog.insts fold isw text pc p → G) →
      EpsClosedP prog.insts isw text p clist (fun _ => False) →
      ∃ b caps',
        nfaLoop prog fold isw text af lf false p [] clist nlist =
          some (b, caps') ∧
        NfaLoopConc prog fold isw text G p clist b)
    (p : Nat) (clist nlist : Threads)
    (hTIc : TInvE prog.insts.length clist)
    (hTIn : TInvE prog.insts.length nlist) (hnz : nlist.size = 0)
    (hb : isBoundary text p = true)
    (hlf : byteLen text + 2 ≤ (lf + 1) + p)
    (hJ : ∀ pc, clist.contains pc = true →
      NM prog.insts fold isw text pc p → G)
    (hclosed : EpsClosedP prog.insts isw text p clist (fun _ => False))
    (p' : Nat)
    (hseleq : (if (clist.size == 0) = true then
        (if false = true then none
         else if (!(decide (p = 0)) && prog.anchored_begin) = true then
           none
         else if (decide (0 < prog.prefixes.length)) = true then
           match prefixAt text prog.prefixes (inputAt text p) with
           | none => none
           | some a' => some a'.pos
         else some p)
      else some p) = some p')
    (hb' : isBoundary text p' = true) (hple : p ≤ p')
    (hskip : ∀ m, p ≤ m → m < p' → isBoundary text m = true →
      ¬ NM prog.insts fold isw text 0 m)
    (hJ0 : (clist.size = 0 ∨ prog.anchored_begin = false) →
      NM prog.insts fold isw text 0 p' → G)
    (halign : clist.size ≠ 0 → p' = p)
    (hclause3 : prog.anchored_begin = true → p = 0 → clist.size = 0 →
      ∀ a', prefixAt text prog.prefixes (inputAt text 0) = some a' →
        a'.pos = p') :
    ∃ b caps',
      nfaLoop prog fold isw text af (Nat.succ lf) false p [] clist nlist =
        some (b, caps') ∧
      NfaLoopConc prog fold isw text G p clist b := by
  have hloopeq : nfaLoop prog fold isw text af (Nat.succ lf) false p []
      clist nlist =
      (match (if (clist.size == 0) = true then
          (if false = true then none
           else if (!(decide (p = 0)) && prog.anchored_begin) = true then
             none
           else if (decide (0 < prog.prefixes.length)) = true then
             match prefixAt text prog.prefixes (inputAt text p) with
             | none => none
             | some a' => some a'.pos
           else some p)
        else some p) with
       | none => some (false, [])
       | some p' =>
         match
           (if (clist.size == 0 || (!prog.anchored_begin && !false)) =
               true then
             nfaAdd prog.insts isw (previousAt text p').c
               (inputAt text p').c p' af clist 0 []
           else some (clist, [])) with
         | none => none
         | some (clist1, caps1) =>
           match nfaStepAll prog.insts fold isw text af p' clist1.size 0
               caps1 clist1 nlist with
           | none => none
           | some (early, mhx, caps2, clist2, nlist2) =>
             if early then some (true, caps2)
             else if charIsNone (inputAt text p').c then
               some (false || mhx, caps2)
             else
               nfaLoop prog fold isw text af lf (false || mhx)
                 (inputAt text p').nextPos caps2 nlist2 clist2.empty)
      := rfl
  rw [hloopeq, hseleq]
  dsimp only
  have hrootAdd : (clist.size = 0 ∨ prog.anchored_begin = false) →
      (clist.size == 0 || (!prog.anchored_begin && !false)) = true := by
    intro hc
    rcases hc with hc | hc
    · rw [Bool.or_eq_true, beq_iff_eq]
      exact Or.inl hc
    · rw [Bool.or_eq_true]
      right
      rw [hc]
      rfl
  have hmain : ∀ (clist1 : Threads),
      TInvE prog.insts.length clist1 →
      (∀ pc, clist1.contains pc = true →
        NM prog.insts fold isw text pc p' → G) →
      EpsClosedP prog.insts isw text p' clist1 (fun _ => False) →
      (∀ pc, clist.contains pc = true → clist1.contains pc = true) →
      ((clist.size = 0 ∨ prog.anchored_begin = false) →
        clist1.contains 0 = true) →
      ∃ b caps',
        (match nfaStepAll prog.insts fold isw text af p' clist1.size 0
            [] clist1 nlist with
         | none => none
         | some (early, mhx, caps2, clist2, nlist2) =>
           if early then some (true, caps2)
           else if charIsNone (inputAt text p').c then
             some (false || mhx, caps2)
           else
             nfaLoop prog fold isw text af lf (false || mhx)
               (inputAt text p').nextPos caps2 nlist2 clist2.empty) =
          some (b, caps') ∧
        NfaLoopConc prog fold isw text G p clist b := by
    intro clist1 hTI1 hJ1 hcl1 hmono1 hroot1
    obtain ⟨er, mh, caps2, clist2, nlist2, hsaeq, hc2, hmh, hTIc2, hTIn2,
      hmono2, herj, hmatchj, hconsj, horig2, hcl2⟩ :=
      nfaStepAll_main prog.insts fold isw text af p' hwf hv hb' hpay haf
        clist1.size 0 clist1 nlist hTI1 hTIn (by omega)
    subst hc2
    rw [hsaeq]
    dsimp only
    cases er with
    | true =>
      rw [if_pos rfl]
      refine ⟨true, [], rfl, ?_⟩
      unfold NfaLoopConc
      refine ⟨fun _ => ?_, by intro h; cases h⟩
      obtain ⟨j, _, hj2, hj3⟩ := herj rfl
      exact hJ1 (clist1.pcAt j) (tinvE_pcAt_contains hTI1 hj2)
        (NM.done hj3)
    | false =>
      rw [if_neg (by simp)]
      subst hmh
      have hadq := nfaStepAll_adequacy prog.insts fold isw text p' hpay hv
        hb' clist1 nlist2 false hTI1 hmatchj hconsj hcl1
      by_cases hend : charIsNone (inputAt text p').c = true
      · rw [if_pos hend]
        have hrefute : ∀ pc, clist1.contains pc = true →
            ¬ NM prog.insts fold isw text pc p' := by
          intro pc hpc hnm
          rcases hadq pc p' hnm rfl hpc with hc | ⟨hreal, _⟩
          · cases hc
          · rw [hend] at hreal
            cases hreal
        refine ⟨false, [], rfl, ?_⟩
        unfold NfaLoopConc
        refine ⟨(by intro h; cases h), fun _ => ?_⟩
        refine ⟨?_, ?_, ?_⟩
        · intro pc hpc hnm
          by_cases hsz : clist.size = 0
          · rw [contains_size_zero hsz] at hpc
            cases hpc
          · rw [← halign hsz] at hnm
            exact hrefute pc (hmono1 pc hpc) hnm
        · intro hNA m hm hbm hnm
          rcases Nat.lt_or_ge m p' with hlt | hge
          · exact hskip m hm hlt hbm hnm
          · rcases Nat.eq_or_lt_of_le hge with heq | hgt
            · rw [← heq] at hnm
              exact hrefute 0 (hroot1 (Or.inr hNA)) hnm
            · have hpend : byteLen text ≤ p' := by
                by_contra hcon
                push_neg at hcon
                rw [charIsNone_of_scalar
                  (inputAt_c_real_of_lt hv hb' hcon)] at hend
                cases hend
              have := isBoundary_le text m hbm
              omega
        · intro hA hp0 hsz a' hsel
          rw [hclause3 hA hp0 hsz a' hsel]
          exact hrefute 0 (hroot1 (Or.inl hsz))
      · rw [if_neg hend]
        rw [Bool.not_eq_true] at hend
        have hreal : isScalarValue (inputAt text p').c = true := by
          rcases Nat.lt_or_ge p' (byteLen text) with hlt | hge
          · exact inputAt_c_real_of_lt hv hb' hlt
          · rw [inputAt_c_none_of_ge hv hb' hge] at hend
            cases hend
        have hlen : 1 ≤ (inputAt text p').len := by
          show 1 ≤ charLenUtf8 (inputAt text p').c
          exact charLenUtf8_pos hreal
        have hnp : (inputAt text p').nextPos = p' + (inputAt text p').len :=
          rfl
        have hbn : isBoundary text ((inputAt text p').nextPos) = true :=
          isBoundary_step text p' hb'
        have hJn : ∀ pc, nlist2.contains pc = true →
            NM prog.insts fold isw text pc ((inputAt text p').nextPos) →
            G := by
          intro pc hpc hnm
          rcases horig2 pc hpc with hc | ⟨j, _, hj2, s, hs1, hs2⟩
          · rw [contains_size_zero hnz] at hc
            cases hc
          · exact hJ1 (clist1.pcAt j) (tinvE_pcAt_contains hTI1 hj2)
              (NM.step hs1 (epsReachAt_nm hs2 hnm))
        have hcln : EpsClosedP prog.insts isw text
            ((inputAt text p').nextPos) nlist2 (fun _ => False) := by
          refine hcl2 ?_
          intro u v hu _
          rw [contains_size_zero hnz] at hu
          cases hu
        obtain ⟨b, caps', hreceq, hrconc⟩ := ih ((inputAt text p').nextPos)
          nlist2 clist2.empty hTIn2 (tinvE_empty hTIc2) rfl hbn
          (by rw [hnp]; omega) hJn hcln
        obtain ⟨hrtrue, hrfalse⟩ := hrconc
        refine ⟨b, caps', ?_, ?_⟩
        · show nfaLoop prog fold isw text af lf (false || false)
            ((inputAt text p').nextPos) [] nlist2 clist2.empty =
            some (b, caps')
          exact hreceq
        unfold NfaLoopConc
        refine ⟨hrtrue, ?_⟩
        · intro hbf
          obtain ⟨hr1, hr2, hr3⟩ := hrfalse hbf
          have hrefute : ∀ pc, clist1.contains pc = true →
              ¬ NM prog.insts fold isw text pc p' := by
            intro pc hpc hnm
            rcases hadq pc p' hnm rfl hpc with hc | ⟨_, q, hq1, hq2⟩
            · cases hc
            · exact hr1 q hq1 hq2
          refine ⟨?_, ?_, ?_⟩
          · intro pc hpc hnm
            by_cases hsz : clist.size = 0
            · rw [contains_size_zero hsz] at hpc
              cases hpc
            · rw [← halign hsz] at hnm
              exact hrefute pc (hmono1 pc hpc) hnm
          · intro hNA m hm hbm hnm
            rcases Nat.lt_or_ge m p' with hlt | hge
            · exact hskip m hm hlt hbm hnm
            · rcases Nat.eq_or_lt_of_le hge with heq | hgt
              · rw [← heq] at hnm
                exact hrefute 0 (hroot1 (Or.inr hNA)) hnm
              · have hgap := isBoundary_gap text p' m hb' hbm hgt
                exact hr2 hNA m hgap hbm hnm
          · intro hA hp0 hsz a' hsel
            rw [hclause3 hA hp0 hsz a' hsel]
            exact hrefute 0 (hroot1 (Or.inl hsz))
  by_cases hadd : (clist.size == 0 || (!prog.anchored_begin && !false)) =
      true
  · rw [if_pos hadd]
    obtain ⟨clist1, caps1, haddeq⟩ := nfaAdd_total prog.insts isw text p'
      p' hwf af clist 0 [] hTIc hwf.1 (by
        have := tinvE_size_le hTIc
        omega)
    have hcaps1 : caps1 = [] :=
      nfaAdd_nil_tcaps prog.insts isw (previousAt text p').c
        (inputAt text p').c p' af clist 0 clist1 caps1 haddeq
    obtain ⟨hTI1, hc01, hmono1, _, horig1, hclo1⟩ :=
      nfaAdd_main prog.insts isw text p' p' hwf af clist 0 [] clist1
        caps1 hTIc hwf.1 haddeq
    rw [haddeq]
    dsimp only
    subst hcaps1
    refine hmain clist1 hTI1 ?_ ?_ hmono1 (fun _ => hc01)
    · intro pc hpc hnm
      rcases horig1 pc hpc with hc | hc
      · by_cases hsz : clist.size = 0
        · rw [contains_size_zero hsz] at hc
          cases hc
        · rw [← halign hsz] at hJ
          exact hJ pc hc hnm
      · refine hJ0 ?_ (epsReachAt_nm hc hnm)
        rw [Bool.or_eq_true, beq_iff_eq] at hadd
        rcases hadd with hc2 | hc2
        · exact Or.inl hc2
        · right
          rw [Bool.and_eq_true, Bool.not_eq_true'] at hc2
          exact hc2.1
    · refine hclo1 (fun _ => False) ?_
      intro u v hu he
      by_cases hsz : clist.size = 0
      · rw [contains_size_zero hsz] at hu
        cases hu
      · rw [← halign hsz] at hclosed
        rcases hclosed u v hu he with hc | hc
        · exact Or.inl hc
        · cases hc
  · rw [if_neg hadd]
    dsimp only
    have hna : clist.size ≠ 0 ∧ prog.anchored_begin = true := by
      constructor
      · intro hsz
        exact hadd (hrootAdd (Or.inl hsz))
      · cases hA : prog.anchored_begin with
        | false => exact absurd (hrootAdd (Or.inr hA)) hadd
        | true => rfl
    refine hmain clist hTIc ?_ ?_ (fun pc hpc => hpc) ?_
    · rw [halign hna.1]
      exact hJ
    · rw [halign hna.1]
      exact hclosed
    · intro hc
      rcases hc with hc | hc
      · exact absurd hc hna.1
      · rw [hc] at hna
        cases hna.2

theorem nfaLoop_main (prog : Program) (fold : Nat → Nat) (isw : Nat → Bool)
    (text : List Nat) (af : Nat) (G : Prop) (hwf : WfProg prog.insts)
    (hv : ValidText text) (hpay : PayloadsOk prog.insts)
    (hnd : ∀ nd ∈ prog.prefixes, ValidNeedle nd)
    (hsound : prog.prefixes ≠ [] → ∀ m, isBoundary text m = true →
      NM prog.insts fold isw text 0 m → PrefOcc text prog.prefixes m)
    (haf : prog.insts.length + 1 ≤ af)
    (hrootNA : prog.anchored_begin = false → ∀ q, isBoundary text q = true →
      NM prog.insts fold isw text 0 q → G)
    (hrootA : prog.anchored_begin = true → ∀ a',
      prefixAt text prog.prefixes (inputAt text 0) = some a' →
      NM prog.insts fold isw text 0 a'.pos → G) :
    ∀ (lf : Nat) (p : Nat) (clist nlist : Threads),
      TInvE prog.insts.length clist → TInvE prog.insts.length nlist →
      nlist.size = 0 → isBoundary text p = true →
      byteLen text + 2 ≤ lf + p →
      (∀ pc, clist.contains pc = true →
        NM prog.insts fold isw text pc p → G) →
      EpsClosedP prog.insts isw text p clist (fun _ => False) →
      ∃ b caps',
        nfaLoop prog fold isw text af lf false p [] clist nlist =
          some (b, caps') ∧
        NfaLoopConc prog fold isw text G p clist b := by
  intro lf
  induction lf with
  | zero =>
    intro p clist nlist _ _ _ hb hlf _ _
    have := isBoundary_le text p hb
    omega
  | succ lf ihl =>
    intro p clist nlist hTIc hTIn hnz hb hlf hJ hclosed
    by_cases hcz : clist.size = 0
    · have hbeq : (clist.size == 0) = true := by rw [beq_iff_eq]; exact hcz
      by_cases hanch : (!(decide (p = 0)) && prog.anchored_begin) = true
      · -- anchored and past the beginning with an empty list: terminate
        have hsel : (if (clist.size == 0) = true then
            (if false = true then none
             else if (!(decide (p = 0)) && prog.anchored_begin) = true then
               none
             else if (decide (0 < prog.prefixes.length)) = true then
               match prefixAt text prog.prefixes (inputAt text p) with
               | none => none
               | some a' => some a'.pos
             else some p)
          else some p) = (none : Option Nat) := by
          rw [if_pos hbeq, if_neg (by simp), if_pos hanch]
        have heq : nfaLoop prog fold isw text af (Nat.succ lf) false p []
            clist nlist = some (false, []) := by
          show (match (if (clist.size == 0) = true then
              (if false = true then none
               else if (!(decide (p = 0)) && prog.anchored_begin) = true then
                 none
               else if (decide (0 < prog.prefixes.length)) = true then
                 match prefixAt text prog.prefixes (inputAt text p) with
                 | none => none
                 | some a' => some a'.pos
               else some p)
            else some p) with
           | none => some (false, [])
           | some p' => _) = some (false, [])
          rw [hsel]
        rw [Bool.and_eq_true, Bool.not_eq_true', decide_eq_false_iff_not]
          at hanch
        refine ⟨false, [], heq, ?_⟩
        unfold NfaLoopConc
        refine ⟨(by intro h; cases h), fun _ => ⟨?_, ?_, ?_⟩⟩
        · intro pc hpc
          rw [contains_size_zero hcz] at hpc
          cases hpc
        · intro hNA
          rw [hNA] at hanch
          cases hanch.2
        · intro _ hp0
          exact absurd hp0 hanch.1
      · have hok : p = 0 ∨ prog.anchored_begin = false := by
          by_cases hp : p = 0
          · exact Or.inl hp
          · right
            cases hA : prog.anchored_begin
            · rfl
            · exfalso
              apply hanch
              rw [Bool.and_eq_true, Bool.not_eq_true', hA,
                decide_eq_false_iff_not]
              exact ⟨hp, rfl⟩
        by_cases hpref : (decide (0 < prog.prefixes.length)) = true
        · have hne : prog.prefixes ≠ [] := by
            rw [decide_eq_true_iff] at hpref
            intro hcon
            rw [hcon] at hpref
            cases hpref
          cases hpa : prefixAt text prog.prefixes (inputAt text p) with
          | none =>
            have hsel : (if (clist.size == 0) = true then
                (if false = true then none
                 else if (!(decide (p = 0)) && prog.anchored_begin) =
                     true then none
                 else if (decide (0 < prog.prefixes.length)) = true then
                   match prefixAt text prog.prefixes (inputAt text p) with
                   | none => none
                   | some a' => some a'.pos
                 else some p)
              else some p) = (none : Option Nat) := by
              rw [if_pos hbeq, if_neg (by simp), if_neg hanch,
                if_pos hpref, hpa]
            have heq : nfaLoop prog fold isw text af (Nat.succ lf) false p
                [] clist nlist = some (false, []) := by
              show (match (if (clist.size == 0) = true then
                  (if false = true then none
                   else if (!(decide (p = 0)) && prog.anchored_begin) =
                       true then none
                   else if (decide (0 < prog.prefixes.length)) = true then
                     match prefixAt text prog.prefixes (inputAt text p) with
                     | none => none
                     | some a' => some a'.pos
                   else some p)
                else some p) with
               | none => some (false, [])
               | some p' => _) = some (false, [])
              rw [hsel]
            refine ⟨false, [], heq, ?_⟩
            unfold NfaLoopConc
            refine ⟨(by intro h; cases h), fun _ => ⟨?_, ?_, ?_⟩⟩
            · intro pc hpc
              rw [contains_size_zero hcz] at hpc
              cases hpc
            · intro _ m hm hbm hnm
              refine prefixAt_none_noocc hnd hpa m ?_
                (hsound hne m hbm hnm)
              show p ≤ m
              exact hm
            · intro _ hp0 _ a' hsel'
              rw [hp0] at hpa
              rw [hpa] at hsel'
              cases hsel'
          | some a0 =>
            obtain ⟨⟨ha0eq, hb0⟩, hple0⟩ :=
              prefixAt_atOk hv hnd ⟨rfl, hb⟩ hpa
            refine nfaLoop_iter prog fold isw text af G hwf hv hpay haf
              hrootNA lf ihl p clist nlist hTIc hTIn hnz hb hlf hJ hclosed
              a0.pos ?_ hb0 hple0 ?_ ?_ ?_ ?_
            · rw [if_pos hbeq, if_neg (by simp), if_neg hanch,
                if_pos hpref, hpa]
            · intro m hm hm2 hbm hnm
              refine prefixAt_min_noocc hnd hpa m ?_ hm2
                (hsound hne m hbm hnm)
              show p ≤ m
              exact hm
            · intro _ hnm
              cases hA : prog.anchored_begin with
              | false => exact hrootNA hA a0.pos hb0 hnm
              | true =>
                rcases hok with hp0 | hf
                · rw [hp0] at hpa
                  exact hrootA hA a0 hpa hnm
                · rw [hA] at hf
                  cases hf
            · intro h
              exact (h hcz).elim
            · intro hA hp0 _ a' hsel'
              rw [hp0] at hpa
              rw [hpa] at hsel'
              injection hsel' with h
              rw [← h]
        · have hprefnil : prog.prefixes = [] := by
            rw [decide_eq_true_iff] at hpref
            cases hp : prog.prefixes with
            | nil => rfl
            | cons q qs =>
              exfalso
              apply hpref
              rw [hp]
              simp
          refine nfaLoop_iter prog fold isw text af G hwf hv hpay haf
            hrootNA lf ihl p clist nlist hTIc hTIn hnz hb hlf hJ hclosed
            p ?_ hb le_rfl ?_ ?_ ?_ ?_
          · rw [if_pos hbeq, if_neg (by simp), if_neg hanch, if_neg hpref]
          · intro m hm hm2
            omega
          · intro _ hnm
            cases hA : prog.anchored_begin with
            | false => exact hrootNA hA p hb hnm
            | true =>
              rcases hok with hp0 | hf
              · refine hrootA hA (inputAt text 0) ?_ ?_
                · rw [hprefnil]
                  rfl
                · show NM prog.insts fold isw text 0 0
                  rw [hp0] at hnm
                  exact hnm
              · rw [hA] at hf
                cases hf
          · intro _
            rfl
          · intro hA hp0 _ a' hsel'
            rw [hprefnil] at hsel'
            injection hsel' with h
            rw [← h]
            show (0 : Nat) = p
            rw [hp0]
    · refine nfaLoop_iter prog fold isw text af G hwf hv hpay haf
        hrootNA lf ihl p clist nlist hTIc hTIn hnz hb hlf hJ hclosed
        p ?_ hb le_rfl ?_ ?_ ?_ ?_
      · rw [if_neg]
        rw [beq_iff_eq]
        exact hcz
      · intro m hm hm2
        omega
      · intro hc hnm
        rcases hc with hc | hc
        · exact absurd hc hcz
        · exact hrootNA hc p hb hnm
      · intro _
        rfl
      · intro _ _ hsz
        exact absurd hsz hcz

theorem sampleProg1_payloads : PayloadsOk sampleProg1.insts := by
  intro pc
  match pc with
  | 0 => trivial
  | 1 => exact (by decide : isScalarValue (97 : Nat) = true)
  | 2 => trivial
  | 3 => trivial
  | (n + 4) => trivial

/-- C1: in existence-only mode (empty capture buffer), from start offset
0, the NFA thread-simulation engine (`Nfa::run`) and the bounded
backtracking engine (`Backtrack::exec`) return the same boolean, for
every well-formed program on valid text (with sufficient fuel for the
backtracker, and — when the program carries literal prefixes — the
compiler-guaranteed property that every match starts with one of the
prefixes). -/
theorem engines_existence_agree (prog : Program) (fold : Nat → Nat)
    (isw : Nat → Bool) (text : List Nat) (sf lf ef : Nat)
    (hwf : WfProg prog.insts) (hv : ValidText text)
    (hpay : PayloadsOk prog.insts)
    (hnd : ∀ nd ∈ prog.prefixes, ValidNeedle nd)
    (hsound : prog.prefixes ≠ [] → ∀ m, isBoundary text m = true →
      NM prog.insts fold isw text 0 m → PrefOcc text prog.prefixes m)
    (hsf : prog.insts.length * (byteLen text + 1) + 1 ≤ sf)
    (hlf : 2 * (prog.insts.length * (byteLen text + 1)) + 1 < lf)
    (hef : byteLen text + 1 ≤ ef) :
    ∃ b st' caps',
      btExec prog fold isw [] text 0 sf lf ef = some (b, st') ∧
      nfaRun prog fold isw [] text 0 = some (b, caps') := by
  have hsi0 : SI prog.insts text
      { caps := [], jobs := [], visited := [] } := by
    refine ⟨List.nodup_nil, ?_, ?_⟩
    · intro q hq
      cases hq
    · intro j hj
      cases hj
  have hcl0 : BtClosed prog.insts fold isw text
      { caps := [], jobs := [], visited := [] } := by
    intro pc p hmem
    cases hmem
  have hTIe : TInvE prog.insts.length
      ((Threads.mkNew prog.insts.length (numCaptures prog.insts)).empty) :=
    tinvE_empty ⟨[], threadsInv_mkNew _ _⟩
  have ha0 : AtOk text (inputAt text 0) := ⟨rfl, isBoundary_zero text⟩
  cases hA : prog.anchored_begin with
  | false =>
    have hex : btExec prog fold isw [] text 0 sf lf ef =
        btExecLoop prog fold isw text sf lf ef (inputAt text 0)
          { caps := [], jobs := [], visited := [] } := by
      unfold btExec
      rw [hA]
      rfl
    obtain ⟨b1, st1, hbt, _⟩ := btExecLoop_total prog fold isw text hwf hv
      hnd sf lf hsf hlf ef (inputAt text 0)
      { caps := [], jobs := [], visited := [] } hsi0 rfl ha0
      (by show byteLen text + 1 ≤ ef + 0; omega)
    obtain ⟨b2, caps2, hnf, hconc⟩ := nfaLoop_main prog fold isw text
      (prog.insts.length + 1)
      (∃ m, isBoundary text m = true ∧ NM prog.insts fold isw text 0 m)
      hwf hv hpay hnd hsound le_rfl
      (fun _ q hbq hnm => ⟨q, hbq, hnm⟩)
      (by intro hAa; rw [hA] at hAa; cases hAa)
      (byteLen text + 2) 0
      ((Threads.mkNew prog.insts.length (numCaptures prog.insts)).empty)
      ((Threads.mkNew prog.insts.length (numCaptures prog.insts)).empty)
      hTIe hTIe rfl (isBoundary_zero text) (by omega)
      (by intro pc hpc; rw [contains_size_zero rfl] at hpc; cases hpc)
      (by intro u v hu hstep; rw [contains_size_zero rfl] at hu; cases hu)
    obtain ⟨hct, hcf⟩ := hconc
    have hbb : b2 = b1 := by
      cases b1 with
      | true =>
        cases b2 with
        | true => rfl
        | false =>
          exfalso
          obtain ⟨m, hbm, hnm⟩ := btExecLoop_true_nm prog fold isw text
            hwf hv hnd sf lf ef (inputAt text 0) _ st1 hsi0 rfl ha0 hbt
          obtain ⟨_, hcl2, _⟩ := hcf rfl
          exact hcl2 hA m (Nat.zero_le m) hbm hnm
      | false =>
        cases b2 with
        | false => rfl
        | true =>
          exfalso
          obtain ⟨m, hbm, hnm⟩ := hct rfl
          exact btExecLoop_false_nm prog fold isw text hwf hv hnd hsound
            sf lf ef (inputAt text 0) _ st1 hsi0 rfl ha0 hcl0 hbt m
            (Nat.zero_le m) hbm hnm
    refine ⟨b1, st1, caps2, ?_, ?_⟩
    · rw [hex]
      exact hbt
    · rw [hbb] at hnf
      exact hnf
  | true =>
    have hex0 : btExec prog fold isw [] text 0 sf lf ef =
        (match prefixAt text prog.prefixes (inputAt text 0) with
         | none =>
           some (false,
             ({ caps := [], jobs := [], visited := [] } : BtState))
         | some a'' =>
           btBacktrack prog.insts fold isw text sf lf a''
             { caps := [], jobs := [], visited := [] }) := by
      unfold btExec
      rw [hA]
      rfl
    cases hpf : prefixAt text prog.prefixes (inputAt text 0) with
    | none =>
      have hex : btExec prog fold isw [] text 0 sf lf ef =
          some (false, { caps := [], jobs := [], visited := [] }) := by
        rw [hex0, hpf]
      obtain ⟨b2, caps2, hnf, hconc⟩ := nfaLoop_main prog fold isw text
        (prog.insts.length + 1)
        (∃ a', prefixAt text prog.prefixes (inputAt text 0) = some a' ∧
          NM prog.insts fold isw text 0 a'.pos)
        hwf hv hpay hnd hsound le_rfl
        (by intro hNA; rw [hA] at hNA; cases hNA)
        (fun _ a' hsel hnm => ⟨a', hsel, hnm⟩)
        (byteLen text + 2) 0
        ((Threads.mkNew prog.insts.length (numCaptures prog.insts)).empty)
        ((Threads.mkNew prog.insts.length (numCaptures prog.insts)).empty)
        hTIe hTIe rfl (isBoundary_zero text) (by omega)
        (by intro pc hpc; rw [contains_size_zero rfl] at hpc; cases hpc)
        (by intro u v hu hstep; rw [contains_size_zero rfl] at hu; cases hu)
      obtain ⟨hct, _⟩ := hconc
      have hb2 : b2 = false := by
        cases b2 with
        | false => rfl
        | true =>
          exfalso
          obtain ⟨a', hsel, _⟩ := hct rfl
          rw [hpf] at hsel
          cases hsel
      refine ⟨false, { caps := [], jobs := [], visited := [] }, caps2,
        hex, ?_⟩
      rw [hb2] at hnf
      exact hnf
    | some a' =>
      have hex : btExec prog fold isw [] text 0 sf lf ef =
          btBacktrack prog.insts fold isw text sf lf a'
            { caps := [], jobs := [], visited := [] } := by
        rw [hex0, hpf]
      obtain ⟨⟨ha'eq, hb'⟩, hple'⟩ := prefixAt_atOk hv hnd ha0 hpf
      obtain ⟨b1, st1, hbt, _⟩ := btBacktrack_total prog.insts fold isw
        text hwf hv sf lf a' { caps := [], jobs := [], visited := [] }
        hsi0 ⟨ha'eq, hb'⟩ hsf
        (by show 0 + 2 * (prog.insts.length * (byteLen text + 1)) + 1 <
          lf + 2 * 0; omega)
      obtain ⟨b2, caps2, hnf, hconc⟩ := nfaLoop_main prog fold isw text
        (prog.insts.length + 1)
        (∃ a'', prefixAt text prog.prefixes (inputAt text 0) = some a'' ∧
          NM prog.insts fold isw text 0 a''.pos)
        hwf hv hpay hnd hsound le_rfl
        (by intro hNA; rw [hA] at hNA; cases hNA)
        (fun _ a'' hsel hnm => ⟨a'', hsel, hnm⟩)
        (byteLen text + 2) 0
        ((Threads.mkNew prog.insts.length (numCaptures prog.insts)).empty)
        ((Threads.mkNew prog.insts.length (numCaptures prog.insts)).empty)
        hTIe hTIe rfl (isBoundary_zero text) (by omega)
        (by intro pc hpc; rw [contains_size_zero rfl] at hpc; cases hpc)
        (by intro u v hu hstep; rw [contains_size_zero rfl] at hu; cases hu)
      obtain ⟨hct, hcf⟩ := hconc
      have hbb : b2 = b1 := by
        cases b1 with
        | true =>
          cases b2 with
          | true => rfl
          | false =>
            exfalso
            have hnm := btBacktrack_true_nm prog.insts fold isw text hwf
              hv sf lf a' _ st1 hsi0 rfl ⟨ha'eq, hb'⟩ hbt
            obtain ⟨_, _, hc3⟩ := hcf rfl
            exact hc3 hA rfl rfl a' hpf hnm
        | false =>
          cases b2 with
          | false => rfl
          | true =>
            exfalso
            obtain ⟨a'', hsel, hnm⟩ := hct rfl
            rw [hpf] at hsel
            injection hsel with he
            rw [← he] at hnm
            have hje1 := (btBacktrack_false prog.insts fold isw text sf
              lf a' _ st1 hbt).1
            obtain ⟨hcl1, hroot1, _⟩ := btBacktrack_closed prog.insts
              fold isw text hwf hv sf lf a' _ st1 hsi0 ⟨ha'eq, hb'⟩ hcl0
              hbt
            exact btClosed_refute prog.insts fold isw text hje1 hcl1 0
              a'.pos hnm hroot1
      refine ⟨b1, st1, caps2, ?_, ?_⟩
      · rw [hex]
        exact hbt
      · rw [hbb] at hnf
        exact hnf

/-- Witness for C1 at a concrete program, text and fuels. -/
theorem engines_existence_agree_witness :
    ∃ b st' caps',
      btExec sampleProg1 (fun c => c) (fun _ => false) [] [97] 0 9 18 2 =
        some (b, st') ∧
      nfaRun sampleProg1 (fun c => c) (fun _ => false) [] [97] 0 =
        some (b, caps') :=
  engines_existence_agree sampleProg1 (fun c => c) (fun _ => false) [97]
    9 18 2 sampleProg1_wf
    (by intro c hc; rw [List.mem_singleton] at hc; subst hc; decide)
    sampleProg1_payloads
    (by intro nd hnd; cases hnd) (fun h => absurd rfl h)
    (by decide) (by decide) (by decide)
